import Mathlib

/-!
# Voxel engine: Morton / Hilbert keys and the face quadtree

A shallow embedding of `hilbertsort.cpp` (Morton codes, the 3-D Hilbert key and its
early-exit comparator) and of `quadtree.cpp` (the heap-layout coverage quadtree of a
cube face), followed by the properties proved about them.

Machine integers are natural numbers.  The only operation of the embedded code that
can leave the 64-bit (resp. 32-bit) range is the left shift, which is therefore
truncated explicitly (`shl64`, `shl32`).
-/

/-- Left shift of a `uint64_t`: bits moved past position 63 are lost. -/
def shl64 (a s : Nat) : Nat := (a <<< s) % 2 ^ 64

/-- Left shift of a 32-bit `int` / `unsigned int`: bits moved past position 31 are lost. -/
def shl32 (a s : Nat) : Nat := (a <<< s) % 2 ^ 32

namespace hilbertsort

/-- The masks `B[]` of `hilbertsort.cpp`. -/
def B : List Nat :=
  [0xFFFF00000000FFFF, 0x00FF0000FF0000FF, 0xF00F00F00F00F00F,
   0x30C30C30C30C30C3, 0x9249249249249249]

/-- The shift amounts `S[]` of `hilbertsort.cpp`. -/
def S : List Nat := [32, 16, 8, 4, 2]

/-- One assignment `x = (x | (x << S[i])) & B[i]` of the loop of `morton3d`. -/
def morton3d_pass (i x : Nat) : Nat := (x ||| shl64 x (S.getD i 0)) &&& B.getD i 0

/-- The loop `for (i = 0; i < 5; i++)` of `morton3d`, applied to one of the three
variables (the three are updated independently of one another). -/
def morton3d_spread (x : Nat) : Nat := (List.range 5).foldl (fun a i => morton3d_pass i a) x

/-- `uint64_t morton3d(uint64_t x, uint64_t y, uint64_t z)`. -/
def morton3d (x y z : Nat) : Nat :=
  morton3d_spread x ||| shl64 (morton3d_spread y) 1 ||| shl64 (morton3d_spread z) 2

/-- A `point` (declared in `pointset.h`): three unsigned integer coordinates. -/
structure point where
  x : Nat
  y : Nat
  z : Nat
deriving DecidableEq, Repr

/-- The loop variables `start`, `end`, `ret` of `hilbert3d`. -/
structure HilbertState where
  start : Nat
  end_ : Nat
  ret : Nat
deriving DecidableEq, Repr

/-- The lookup `(0x30210 >> (start ^ end)*4) & 3`. -/
def travel_shift (start end_ : Nat) : Nat := (0x30210 >>> ((start ^^^ end_) * 4)) &&& 3

/-- The digit `i` computed from the Morton digit of level `j`:
`rg = ((val >> 3*j) & 7) ^ start; i = (((rg << 3) | rg) >> travel_shift) & 7;
i = (0x54672310 >> i*4) & 7`. -/
def hilbert_digit (val j start end_ : Nat) : Nat :=
  let rg := ((val >>> (3 * j)) &&& 7) ^^^ start
  let i := ((shl64 rg 3 ||| rg) >>> travel_shift start end_) &&& 7
  (0x54672310 >>> (i * 4)) &&& 7

/-- The new `start` computed from the digit `i`:
`si = (0x64422000 >> i*4) & 7; sg = (si ^ (si>>1)) << travel_shift;
start = ((sg | (sg >> 3)) & 7) ^ start`. -/
def next_start (i start end_ : Nat) : Nat :=
  let si := (0x64422000 >>> (i * 4)) &&& 7
  let sg := shl64 (si ^^^ (si >>> 1)) (travel_shift start end_)
  ((sg ||| (sg >>> 3)) &&& 7) ^^^ start

/-- The new `end` computed from the digit `i`: `ei = (0x77755331 >> i*4) & 7;
eg = (ei ^ (ei>>1)) << travel_shift; end = ((eg | (eg >> 3)) & 7) ^ start`. -/
def next_end (i start end_ : Nat) : Nat :=
  let ei := (0x77755331 >>> (i * 4)) &&& 7
  let eg := shl64 (ei ^^^ (ei >>> 1)) (travel_shift start end_)
  ((eg ||| (eg >>> 3)) &&& 7) ^^^ start

/-- The body of the loop of `hilbert3d` for loop index `j`. -/
def hilbert3d_body (val j : Nat) (st : HilbertState) : HilbertState :=
  let i := hilbert_digit val j st.start st.end_
  { start := next_start i st.start st.end_
    end_ := next_end i st.start st.end_
    ret := shl64 st.ret 3 ||| i }

/-- The loop variables of `hilbert3d` after `k` iterations of
`for (j = 19; j >= 0; j--)`; iteration number `k` (counted from 0) runs with `j = 19 - k`. -/
def hilbert3d_iter (val : Nat) : Nat → HilbertState
  | 0 => { start := 0, end_ := 1, ret := 0 }
  | k + 1 => hilbert3d_body val (19 - k) (hilbert3d_iter val k)

/-- `uint64_t hilbert3d(const point & p)`. -/
def hilbert3d (p : point) : Nat := (hilbert3d_iter (morton3d p.x p.y p.z) 20).ret

/-- Control state of the loop of `hilbert3d_compare`: still running with the loop
variables `start`, `end`, or left through one of the two `return` statements. -/
inductive CompareState where
  | running (start end_ : Nat)
  | returned (b : Bool)
deriving DecidableEq, Repr

/-- The body of the loop of `hilbert3d_compare` for loop index `j`. -/
def hilbert3d_compare_body (val1 val2 j : Nat) : CompareState → CompareState
  | .returned b => .returned b
  | .running start end_ =>
    let i1 := hilbert_digit val1 j start end_
    let i2 := hilbert_digit val2 j start end_
    if i1 < i2 then .returned true
    else if i1 > i2 then .returned false
    else .running (next_start i1 start end_) (next_end i1 start end_)

/-- The control state of `hilbert3d_compare` after `k` iterations of its loop. -/
def hilbert3d_compare_iter (val1 val2 : Nat) : Nat → CompareState
  | 0 => .running 0 1
  | k + 1 => hilbert3d_compare_body val1 val2 (19 - k) (hilbert3d_compare_iter val1 val2 k)

/-- `bool hilbert3d_compare(const point & p1, const point & p2)`: the value returned
inside the loop, or `false` when the loop runs to its end. -/
def hilbert3d_compare (p1 p2 : point) : Bool :=
  match hilbert3d_compare_iter (morton3d p1.x p1.y p1.z) (morton3d p2.x p2.y p2.z) 20 with
  | .returned b => b
  | .running _ _ => false

/-- Conversion of a `uint64_t` value to `int64_t` (two's complement), as in
`int64_t cur = morton3d(...)`. -/
def toInt64 (v : Nat) : Int :=
  if v % 2 ^ 64 < 2 ^ 63 then ((v % 2 ^ 64 : Nat) : Int) else ((v % 2 ^ 64 : Nat) : Int) - 2 ^ 64

/-- The variables `old`, `nodecount[20]` and `maxnode` of the counting loop of `main`. -/
structure CountState where
  old : Int
  nodecount : Nat → Nat
  maxnode : Int

/-- The inner loop `for (j = 0; j < n; j++) if ((cur>>j*3) != (old>>j*3)) nodecount[19-j]++`
of the counting loop (`n = 20` in the source). -/
def count_inner (cur old : Int) (nodecount : Nat → Nat) : Nat → (Nat → Nat)
  | 0 => nodecount
  | j + 1 =>
    let nc := count_inner cur old nodecount j
    if cur >>> (j * 3) ≠ old >>> (j * 3) then Function.update nc (19 - j) (nc (19 - j) + 1)
    else nc

/-- The body of the counting loop of `main` for the point `q = p.list[i]`. -/
def count_step (st : CountState) (q : point) : CountState :=
  let cur := toInt64 (morton3d q.x q.y q.z)
  { old := cur
    nodecount := count_inner cur st.old st.nodecount 20
    maxnode := if st.maxnode < cur then cur else st.maxnode }

/-- The counting loop of `main` over the point list, started with `nodecount[j] = 0`,
`maxnode = 0` and `old = -1`. -/
def count_nodes (ps : List point) : CountState :=
  ps.foldl count_step { old := -1, nodecount := fun _ => 0, maxnode := 0 }

/-- The loop `while (maxnode >> layers*3) layers++`, entered with the given value of
`layers`.  A shift by 64 or more bits is undefined (`none`); this happens at `layers = 22`
at the latest, so the first argument, which bounds the number of iterations, never runs
out when it is at least 23. -/
def layers_loop (maxnode : Int) : Nat → Nat → Option Nat
  | 0, _ => none
  | fuel + 1, layers =>
    if 64 ≤ layers * 3 then none
    else if maxnode >>> (layers * 3) ≠ 0 then layers_loop maxnode fuel (layers + 1)
    else some layers

/-- The value of `layers` after `int layers = 0; while (maxnode >> layers*3) layers++;`. -/
def count_layers (maxnode : Int) : Option Nat := layers_loop maxnode 23 0

/-- How the layer computation of `main` ends: the assertion `nonlayers >= 0` holds, or
it fails (the program aborts). -/
inductive LayerOutcome where
  | ok (layers : Nat) (nonlayers : Int)
  | assert_failed (layers : Nat) (nonlayers : Int)
deriving DecidableEq, Repr

/-- The layer computation of `main` for the point list `ps` and the argument
`repeat_depth`: `layers`, `int nonlayers = 19 - layers - repeat_depth` and
`assert(nonlayers >= 0)`. -/
def main_layers (ps : List point) (repeat_depth : Int) : Option LayerOutcome :=
  (count_layers (count_nodes ps).maxnode).map fun (layers : Nat) =>
    let nonlayers : Int := 19 - (layers : Int) - repeat_depth
    if 0 ≤ nonlayers then .ok layers nonlayers else .assert_failed layers nonlayers

/-- The loop `for (int i = nonlayers; i < 20; i++) if (i < 19) nodesum += nodecount[i];`
of `main`, with its variables `i` and `nodesum` (`uint64_t`).  The first argument bounds
the number of iterations. -/
def nodesum_loop (nodecount : Nat → Nat) : Nat → Nat → Nat → Nat
  | 0, _, nodesum => nodesum
  | fuel + 1, i, nodesum =>
    if i < 20 then
      nodesum_loop nodecount fuel (i + 1)
        (if i < 19 then (nodesum + nodecount i) % 2 ^ 64 else nodesum)
    else nodesum

/-- The value of `nodesum` after the loop, started with `uint64_t nodesum = 0` and
`i = nonlayers` for a non-negative `nonlayers` (at most 20 iterations). -/
def nodesum (nodecount : Nat → Nat) (nonlayers : Nat) : Nat :=
  nodesum_loop nodecount 20 nonlayers 0

/-- The node total of `main` for the point list `ps` and the argument `repeat_depth`:
the counting loop, the layer computation with its assertion, and the summation.  The
result is `none` when the assertion `nonlayers >= 0` fails. -/
def main_nodesum (ps : List point) (repeat_depth : Int) : Option Nat :=
  match main_layers ps repeat_depth with
  | some (.ok _ nonlayers) => some (nodesum (count_nodes ps).nodecount nonlayers.toNat)
  | _ => none

end hilbertsort

/-- The state of one cube face: the coverage bytes `map[N]` of `struct quadtree`, and the
pixel buffer of the face that `set_face` paints into.  The `uint32_t children[N/4]`
member of the union is the same storage, read four bytes at a time (`quadtree.children`). -/
structure quadtree where
  map : Nat → Nat
  face : Nat → Nat

namespace quadtree

/-- `static const unsigned int dim = 10`. -/
def dim : Nat := 10

/-- `static const unsigned int N = (4<<dim<<dim)/3-1`. -/
def N : Nat := (4 <<< dim <<< dim) / 3 - 1

/-- `static const unsigned int M = N/4-1`. -/
def M : Nat := N / 4 - 1

/-- `static const unsigned int L = M/4-1`. -/
def L : Nat := M / 4 - 1

/-- `static const unsigned int SIZE = 1<<dim`. -/
def SIZE : Nat := 1 <<< dim

/-- The masks `B[]` of `quadtree.cpp`. -/
def B : List Nat := [0x00FF00FF, 0x0F0F0F0F, 0x33333333, 0x55555555]

/-- The shift amounts `S[]` of `quadtree.cpp`. -/
def S : List Nat := [8, 4, 2, 1]

/-- The store `map[i] = v`.  The result is `none` when the index is outside `map[N]`;
throughout, `none` stands for undefined behaviour of the embedded code. -/
def store (q : quadtree) (i v : Nat) : Option quadtree :=
  if i < N then some { q with map := Function.update q.map i v } else none

/-- The read `children[k]`: the four bytes `map[4k], ..., map[4k+3]` as one 32-bit word
(written little-endian; the code only compares the word with 0).  The result is `none`
when `k` is outside `children[N/4]`. -/
def children (q : quadtree) (k : Nat) : Option Nat :=
  if k < N / 4 then
    some (q.map (4 * k) + 2 ^ 8 * q.map (4 * k + 1) + 2 ^ 16 * q.map (4 * k + 2) +
      2 ^ 24 * q.map (4 * k + 3))
  else none

/-- One assignment `x = (x | (x << S[i])) & B[i]` of the loop of `set`. -/
def set_pass (i x : Nat) : Nat := (x ||| shl32 x (S.getD i 0)) &&& B.getD i 0

/-- The loop `for (i = 0; i < 4; i++)` of `set`, applied to one of its two variables. -/
def set_spread (x : Nat) : Nat := (List.range 4).foldl (fun a i => set_pass i a) x

/-- The subscript `M + (x | (y<<1))` computed by `set` (unsigned arithmetic). -/
def set_index (x y : Nat) : Nat := (M + (set_spread x ||| shl32 (set_spread y) 1)) % 2 ^ 32

/-- `void quadtree::set(int x, int y)`, for non-negative arguments. -/
def set (q : quadtree) (x y : Nat) : Option quadtree := store q (set_index x y) 1

/-- One round `x &= B[i]; x = (x | (x >> S[i]))` of the loop of `set_face`. -/
def set_face_pass (i x : Nat) : Nat :=
  let x := x &&& B.getD i 0
  x ||| (x >>> S.getD i 0)

/-- The loop `for (i = 3; i >= 0; i--)` of `set_face`, applied to one of its two
variables. -/
def set_face_compact (x : Nat) : Nat := [3, 2, 1, 0].foldl (fun a i => set_face_pass i a) x

/-- Modelled from the spec: `pixel(x, y, color)` is declared in `art.h`, which is not
among the sources; the specification of `set_face` says that it must "write `color` into
`face[y*SIZE + x]`", where `face` is the `SIZE × SIZE` pixel buffer of the face. -/
def pixel (q : quadtree) (x y color : Nat) : Option quadtree :=
  if y * SIZE + x < SIZE * SIZE then
    some { q with face := Function.update q.face (y * SIZE + x) color }
  else none

/-- `void quadtree::set_face(int v, int color)`, for a non-negative `v`.  The difference
`v -= M` is taken in unsigned arithmetic. -/
def set_face (q : quadtree) (v color : Nat) : Option quadtree :=
  (store q v 0).bind fun q1 =>
    let v := (v + 2 ^ 32 - M) % 2 ^ 32
    let x := set_face_compact v &&& 0xffff
    let y := set_face_compact (v >>> 1) &&& 0xffff
    pixel q1 x y color

/-- The constructor `quadtree::quadtree()`: `memset(map, 0, sizeof(map))`. -/
def new (q : quadtree) : quadtree := { q with map := fun _ => 0 }

/-- `void quadtree::compute(unsigned int i)`. -/
def compute (q : quadtree) (i : Nat) : Option quadtree :=
  (children q ((i + 1) % 2 ^ 32)).bind fun c => if c = 0 then store q i 0 else some q

/-- The inner loop `for (j = 0; j < n; j++) map[i+j] = 1` of `build_fill`. -/
def build_fill_row (q : quadtree) (i : Nat) : Nat → Option quadtree
  | 0 => some q
  | n + 1 => (build_fill_row q i n).bind fun q1 => store q1 (i + n) 1

/-- The loop `while (i < N)` of `build_fill`, with its variables `i` and `n`. -/
def build_fill_loop (q : quadtree) (i n : Nat) : Option quadtree :=
  if i < N then
    (build_fill_row q i n).bind fun q1 => build_fill_loop q1 (shl32 (i + 1) 2) (shl32 n 2)
  else some q
termination_by N - i
decreasing_by
  have hN : N = 1398100 := by decide
  have e : shl32 (i + 1) 2 = (i + 1) * 4 := by
    unfold shl32
    rw [Nat.shiftLeft_eq, Nat.mod_eq_of_lt (by omega)]
  omega

/-- `void quadtree::build_fill(unsigned int i)`. -/
def build_fill (q : quadtree) (i : Nat) : Option quadtree := build_fill_loop q i 1

/-- A subtraction of two `int`s; `none` when the difference is not representable. -/
def sub32 (a b : Int) : Option Int :=
  if -2 ^ 31 ≤ a - b ∧ a - b < 2 ^ 31 then some (a - b) else none

/-- `void quadtree::build_check(int width, int height, unsigned int i, int size)`. -/
def build_check (q : quadtree) (width height : Int) (i : Nat) (size : Int) :
    Option quadtree :=
  if width ≤ 0 ∨ height ≤ 0 then store q i 0
  else if i < L ∧ (width < size ∨ height < size) then
    (store q i 1).bind fun q0 =>
    (sub32 width (Int.tdiv size 2)).bind fun ws =>
    (sub32 height (Int.tdiv size 2)).bind fun hs =>
    (build_check q0 width height (i * 4 + 4) (Int.tdiv size 2)).bind fun q1 =>
    (build_check q1 ws height (i * 4 + 5) (Int.tdiv size 2)).bind fun q2 =>
    (build_check q2 width hs (i * 4 + 6) (Int.tdiv size 2)).bind fun q3 =>
    build_check q3 ws hs (i * 4 + 7) (Int.tdiv size 2)
  else build_fill q i
termination_by L - i
decreasing_by
  all_goals omega

/-- `void quadtree::build(int width, int height)`. -/
def build (q : quadtree) (width height : Int) : Option quadtree :=
  (sub32 width ((SIZE / 2 : Nat) : Int)).bind fun ws =>
  (sub32 height ((SIZE / 2 : Nat) : Int)).bind fun hs =>
  (build_check q width height 0 ((SIZE / 2 : Nat) : Int)).bind fun q1 =>
  (build_check q1 ws height 1 ((SIZE / 2 : Nat) : Int)).bind fun q2 =>
  (build_check q2 width hs 2 ((SIZE / 2 : Nat) : Int)).bind fun q3 =>
  build_check q3 ws hs 3 ((SIZE / 2 : Nat) : Int)

end quadtree

namespace octree_draw

open quadtree (N M L SIZE)

/-- Modelled from the spec: `octree.h` is not among the sources.  A node of the pool
holds eight child indices `child[8]` (`uint32_t`; the value `~0u` stands for "no node
stored below") and eight colours `avgcolor[8]` (`int`; a negative value marks an empty
child), as `traverse` uses them. -/
structure octree where
  child : Nat → Nat
  avgcolor : Nat → Int

/-- The value `~0u` of a `uint32_t`. -/
def ALL_ONES : Nat := 2 ^ 32 - 1

/-- The eight `int` arguments `x1, x2, x1p, x2p, y1, y2, y1p, y2p` of `traverse` and
`paint`.  The `int`s are modelled by integers: the embedding describes the executions in
which no `int` operation overflows. -/
structure Box where
  x1 : Int
  x2 : Int
  x1p : Int
  x2p : Int
  y1 : Int
  y2 : Int
  y1p : Int
  y2p : Int

/-- What a call returns besides its value: the quadtree `f` (passed by reference) and,
in order, the nodes `v` of the calls `f.set_face(v, color)` made. -/
abbrev Effect := quadtree × List Nat

/-- The type of `traverse`, without its template arguments and the pool: the arguments
are `f`, `r`, `index`, `color` and the eight `int`s. -/
abbrev Traverse := quadtree → Nat → Nat → Nat → Box → Option (Bool × Effect)

/-- The read `f.map[i]`; `none` when `i` is outside `map[N]`. -/
def load (f : quadtree) (i : Nat) : Option Nat := if i < N then some (f.map i) else none

/-- Two statements in sequence: the second runs on the quadtree left by the first. -/
def andThen (a : Option Effect) (k : quadtree → Option Effect) : Option Effect :=
  a.bind fun p => (k p.1).map fun p2 => (p2.1, p.2 ++ p2.2)

/-- One statement `if (guard && traverse(root, f, r, index, color, box)) return true;`
of the octree regime. -/
structure Visit where
  guard : Bool
  index : Nat
  color : Nat
  box : Box

/-- A sequence of statements `if (guard && traverse(...)) return true;` followed by
`return false;`. -/
def first_true (rec : Traverse) (r : Nat) : List Visit → quadtree → Option (Bool × Effect)
  | [], f => some (false, f, [])
  | v :: vs, f =>
    if v.guard then
      (rec f r v.index v.color v.box).bind fun res =>
        if res.1 then some (true, res.2.1, res.2.2)
        else (first_true rec r vs res.2.1).map fun res2 =>
          (res2.1, res2.2.1, res.2.2 ++ res2.2.2)
    else first_true rec r vs f

/-- The statement `if (f.map[i]) traverse(root, f, i, index, color, box);` of the
quadtree regime (the value of the call is dropped). -/
def quad_child (rec : Traverse) (i index color : Nat) (b : Box) (f : quadtree) :
    Option Effect :=
  (load f i).bind fun m =>
    if m ≠ 0 then (rec f i index color b).map fun res => res.2 else some (f, [])

/-- The intervals passed to child `c` of the quadtree node (`c = 0, 1, 2, 3` for the
nodes `r*4+4, ..., r*4+7`), with `xm = (x1+x2)/2`, `xmp = (x1p+x2p)/2`,
`ym = (y1+y2)/2`, `ymp = (y1p+y2p)/2`. -/
def quad_box (b : Box) (c : Nat) : Box :=
  let xm := Int.tdiv (b.x1 + b.x2) 2
  let xmp := Int.tdiv (b.x1p + b.x2p) 2
  let ym := Int.tdiv (b.y1 + b.y2) 2
  let ymp := Int.tdiv (b.y1p + b.y2p) 2
  match c with
  | 0 => ⟨b.x1, xm, b.x1p, xmp, b.y1, ym, b.y1p, ymp⟩
  | 1 => ⟨xm, b.x2, xmp, b.x2p, b.y1, ym, b.y1p, ymp⟩
  | 2 => ⟨b.x1, xm, b.x1p, xmp, ym, b.y2, ymp, b.y2p⟩
  | _ => ⟨xm, b.x2, xmp, b.x2p, ym, b.y2, ymp, b.y2p⟩

/-- The template arguments of `SubFaceRenderer<DX, DY, C, AX, AY, AZ>`, and the constant
`ONE = SCENE_SIZE`; `SCENE_SIZE` is defined in a header that is not among the sources,
so it is a parameter. -/
structure SubFaceRenderer where
  DX : Int
  DY : Int
  C : Nat
  AX : Nat
  AY : Nat
  AZ : Nat
  ONE : Int

namespace SubFaceRenderer

/-- The two tests at the head of `traverse` and of `paint`:
`x2-(1-DX)*x2p<=-ONE || ONE<=x1-(1+DX)*x1p`, and the same for `y`. -/
def off_face (I : SubFaceRenderer) (b : Box) : Bool :=
  (decide (b.x2 - (1 - I.DX) * b.x2p ≤ -I.ONE) || decide (I.ONE ≤ b.x1 - (1 + I.DX) * b.x1p)) ||
  (decide (b.y2 - (1 - I.DY) * b.y2p ≤ -I.ONE) || decide (I.ONE ≤ b.y1 - (1 + I.DY) * b.y1p))

/-- `SubFaceRenderer::paint`: `f.set_face(r, color); f.map[r] = 0;` unless the interval
is off the face. -/
def paint (I : SubFaceRenderer) (r color : Nat) (b : Box) (f : quadtree) : Option Effect :=
  if I.off_face b then some (f, [])
  else (quadtree.set_face f r color).bind fun f1 =>
    (quadtree.store f1 r 0).map fun f2 => (f2, [r])

/-- The statement `if (f.map[i]) paint(f, i, color, box);`. -/
def paint_child (I : SubFaceRenderer) (i color : Nat) (b : Box) (f : quadtree) :
    Option Effect :=
  (load f i).bind fun m => if m ≠ 0 then I.paint i color b f else some (f, [])

/-- The intervals of an octree child: `2*xa + sx*DX*ONE, 2*xb + sx*DX*ONE, x1p, x2p` and
`2*ya + sy*DY*ONE, 2*yb + sy*DY*ONE, y1p, y2p`, where `sx`, `sy` are `1` or `-1`. -/
def child_box (I : SubFaceRenderer) (b : Box) (xa xb ya yb sx sy : Int) : Box :=
  ⟨2 * xa + sx * (I.DX * I.ONE), 2 * xb + sx * (I.DX * I.ONE), b.x1p, b.x2p,
   2 * ya + sy * (I.DY * I.ONE), 2 * yb + sy * (I.DY * I.ONE), b.y1p, b.y2p⟩

/-- The intervals of a child of the near layer, from `x3 = x1-x1p`, `x4 = x2-x2p`,
`y3 = y1-y1p`, `y4 = y2-y2p`. -/
def near_box (I : SubFaceRenderer) (b : Box) (sx sy : Int) : Box :=
  I.child_box b (b.x1 - b.x1p) (b.x2 - b.x2p) (b.y1 - b.y1p) (b.y2 - b.y2p) sx sy

/-- The intervals of a child of the far layer, from `x1`, `x2`, `y1`, `y2`. -/
def far_box (I : SubFaceRenderer) (b : Box) (sx sy : Int) : Box :=
  I.child_box b b.x1 b.x2 b.y1 b.y2 sx sy

/-- The condition `x3<x4 && y3<y4`. -/
def near_open (b : Box) : Bool :=
  decide (b.x1 - b.x1p < b.x2 - b.x2p) && decide (b.y1 - b.y1p < b.y2 - b.y2p)

/-- The statement for child `k` of the node `s`:
`if (s.avgcolor[k]>=0 && traverse(root, f, r, s.child[k], s.avgcolor[k], box)) return true;`. -/
def visit (s : octree) (k : Nat) (b : Box) : Visit :=
  ⟨decide (s.avgcolor k ≥ 0), s.child k, (s.avgcolor k).toNat, b⟩

/-- The statements of the branch `if (~index)` of the octree regime, for `s = root[index]`. -/
def node_visits (I : SubFaceRenderer) (s : octree) (b : Box) : List Visit :=
  (if near_open b then
    [visit s I.C (I.near_box b 1 1),
     visit s (I.C ^^^ I.AX) (I.near_box b (-1) 1),
     visit s (I.C ^^^ I.AY) (I.near_box b 1 (-1)),
     visit s (I.C ^^^ I.AX ^^^ I.AY) (I.near_box b (-1) (-1))]
   else []) ++
  [visit s (I.C ^^^ I.AZ) (I.far_box b 1 1),
   visit s (I.C ^^^ I.AX ^^^ I.AZ) (I.far_box b (-1) 1),
   visit s (I.C ^^^ I.AY ^^^ I.AZ) (I.far_box b 1 (-1)),
   visit s (I.C ^^^ I.AX ^^^ I.AY ^^^ I.AZ) (I.far_box b (-1) (-1))]

/-- The statements of the `else` branch (`index == ~0u`) of the octree regime. -/
def leaf_visits (I : SubFaceRenderer) (color : Nat) (b : Box) : List Visit :=
  (if near_open b then
    [⟨true, ALL_ONES, color, I.near_box b (-1) 1⟩,
     ⟨true, ALL_ONES, color, I.near_box b 1 (-1)⟩,
     ⟨true, ALL_ONES, color, I.near_box b (-1) (-1)⟩]
   else []) ++
  [⟨true, ALL_ONES, color, I.far_box b 1 1⟩,
   ⟨true, ALL_ONES, color, I.far_box b (-1) 1⟩,
   ⟨true, ALL_ONES, color, I.far_box b 1 (-1)⟩,
   ⟨true, ALL_ONES, color, I.far_box b (-1) (-1)⟩]

/-- The four statements of the quadtree regime: on the children `r*4+4, ..., r*4+7`
(unsigned arithmetic), calls of `traverse` when `r < L` and of `paint` otherwise. -/
def quad_visits (I : SubFaceRenderer) (rec : Traverse) (r index color : Nat) (b : Box)
    (f : quadtree) : Option Effect :=
  let i := fun (c : Nat) => (r * 4 + 4 + c) % 2 ^ 32
  if r < L then
    andThen (andThen (andThen (quad_child rec (i 0) index color (quad_box b 0) f)
      (quad_child rec (i 1) index color (quad_box b 1)))
      (quad_child rec (i 2) index color (quad_box b 2)))
      (quad_child rec (i 3) index color (quad_box b 3))
  else
    andThen (andThen (andThen (I.paint_child (i 0) color (quad_box b 0) f)
      (I.paint_child (i 1) color (quad_box b 1)))
      (I.paint_child (i 2) color (quad_box b 2)))
      (I.paint_child (i 3) color (quad_box b 3))

/-- The body of `traverse`, with the recursive calls made through `rec`. -/
def traverse_body (I : SubFaceRenderer) (root : Nat → octree) (rec : Traverse) : Traverse :=
  fun f r index color b =>
    if I.off_face b then some (false, f, [])
    else if b.x2 - b.x1 ≤ 2 * I.ONE ∧ b.y2 - b.y1 ≤ 2 * I.ONE then
      first_true rec r
        (if index ≠ ALL_ONES then I.node_visits (root index) b else I.leaf_visits color b) f
    else
      (I.quad_visits rec r index color b f).bind fun p =>
      (quadtree.compute p.1 r).bind fun f2 =>
      (load f2 r).map fun m => (decide (m = 0), f2, p.2)

/-- `SubFaceRenderer::traverse`.  The first argument bounds the depth of the recursion;
the result is `none` when the bound is reached. -/
def traverse (I : SubFaceRenderer) (root : Nat → octree) : Nat → Traverse
  | 0 => fun _ _ _ _ _ => none
  | n + 1 => I.traverse_body root (I.traverse root n)

end SubFaceRenderer

/-- The template arguments of `FaceRenderer<C, AX, AY, AZ>`, and the constant `ONE`. -/
structure FaceRenderer where
  C : Nat
  AX : Nat
  AY : Nat
  AZ : Nat
  ONE : Int

namespace FaceRenderer

/-- `FaceRenderer::render`, with a bound on the depth of the recursion of `traverse`. -/
def render (F : FaceRenderer) (root : Nat → octree) (fuel : Nat) (f : quadtree)
    (x y Q : Int) : Option Effect :=
  let I0 : SubFaceRenderer := ⟨-1, -1, F.C ^^^ F.AX ^^^ F.AY, F.AX, F.AY, F.AZ, F.ONE⟩
  let I1 : SubFaceRenderer := ⟨1, -1, F.C ^^^ F.AY, F.AX, F.AY, F.AZ, F.ONE⟩
  let I2 : SubFaceRenderer := ⟨-1, 1, F.C ^^^ F.AX, F.AX, F.AY, F.AZ, F.ONE⟩
  let I3 : SubFaceRenderer := ⟨1, 1, F.C, F.AX, F.AY, F.AZ, F.ONE⟩
  andThen (andThen (andThen
    (quad_child (I0.traverse root fuel) 0 0 0 ⟨x - Q, x, -F.ONE, 0, y - Q, y, -F.ONE, 0⟩ f)
    (quad_child (I1.traverse root fuel) 1 0 0 ⟨x, x + Q, 0, F.ONE, y - Q, y, -F.ONE, 0⟩))
    (quad_child (I2.traverse root fuel) 2 0 0 ⟨x - Q, x, -F.ONE, 0, y, y + Q, 0, F.ONE⟩))
    (quad_child (I3.traverse root fuel) 3 0 0 ⟨x, x + Q, 0, F.ONE, y, y + Q, 0, F.ONE⟩)

end FaceRenderer

end octree_draw

/-! ## Auxiliary definitions used in the proofs -/

namespace hilbertsort

/-- The invariant of the pair `(start, end)`. -/
def StateInv (s e : Nat) : Prop :=
  s < 8 ∧ e < 8 ∧ (s ^^^ e = 1 ∨ s ^^^ e = 2 ∨ s ^^^ e = 4)

instance (s e : Nat) : Decidable (StateInv s e) := by unfold StateInv; infer_instance

/-- The bit of the argument that `morton3d_spread` moves to position `3 * i`. -/
def srcBit (x i : Nat) : Bool := x.testBit i || (decide (16 ≤ i) && x.testBit (i + 32))

/-- The digit computation of `hilbert_digit` as a function of the Morton digit `d`. -/
def hdig (d s e : Nat) : Nat :=
  let rg := d ^^^ s
  let i := ((shl64 rg 3 ||| rg) >>> travel_shift s e) &&& 7
  (0x54672310 >>> (i * 4)) &&& 7

/-- Consecutive cells `d1`, `d2` of a cube differ along axis `a` only, and the exit corner
`e1` of the first and the entry corner `s2` of the second face each other across it. -/
def AxisStep (a d1 d2 e1 s2 : Nat) : Prop :=
  (∀ b < 3, b ≠ a → (d1.testBit b = d2.testBit b ∧ e1.testBit b = s2.testBit b)) ∧
  d2.testBit a = !d1.testBit a ∧ e1.testBit a = !d1.testBit a ∧ s2.testBit a = !d2.testBit a

instance (a d1 d2 e1 s2 : Nat) : Decidable (AxisStep a d1 d2 e1 s2) := by
  unfold AxisStep; infer_instance

/-- The key digits produced for the levels `n-1, ..., 0` of `v` when the automaton
enters level `n-1` in state `(s, e)`. -/
def keyFrom (v : Nat) : Nat → Nat → Nat → Nat
  | 0, _, _ => 0
  | n + 1, s, e =>
    hilbert_digit v n s e * 8 ^ n +
      keyFrom v n (next_start (hilbert_digit v n s e) s e) (next_end (hilbert_digit v n s e) s e)

/-- The coordinate along axis `a` (0 = x, 1 = y, 2 = z) stored in the lowest `n` levels
of the Morton key `v`: bit `i` of the coordinate is bit `3 * i + a` of `v`. -/
def coord (a : Nat) : Nat → Nat → Nat
  | 0, _ => 0
  | n + 1, v => (if v.testBit (3 * n + a) then 2 ^ n else 0) + coord a n v

/-- The coordinate of a corner: all `n` bits equal to bit `a` of the corner label `c`. -/
def corner (a n c : Nat) : Nat := if c.testBit a then 2 ^ n - 1 else 0

/-- The Morton keys `v1`, `v2` (lowest `n` levels) are one step apart along axis `a`
and agree along the two other axes. -/
def AdjAxis (a n v1 v2 : Nat) : Prop :=
  (∀ b < 3, b ≠ a → coord b n v1 = coord b n v2) ∧
  (coord a n v1 + 1 = coord a n v2 ∨ coord a n v2 + 1 = coord a n v1)

/-- The number of points of the list whose Morton prefix `cur >> j*3` differs from the
prefix of the point before it (`old` before the first point). -/
def changes (j : Nat) (old : Int) : List point → Nat
  | [] => 0
  | p :: t =>
    (if toInt64 (morton3d p.x p.y p.z) >>> (j * 3) ≠ old >>> (j * 3) then 1 else 0) +
      changes j (toInt64 (morton3d p.x p.y p.z)) t

end hilbertsort

namespace quadtree

/-- The bit of the argument that `set_spread` moves to position `2 * i`. -/
def srcBit2 (x i : Nat) : Bool := x.testBit i || (decide (8 ≤ i) && x.testBit (i + 8))

/-- The interleaved value `x | (y<<1)` that `set` adds to `M`. -/
def morton2d (x y : Nat) : Nat := set_spread x ||| shl32 (set_spread y) 1

/-- The index of the first descendant `k` levels below node `i` (the children of node
`i` are `4i+4, ..., 4i+7`). -/
def desc : Nat → Nat → Nat
  | 0, i => i
  | k + 1, i => 4 * desc k i + 4

/-- The pixel coordinate along axis `a` (0 = x, 1 = y) stored in the lowest `n` levels
of a leaf number `v`: bit `i` of the coordinate is bit `2 * i + a` of `v`. -/
def coord2 (a : Nat) : Nat → Nat → Nat
  | 0, _ => 0
  | n + 1, v => (if v.testBit (2 * n + a) then 2 ^ n else 0) + coord2 a n v

/-- What `build_check` does to the leaf `j` below a node whose `4 ^ k` leaves start at
index `D`: the leaf is set to 1 when the 2×2 pixel block of its pixel (relative to the
node) meets the `w × h` rectangle. -/
def LeafRule (D k : Nat) (w h : Int) (j : Nat) : Prop :=
  D ≤ j ∧ j < D + 4 ^ k ∧
    ((2 * (coord2 0 k (j - D) / 2) : Nat) : Int) < w ∧
    ((2 * (coord2 1 k (j - D) / 2) : Nat) : Int) < h

instance (D k : Nat) (w h : Int) (j : Nat) : Decidable (LeafRule D k w h j) := by
  unfold LeafRule; infer_instance

/-- The effect of `build_check` on the leaves, for nodes `k` levels above the leaves. -/
def BuildCheckSpec (k : Nat) : Prop :=
  ∀ (q : quadtree) (w h : Int) (i : Nat), M ≤ desc k i → desc k i + 4 ^ k ≤ N →
    w < 2 ^ 31 → h < 2 ^ 31 →
    ∃ q', build_check q w h i ((2 : Int) ^ k) = some q' ∧ q'.face = q.face ∧
      ∀ j, M ≤ j → q'.map j = if LeafRule (desc k i) k w h j then 1 else q.map j

/-- The nodes the renderer can reach: the four roots, and the children `4i+4, ..., 4i+7`
of a reachable node `i` whose byte is nonzero. -/
inductive Visible (m : Nat → Nat) : Nat → Prop
  | root (r : Nat) : r < 4 → Visible m r
  | child (i c : Nat) : Visible m i → m i ≠ 0 → c < 4 → Visible m (4 * i + 4 + c)

/-- `Below a j`: the node `j` is a proper descendant of the node `a`. -/
inductive Below : Nat → Nat → Prop
  | child (a c : Nat) : c < 4 → Below a (4 * a + 4 + c)
  | step (a j c : Nat) : Below a j → c < 4 → Below a (4 * j + 4 + c)

/-- `Writes call o`: whatever the state before, `call` returns, leaves the pixels alone
and stores the byte `v` at every index `j` with `o j = some v`, without touching the
bytes with `o j = none`. -/
def Writes (call : quadtree → Option quadtree) (o : Nat → Option Nat) : Prop :=
  ∀ q, ∃ q', call q = some q' ∧ q'.face = q.face ∧ ∀ j, q'.map j = (o j).getD (q.map j)

/-- The stored bytes `o` cover the four children of every interior node that received a
nonzero byte. -/
def OvClosed (o : Nat → Option Nat) : Prop :=
  ∀ j v, o j = some v → v ≠ 0 → j < M → ∀ c, c < 4 → (o (4 * j + 4 + c)).isSome = true

/-- The bytes stored by two calls in sequence: the later store wins. -/
def ovSeq (o1 o2 : Nat → Option Nat) : Nat → Option Nat :=
  fun j => match o2 j with
    | some v => some v
    | none => o1 j

/-- The bytes stored by `build_fill` on a node `i` that is `k` levels above the leaves:
1 in every row of the subtree of `i`. -/
def fillOv (i k : Nat) (j : Nat) : Option Nat :=
  if ∃ s, s < k + 1 ∧ desc s i ≤ j ∧ j < desc s i + 4 ^ s * 1 then some 1 else none

/-- The byte stored by a single assignment `map[i] = v`. -/
def storeOv (i v : Nat) (j : Nat) : Option Nat := if j = i then some v else none

/-- The bytes stored by `build_check` on the node `i`, `k` levels above the leaves. -/
def BuildCheckWrites (k : Nat) : Prop :=
  ∀ (w h : Int) (i : Nat), M ≤ desc k i → desc k i + 4 ^ k ≤ N → w < 2 ^ 31 → h < 2 ^ 31 →
    ∃ o, Writes (fun q => build_check q w h i ((2 : Int) ^ k)) o ∧ (o i).isSome = true ∧
      OvClosed o

/-- A sequence of calls `set(x, y)`, one for each pair of the list, in order. -/
def set_all (q : quadtree) : List (Nat × Nat) → Option quadtree
  | [] => some q
  | p :: ps => (set q p.1 p.2).bind fun q1 => set_all q1 ps

/-- The calls `compute(n-1)`, `compute(n-2)`, ..., `compute(0)`, in this order: the
bottom-up fold over the nodes below `n`. -/
def compute_down (q : quadtree) : Nat → Option quadtree
  | 0 => some q
  | n + 1 => (compute q n).bind fun q1 => compute_down q1 n

end quadtree

namespace octree_draw

open quadtree (N M L SIZE)

/-- The relation between the quadtree `f` before and `f1` after a piece of rendering that
made the calls `set_face(v, _)` for the nodes `v` of `log`: no byte of the map goes from
zero to nonzero; no node is painted twice; every painted node is a leaf whose byte was
nonzero before and is zero after; and the face differs at most at the pixels of the
painted leaves. -/
def Painted (f f1 : quadtree) (log : List Nat) : Prop :=
  (∀ j, f.map j = 0 → f1.map j = 0) ∧
  log.Nodup ∧
  (∀ v ∈ log, M ≤ v ∧ v < N ∧ f.map v ≠ 0 ∧ f1.map v = 0) ∧
  (∀ p, f1.face p ≠ f.face p →
    ∃ x y, x < SIZE ∧ y < SIZE ∧ quadtree.set_index x y ∈ log ∧ p = y * SIZE + x)

/-- The return contract of `traverse`, as a property of a function of its type: a call
on a node `r` whose byte is nonzero returns true exactly when the byte is zero on
return. -/
def ReturnsRendered (rec : Traverse) : Prop :=
  ∀ f r index color b res, f.map r ≠ 0 → rec f r index color b = some res →
    (res.1 = true ↔ res.2.1.map r = 0)

/-- The effect of `traverse` on the quadtree, as a property of a function of its type:
the quadtree before a call that returns is related to its result by `Painted`. -/
def PaintsOnce (rec : Traverse) : Prop :=
  ∀ f r index color b res, rec f r index color b = some res → Painted f res.2.1 res.2.2

open SubFaceRenderer

/-- The order in which the four children of a layer are visited, as the signs of the
offsets `DX*ONE` and `DY*ONE`: `(+,+)`, `(-,+)`, `(+,-)`, `(-,-)`; the first is the
nearest child of the layer. -/
def octant_signs : List (Int × Int) := [(1, 1), (-1, 1), (1, -1), (-1, -1)]

/-- The leaf case as the sentence of the specification has it: only the four children
of the far layer are visited. -/
def leaf_visits_claimed (I : SubFaceRenderer) (color : Nat) (b : Box) : List Visit :=
  octant_signs.map fun s => ⟨true, ALL_ONES, color, I.far_box b s.1 s.2⟩

/-- The leaf case, amended: when the shrunk interval is non-empty, the children of the
near layer except the nearest one are visited, then the four children of the far layer;
all with the colour of the call and the index `~0u`. -/
def leaf_visits_amended (I : SubFaceRenderer) (color : Nat) (b : Box) : List Visit :=
  ((if near_open b then octant_signs.tail else []).map
    fun s => ⟨true, ALL_ONES, color, I.near_box b s.1 s.2⟩) ++
  octant_signs.map fun s => ⟨true, ALL_ONES, color, I.far_box b s.1 s.2⟩

/-- An instance `SubFaceRenderer<1, 1, 0, 4, 2, 1>` with `ONE = 1`. -/
def exampleRenderer : SubFaceRenderer := ⟨1, 1, 0, 4, 2, 1, 1⟩

/-- Intervals in the octree regime whose far children are all off the face. -/
def exampleBox : Box := ⟨2, 4, 1, 0, -1, 1, 0, 0⟩

/-- A quadtree whose map bytes are all 1 and whose pixels are all 0. -/
def exampleFace : quadtree := ⟨fun _ => 1, fun _ => 0⟩

/-- A pool in which every node has eight empty children. -/
def examplePool : Nat → octree := fun _ => ⟨fun _ => ALL_ONES, fun _ => -1⟩

/-- Intervals in the quadtree regime whose four quarters are all on the face. -/
def exampleWideBox : Box := ⟨-2, 2, 0, 0, -2, 2, 0, 0⟩

/-- The function `rec` with every call on a node `r ≥ M` replaced by a failure. -/
def on_interior (rec : Traverse) : Traverse :=
  fun f r index color b => if r < M then rec f r index color b else none

end octree_draw

/-! ## Properties -/

theorem testBit_false_of_lt (x i n : Nat) (hx : x < 2 ^ n) (hi : n ≤ i) : x.testBit i = false :=
  Nat.testBit_lt_two_pow (lt_of_lt_of_le hx (Nat.pow_le_pow_right (by norm_num) hi))

namespace hilbertsort

theorem hilbert_digit_lt (val j s e : Nat) : hilbert_digit val j s e < 8 := by
  unfold hilbert_digit
  exact Nat.and_lt_two_pow _ (by norm_num : 7 < 2 ^ 3)

theorem next_inv_table :
    ∀ s < 8, ∀ e < 8, ∀ i < 8, StateInv s e →
      StateInv (next_start i s e) (next_end i s e) := by
  decide

theorem travel_shift_table :
    ∀ s < 8, ∀ e < 8, StateInv s e →
      (travel_shift s e = 1 ∨ travel_shift s e = 2 ∨ travel_shift s e = 3) := by
  decide

theorem next_inv {s e : Nat} (i : Nat) (hi : i < 8) (h : StateInv s e) :
    StateInv (next_start i s e) (next_end i s e) :=
  next_inv_table s h.1 e h.2.1 i hi h

theorem iter_inv (val : Nat) (k : Nat) :
    StateInv (hilbert3d_iter val k).start (hilbert3d_iter val k).end_ := by
  induction k with
  | zero => exact (by decide : StateInv 0 1)
  | succ k ih => exact next_inv _ (hilbert_digit_lt _ _ _ _) ih

theorem compare_iter_inv (val1 val2 : Nat) (k : Nat) (s e : Nat)
    (h : hilbert3d_compare_iter val1 val2 k = .running s e) : StateInv s e := by
  induction k generalizing s e with
  | zero =>
    simp only [hilbert3d_compare_iter, CompareState.running.injEq] at h
    obtain ⟨rfl, rfl⟩ := h
    decide
  | succ k ih =>
    simp only [hilbert3d_compare_iter] at h
    cases hst : hilbert3d_compare_iter val1 val2 k with
    | returned b => rw [hst] at h; simp [hilbert3d_compare_body] at h
    | running s0 e0 =>
      rw [hst] at h
      simp only [hilbert3d_compare_body] at h
      split_ifs at h with h1 h2
      simp only [CompareState.running.injEq] at h
      obtain ⟨rfl, rfl⟩ := h
      exact next_inv _ (hilbert_digit_lt _ _ _ _) (ih s0 e0 hst)

theorem shl3_or (r i : Nat) (hr : r < 2 ^ 61) (hi : i < 8) : shl64 r 3 ||| i = 8 * r + i := by
  unfold shl64
  have h1 : r <<< 3 = 2 ^ 3 * r := by rw [Nat.shiftLeft_eq, Nat.mul_comm]
  rw [h1, Nat.mod_eq_of_lt (by omega), ← Nat.mul_add_lt_is_or (by simpa using hi)]

/-- Joint invariant of the two key computations and the comparator. -/
theorem compare_iter_spec (v1 v2 : Nat) (k : Nat) (hk : k ≤ 20) :
    (hilbert3d_iter v1 k).ret < 8 ^ k ∧ (hilbert3d_iter v2 k).ret < 8 ^ k ∧
    match hilbert3d_compare_iter v1 v2 k with
    | .running s e =>
        (hilbert3d_iter v1 k).start = s ∧ (hilbert3d_iter v1 k).end_ = e ∧
        (hilbert3d_iter v2 k).start = s ∧ (hilbert3d_iter v2 k).end_ = e ∧
        (hilbert3d_iter v1 k).ret = (hilbert3d_iter v2 k).ret
    | .returned true => (hilbert3d_iter v1 k).ret < (hilbert3d_iter v2 k).ret
    | .returned false => (hilbert3d_iter v2 k).ret < (hilbert3d_iter v1 k).ret := by
  induction k with
  | zero => simp [hilbert3d_iter, hilbert3d_compare_iter]
  | succ k ih =>
    obtain ⟨h1, h2, h3⟩ := ih (by omega)
    have hp : (8 : Nat) ^ k ≤ 8 ^ 19 := Nat.pow_le_pow_right (by norm_num) (by omega)
    have e1 : (hilbert3d_iter v1 (k + 1)).ret = 8 * (hilbert3d_iter v1 k).ret +
        hilbert_digit v1 (19 - k) (hilbert3d_iter v1 k).start (hilbert3d_iter v1 k).end_ := by
      simp only [hilbert3d_iter, hilbert3d_body]
      exact shl3_or _ _ (by norm_num at hp ⊢; omega) (hilbert_digit_lt _ _ _ _)
    have e2 : (hilbert3d_iter v2 (k + 1)).ret = 8 * (hilbert3d_iter v2 k).ret +
        hilbert_digit v2 (19 - k) (hilbert3d_iter v2 k).start (hilbert3d_iter v2 k).end_ := by
      simp only [hilbert3d_iter, hilbert3d_body]
      exact shl3_or _ _ (by norm_num at hp ⊢; omega) (hilbert_digit_lt _ _ _ _)
    have d1 := hilbert_digit_lt v1 (19 - k) (hilbert3d_iter v1 k).start (hilbert3d_iter v1 k).end_
    have d2 := hilbert_digit_lt v2 (19 - k) (hilbert3d_iter v2 k).start (hilbert3d_iter v2 k).end_
    refine ⟨by rw [e1, pow_succ]; omega, by rw [e2, pow_succ]; omega, ?_⟩
    rw [e1, e2]
    simp only [hilbert3d_compare_iter]
    cases hst : hilbert3d_compare_iter v1 v2 k with
    | returned b =>
      rw [hst] at h3
      cases b <;> simp only [hilbert3d_compare_body] <;> simp only at h3 <;> omega
    | running s e =>
      rw [hst] at h3
      simp only at h3
      obtain ⟨a1, a2, a3, a4, a5⟩ := h3
      rw [a1, a2] at d1 ⊢
      rw [a3, a4] at d2 ⊢
      simp only [hilbert3d_compare_body]
      split_ifs with c1 c2
      · simp only; omega
      · simp only; omega
      · have : hilbert_digit v1 (19 - k) s e = hilbert_digit v2 (19 - k) s e := by omega
        simp only [hilbert3d_iter, hilbert3d_body, a1, a2, a3, a4]
        refine ⟨trivial, trivial, ?_, ?_, ?_⟩
        · rw [this]
        · rw [this]
        · omega

theorem compare_iff_lt (p1 p2 : point) :
    hilbert3d_compare p1 p2 = true ↔ hilbert3d p1 < hilbert3d p2 := by
  have h := (compare_iter_spec (morton3d p1.x p1.y p1.z) (morton3d p2.x p2.y p2.z) 20 le_rfl).2.2
  unfold hilbert3d_compare hilbert3d
  cases hst : hilbert3d_compare_iter (morton3d p1.x p1.y p1.z) (morton3d p2.x p2.y p2.z) 20 with
  | returned b =>
    rw [hst] at h
    cases b <;> simp only at h ⊢ <;> simp <;> omega
  | running s e =>
    rw [hst] at h
    simp only at h ⊢
    simp [h.2.2.2.2]

theorem spread_unfold (x : Nat) :
    morton3d_spread x =
      morton3d_pass 4 (morton3d_pass 3 (morton3d_pass 2 (morton3d_pass 1 (morton3d_pass 0 x)))) := rfl

theorem mask_high (m k : Nat) (hm : m < 2 ^ 64) (hk : 64 ≤ k) : m.testBit k = false :=
  Nat.testBit_lt_two_pow (lt_of_lt_of_le hm (Nat.pow_le_pow_right (by norm_num) hk))

theorem mask0_bit (k : Nat) :
    (0xFFFF00000000FFFF : Nat).testBit k = decide (k % 48 < 16 ∧ k < 64) := by
  by_cases hk : k < 64
  · revert k; decide
  · rw [mask_high _ k (by norm_num) (by omega)]; simp; omega

theorem mask1_bit (k : Nat) :
    (0x00FF0000FF0000FF : Nat).testBit k = decide (k % 24 < 8 ∧ k < 64) := by
  by_cases hk : k < 64
  · revert k; decide
  · rw [mask_high _ k (by norm_num) (by omega)]; simp; omega

theorem mask2_bit (k : Nat) :
    (0xF00F00F00F00F00F : Nat).testBit k = decide (k % 12 < 4 ∧ k < 64) := by
  by_cases hk : k < 64
  · revert k; decide
  · rw [mask_high _ k (by norm_num) (by omega)]; simp; omega

theorem mask3_bit (k : Nat) :
    (0x30C30C30C30C30C3 : Nat).testBit k = decide (k % 6 < 2 ∧ k < 64) := by
  by_cases hk : k < 64
  · revert k; decide
  · rw [mask_high _ k (by norm_num) (by omega)]; simp; omega

theorem mask4_bit (k : Nat) :
    (0x9249249249249249 : Nat).testBit k = decide (k % 3 < 1 ∧ k < 64) := by
  by_cases hk : k < 64
  · revert k; decide
  · rw [mask_high _ k (by norm_num) (by omega)]; simp; omega

theorem testBit_pass (s m x k : Nat) (hm : m < 2 ^ 64) :
    ((x ||| shl64 x s) &&& m).testBit k =
      ((x.testBit k || (decide (s ≤ k) && x.testBit (k - s))) && m.testBit k) := by
  unfold shl64
  simp only [Nat.testBit_and, Nat.testBit_or, Nat.testBit_mod_two_pow, Nat.testBit_shiftLeft]
  by_cases hk : k < 64
  · simp [hk]
  · simp only [mask_high m k hm (by omega), Bool.and_false]

theorem pass0_bit (x k : Nat) :
    (morton3d_pass 0 x).testBit k =
      (decide (k % 48 < 16 ∧ k < 64) && srcBit x (k / 48 * 16 + k % 48)) := by
  simp only [morton3d_pass, S, B, List.getD_cons_zero]
  rw [testBit_pass _ _ _ _ (by norm_num), mask0_bit]
  by_cases hk : k < 64
  · unfold srcBit
    interval_cases k <;> simp [Bool.or_comm]
  · have h1 : ¬ (k % 48 < 16 ∧ k < 64) := fun h => hk h.2
    simp [h1]

theorem pass_step (g s m a : Nat) (y : Nat → Bool) (hm : m < 2 ^ 64)
    (hg : (g = 8 ∧ s = 16) ∨ (g = 4 ∧ s = 8) ∨ (g = 2 ∧ s = 4) ∨ (g = 1 ∧ s = 2))
    (hmask : ∀ k, m.testBit k = decide (k % (3 * g) < g ∧ k < 64))
    (ha : ∀ k, a.testBit k =
      (decide (k % (6 * g) < 2 * g ∧ k < 64) && y (k / (6 * g) * (2 * g) + k % (6 * g))))
    (k : Nat) :
    ((a ||| shl64 a s) &&& m).testBit k =
      (decide (k % (3 * g) < g ∧ k < 64) && y (k / (3 * g) * g + k % (3 * g))) := by
  rw [testBit_pass _ _ _ _ hm, hmask, ha, ha]
  by_cases hk : k < 64
  · rcases hg with ⟨rfl, rfl⟩ | ⟨rfl, rfl⟩ | ⟨rfl, rfl⟩ | ⟨rfl, rfl⟩ <;>
      interval_cases k <;> simp
  · have h1 : ¬ (k % (3 * g) < g ∧ k < 64) := fun h => hk h.2
    simp [h1]

theorem testBit_spread (x k : Nat) :
    (morton3d_spread x).testBit k = (decide (k % 3 = 0 ∧ k < 64) && srcBit x (k / 3)) := by
  have h1 := pass_step 8 16 0x00FF0000FF0000FF _ (srcBit x) (by norm_num) (by simp) mask1_bit
    (pass0_bit x)
  have h2 := pass_step 4 8 0xF00F00F00F00F00F _ (srcBit x) (by norm_num) (by simp) mask2_bit h1
  have h3 := pass_step 2 4 0x30C30C30C30C30C3 _ (srcBit x) (by norm_num) (by simp) mask3_bit h2
  have h4 := pass_step 1 2 0x9249249249249249 _ (srcBit x) (by norm_num) (by simp) mask4_bit h3
  have h5 := h4 k
  rw [spread_unfold]
  simp only [morton3d_pass, S, B, List.getD_cons_zero, List.getD_cons_succ] at h5 ⊢
  rw [h5]
  by_cases hk : k % 3 = 0
  · have e : k / 3 * 1 + k % 3 = k / 3 := by omega
    simp [hk, e]
  · have : ¬ k % 3 < 1 := by omega
    simp [hk, this]

theorem hilbert_digit_eq (val j s e : Nat) :
    hilbert_digit val j s e = hdig ((val >>> (3 * j)) &&& 7) s e := rfl

set_option synthInstance.maxSize 2000 in
theorem hdig_inj_table :
    ∀ s < 8, ∀ e < 8, ∀ d1 < 8, ∀ d2 < 8, StateInv s e →
      hdig d1 s e = hdig d2 s e → d1 = d2 := by
  decide

set_option synthInstance.maxSize 2000 in
theorem hdig_first_table :
    ∀ s < 8, ∀ e < 8, ∀ d < 8, StateInv s e →
      hdig d s e = 0 → d = s ∧ next_start 0 s e = s := by
  decide

set_option synthInstance.maxSize 2000 in
theorem hdig_last_table :
    ∀ s < 8, ∀ e < 8, ∀ d < 8, StateInv s e →
      hdig d s e = 7 → d = e ∧ next_end 7 s e = e := by
  decide

set_option synthInstance.maxSize 2000 in
set_option maxRecDepth 100000 in
theorem hdig_succ_table :
    ∀ s < 8, ∀ e < 8, ∀ d1 < 8, ∀ d2 < 8, StateInv s e →
      hdig d2 s e = hdig d1 s e + 1 →
      (AxisStep 0 d1 d2 (next_end (hdig d1 s e) s e) (next_start (hdig d2 s e) s e) ∨
       AxisStep 1 d1 d2 (next_end (hdig d1 s e) s e) (next_start (hdig d2 s e) s e) ∨
       AxisStep 2 d1 d2 (next_end (hdig d1 s e) s e) (next_start (hdig d2 s e) s e)) := by
  decide

theorem keyFrom_lt (v n s e : Nat) : keyFrom v n s e < 8 ^ n := by
  induction n generalizing s e with
  | zero => simp [keyFrom]
  | succ n ih =>
    have h1 := hilbert_digit_lt v n s e
    have h2 := ih (next_start (hilbert_digit v n s e) s e) (next_end (hilbert_digit v n s e) s e)
    simp only [keyFrom, pow_succ]
    have : hilbert_digit v n s e * 8 ^ n ≤ 7 * 8 ^ n := Nat.mul_le_mul_right _ (by omega)
    omega

theorem iter_ret_eq (val : Nat) (m : Nat) :
    ∀ k, k + m = 20 →
      (hilbert3d_iter val 20).ret =
        (hilbert3d_iter val k).ret * 8 ^ m +
          keyFrom val m (hilbert3d_iter val k).start (hilbert3d_iter val k).end_ := by
  induction m with
  | zero => intro k hk; obtain rfl : k = 20 := by omega
            simp [keyFrom]
  | succ m ih =>
    intro k hk
    have h := ih (k + 1) (by omega)
    have hm : 19 - k = m := by omega
    have hr := (compare_iter_spec val val k (by omega)).1
    have hp : (8 : Nat) ^ k ≤ 8 ^ 19 := Nat.pow_le_pow_right (by norm_num) (by omega)
    rw [h]
    simp only [hilbert3d_iter, hilbert3d_body, hm, keyFrom]
    rw [shl3_or _ _ (by norm_num at hp ⊢; omega) (hilbert_digit_lt _ _ _ _), pow_succ]
    ring

theorem hilbert3d_eq_keyFrom (p : point) :
    hilbert3d p = keyFrom (morton3d p.x p.y p.z) 20 0 1 := by
  have h := iter_ret_eq (morton3d p.x p.y p.z) 20 0 (by norm_num)
  simpa [hilbert3d, hilbert3d_iter] using h

/-- Bit `a` of the Morton digit of level `n`. -/
theorem digit_testBit (v n a : Nat) (ha : a < 3) :
    ((v >>> (3 * n)) &&& 7).testBit a = v.testBit (3 * n + a) := by
  have h7 : (7 : Nat).testBit a = true := by interval_cases a <;> decide
  simp [Nat.testBit_and, Nat.testBit_shiftRight, h7]

theorem digit_lt (v n : Nat) : (v >>> (3 * n)) &&& 7 < 8 :=
  Nat.and_lt_two_pow _ (by norm_num : 7 < 2 ^ 3)

theorem coord_lt (a n v : Nat) : coord a n v < 2 ^ n := by
  induction n with
  | zero => simp [coord]
  | succ n ih => simp only [coord, pow_succ]; split_ifs <;> omega

theorem corner_succ (a n c : Nat) :
    (if c.testBit a then 2 ^ n else 0) + corner a n c = corner a (n + 1) c := by
  have := Nat.one_le_two_pow (n := n)
  unfold corner
  split_ifs
  · simp only [pow_succ]; omega
  · simp

/-- Key 0 is the entry corner `s`. -/
theorem keyFrom_zero (v n : Nat) : ∀ s e, StateInv s e → keyFrom v n s e = 0 →
    ∀ a < 3, coord a n v = corner a n s := by
  induction n with
  | zero => intro s e _ _ a _; simp [coord, corner]
  | succ n ih =>
    intro s e hse h a ha
    simp only [keyFrom] at h
    have hp : 0 < 8 ^ n := by positivity
    have hi : hilbert_digit v n s e = 0 := by
      rcases Nat.eq_zero_or_pos (hilbert_digit v n s e) with h0 | h0
      · exact h0
      · have := Nat.mul_le_mul_right (8 ^ n) h0
        omega
    rw [hi] at h
    have ht := hdig_first_table s hse.1 e hse.2.1 _ (digit_lt v n) hse
      (by rw [← hilbert_digit_eq]; exact hi)
    have hinv := next_inv 0 (by norm_num) hse
    rw [ht.2] at hinv h
    have := ih s _ hinv (by simpa using h) a ha
    simp only [coord]
    rw [this, ← digit_testBit v n a ha, ht.1, corner_succ]

/-- Key `8 ^ n - 1` is the exit corner `e`. -/
theorem keyFrom_last (v n : Nat) : ∀ s e, StateInv s e → keyFrom v n s e + 1 = 8 ^ n →
    ∀ a < 3, coord a n v = corner a n e := by
  induction n with
  | zero => intro s e _ _ a _; simp [coord, corner]
  | succ n ih =>
    intro s e hse h a ha
    simp only [keyFrom, pow_succ] at h
    have hd := hilbert_digit_lt v n s e
    have hk := keyFrom_lt v n (next_start (hilbert_digit v n s e) s e)
      (next_end (hilbert_digit v n s e) s e)
    have hi : hilbert_digit v n s e = 7 := by
      by_contra hne
      have : hilbert_digit v n s e * 8 ^ n ≤ 6 * 8 ^ n := Nat.mul_le_mul_right _ (by omega)
      omega
    rw [hi] at h hk
    have ht := hdig_last_table s hse.1 e hse.2.1 _ (digit_lt v n) hse
      (by rw [← hilbert_digit_eq]; exact hi)
    have hinv := next_inv 7 (by norm_num) hse
    rw [ht.2] at hinv h
    have := ih _ e hinv (by omega) a ha
    simp only [coord]
    rw [this, ← digit_testBit v n a ha, ht.1, corner_succ]

theorem digits_split (P a b c d : Nat) (hb : b < P) (hd : d < P)
    (h : a * P + b = c * P + d + 1) :
    (a = c ∧ b = d + 1) ∨ (a = c + 1 ∧ b = 0 ∧ d + 1 = P) := by
  rcases Nat.lt_trichotomy a c with hlt | heq | hgt
  · have := Nat.mul_le_mul_right P (Nat.succ_le_of_lt hlt)
    rw [Nat.succ_mul] at this
    omega
  · subst heq; left; exact ⟨rfl, by omega⟩
  · have h1 := Nat.mul_le_mul_right P (Nat.succ_le_of_lt hgt)
    rw [Nat.succ_mul] at h1
    rcases Nat.lt_or_ge (c + 1) a with h2 | h2
    · have h3 := Nat.mul_le_mul_right P (Nat.succ_le_of_lt h2)
      rw [Nat.succ_mul, Nat.succ_mul] at h3
      omega
    · have : a = c + 1 := by omega
      subst this
      rw [Nat.succ_mul] at h
      right; exact ⟨rfl, by omega, by omega⟩

theorem adjAxis_lift_same (a n v1 v2 : Nat) (ha : a < 3)
    (htop : ∀ b < 3, v1.testBit (3 * n + b) = v2.testBit (3 * n + b))
    (h : AdjAxis a n v1 v2) : AdjAxis a (n + 1) v1 v2 := by
  refine ⟨fun b hb hne => ?_, ?_⟩
  · simp only [coord]; rw [htop b hb, h.1 b hb hne]
  · simp only [coord]; rw [htop a ha]
    rcases h.2 with h2 | h2
    · left; omega
    · right; omega

theorem adjAxis_of_step (a n v1 v2 e1 s2 : Nat) (ha : a < 3)
    (hstep : AxisStep a ((v1 >>> (3 * n)) &&& 7) ((v2 >>> (3 * n)) &&& 7) e1 s2)
    (h1 : ∀ b < 3, coord b n v1 = corner b n e1)
    (h2 : ∀ b < 3, coord b n v2 = corner b n s2) : AdjAxis a (n + 1) v1 v2 := by
  obtain ⟨hoth, hd, he, hs⟩ := hstep
  have hpos := Nat.one_le_two_pow (n := n)
  refine ⟨fun b hb hne => ?_, ?_⟩
  · obtain ⟨t1, t2⟩ := hoth b hb hne
    rw [digit_testBit v1 n b hb, digit_testBit v2 n b hb] at t1
    simp only [coord]
    rw [h1 b hb, h2 b hb, t1]
    unfold corner
    rw [t2]
  · rw [digit_testBit v1 n a ha, digit_testBit v2 n a ha] at hd
    rw [digit_testBit v1 n a ha] at he
    rw [digit_testBit v2 n a ha] at hs
    simp only [coord]
    rw [h1 a ha, h2 a ha]
    unfold corner
    rw [he, hs, hd]
    cases v1.testBit (3 * n + a)
    · left; simp; omega
    · right; simp; omega

/-- Consecutive keys belong to neighbouring cells. -/
theorem keyFrom_succ_adj (n : Nat) : ∀ s e v1 v2, StateInv s e →
    keyFrom v2 n s e = keyFrom v1 n s e + 1 → ∃ a < 3, AdjAxis a n v1 v2 := by
  induction n with
  | zero => intro s e v1 v2 _ h; simp [keyFrom] at h
  | succ n ih =>
    intro s e v1 v2 hse h
    simp only [keyFrom] at h
    have hk1 := keyFrom_lt v1 n (next_start (hilbert_digit v1 n s e) s e)
      (next_end (hilbert_digit v1 n s e) s e)
    have hk2 := keyFrom_lt v2 n (next_start (hilbert_digit v2 n s e) s e)
      (next_end (hilbert_digit v2 n s e) s e)
    rcases digits_split _ _ _ _ _ hk2 hk1 h with ⟨hi, hk⟩ | ⟨hi, hk, hl⟩
    · -- same cell at this level
      have hd : (v2 >>> (3 * n)) &&& 7 = (v1 >>> (3 * n)) &&& 7 :=
        hdig_inj_table s hse.1 e hse.2.1 _ (digit_lt v2 n) _ (digit_lt v1 n) hse
          (by rw [← hilbert_digit_eq, ← hilbert_digit_eq]; exact hi)
      rw [hi] at hk
      obtain ⟨a, ha, hadj⟩ := ih _ _ v1 v2 (next_inv _ (hilbert_digit_lt v1 n s e) hse) hk
      refine ⟨a, ha, adjAxis_lift_same a n v1 v2 ha (fun b hb => ?_) hadj⟩
      rw [← digit_testBit v1 n b hb, ← digit_testBit v2 n b hb, hd]
    · -- the next cell at this level
      have hstep := hdig_succ_table s hse.1 e hse.2.1 _ (digit_lt v1 n) _ (digit_lt v2 n) hse
        (by rw [← hilbert_digit_eq, ← hilbert_digit_eq]; exact hi)
      rw [← hilbert_digit_eq, ← hilbert_digit_eq] at hstep
      have c1 := keyFrom_last v1 n _ _ (next_inv _ (hilbert_digit_lt v1 n s e) hse) hl
      have c2 := keyFrom_zero v2 n _ _ (next_inv _ (hilbert_digit_lt v2 n s e) hse) hk
      rcases hstep with hs | hs | hs
      · exact ⟨0, by norm_num, adjAxis_of_step 0 n v1 v2 _ _ (by norm_num) hs c1 c2⟩
      · exact ⟨1, by norm_num, adjAxis_of_step 1 n v1 v2 _ _ (by norm_num) hs c1 c2⟩
      · exact ⟨2, by norm_num, adjAxis_of_step 2 n v1 v2 _ _ (by norm_num) hs c1 c2⟩

theorem testBit_shl64 (a s k : Nat) :
    (shl64 a s).testBit k = (decide (k < 64) && (decide (s ≤ k) && a.testBit (k - s))) := by
  unfold shl64
  rw [Nat.testBit_mod_two_pow, Nat.testBit_shiftLeft]

/-- Bit `k` of a Morton code comes from coordinate number `k % 3`, bit `k / 3`. -/
theorem testBit_morton3d (x y z k : Nat) :
    (morton3d x y z).testBit k =
      (decide (k < 64) &&
        (if k % 3 = 0 then srcBit x (k / 3)
         else if k % 3 = 1 then srcBit y (k / 3) else srcBit z (k / 3))) := by
  unfold morton3d
  simp only [Nat.testBit_or, testBit_shl64, testBit_spread]
  by_cases hk : k < 64
  · have h3 : k % 3 = 0 ∨ k % 3 = 1 ∨ k % 3 = 2 := by omega
    rcases h3 with h | h | h
    · rcases Nat.eq_zero_or_pos k with h0 | h0
      · subst h0; simp
      · have e1 : ¬ (k - 1) % 3 = 0 := by omega
        have e2 : ¬ (k - 2) % 3 = 0 := by omega
        simp [hk, h, e1, e2]
    · have e0 : 1 ≤ k := by omega
      have e1 : (k - 1) % 3 = 0 := by omega
      have e2 : (k - 1) / 3 = k / 3 := by omega
      have e3 : (k - 1) < 64 := by omega
      have e4 : ¬ (k - 2) % 3 = 0 ∨ k = 1 := by omega
      rcases e4 with e4 | e4
      · simp [hk, h, e0, e1, e2, e3, e4]
      · subst e4; simp [srcBit]
    · have e0 : 2 ≤ k := by omega
      have e1 : (k - 2) % 3 = 0 := by omega
      have e2 : (k - 2) / 3 = k / 3 := by omega
      have e3 : (k - 2) < 64 := by omega
      have e4 : ¬ (k - 1) % 3 = 0 := by omega
      have e5 : 1 ≤ k := by omega
      simp [hk, h, e0, e1, e2, e3, e4, e5]
  · simp [hk]

theorem srcBit_of_lt (x i : Nat) (hx : x < 2 ^ 32) : srcBit x i = x.testBit i := by
  unfold srcBit
  have : x.testBit (i + 32) = false :=
    Nat.testBit_lt_two_pow (lt_of_lt_of_le hx (Nat.pow_le_pow_right (by norm_num) (by omega)))
  simp [this]

theorem morton3d_testBit_small (x y z : Nat) (hx : x < 2 ^ 20) (hy : y < 2 ^ 20)
    (hz : z < 2 ^ 20) (k : Nat) :
    (morton3d x y z).testBit k =
      (if k % 3 = 0 then x.testBit (k / 3)
       else if k % 3 = 1 then y.testBit (k / 3) else z.testBit (k / 3)) := by
  rw [testBit_morton3d, srcBit_of_lt x _ (by omega), srcBit_of_lt y _ (by omega),
    srcBit_of_lt z _ (by omega)]
  by_cases hk : k < 64
  · simp [hk]
  · rw [testBit_false_of_lt x (k / 3) 20 hx (by omega),
      testBit_false_of_lt y (k / 3) 20 hy (by omega),
      testBit_false_of_lt z (k / 3) 20 hz (by omega)]
    simp

theorem morton3d_lt (x y z : Nat) (hx : x < 2 ^ 20) (hy : y < 2 ^ 20) (hz : z < 2 ^ 20) :
    morton3d x y z < 2 ^ 60 := by
  apply Nat.lt_pow_two_of_testBit
  intro i hi
  rw [morton3d_testBit_small x y z hx hy hz]
  rw [testBit_false_of_lt x (i / 3) 20 hx (by omega),
    testBit_false_of_lt y (i / 3) 20 hy (by omega),
    testBit_false_of_lt z (i / 3) 20 hz (by omega)]
  simp

theorem coord_testBit (a n v i : Nat) :
    (coord a n v).testBit i = (decide (i < n) && v.testBit (3 * i + a)) := by
  induction n with
  | zero => simp [coord]
  | succ n ih =>
    simp only [coord]
    have hlt := coord_lt a n v
    by_cases hb : v.testBit (3 * n + a)
    · simp only [hb, if_true]
      rcases Nat.lt_trichotomy i n with h | h | h
      · rw [Nat.testBit_two_pow_add_gt h, ih]
        have : i < n + 1 := by omega
        simp [h, this]
      · subst h
        rw [Nat.testBit_two_pow_add_eq, ih]
        simp [hb]
      · rw [testBit_false_of_lt _ i (n + 1) (by rw [pow_succ]; omega) (by omega)]
        have : ¬ i < n + 1 := by omega
        simp [this]
    · simp only [hb, Bool.false_eq_true, if_false, Nat.zero_add]
      rw [ih]
      by_cases h : i < n
      · have : i < n + 1 := by omega
        simp [h, this]
      · by_cases h2 : i = n
        · subst h2; simp [hb]
        · have : ¬ i < n + 1 := by omega
          simp [h, this]

theorem coord_morton3d (x y z : Nat) (hx : x < 2 ^ 20) (hy : y < 2 ^ 20) (hz : z < 2 ^ 20) :
    coord 0 20 (morton3d x y z) = x ∧ coord 1 20 (morton3d x y z) = y ∧
      coord 2 20 (morton3d x y z) = z := by
  refine ⟨?_, ?_, ?_⟩ <;> apply Nat.eq_of_testBit_eq <;> intro i <;>
    rw [coord_testBit, morton3d_testBit_small x y z hx hy hz]
  · by_cases hi : i < 20
    · have : (3 * i + 0) % 3 = 0 := by omega
      have e : (3 * i + 0) / 3 = i := by omega
      simp [hi, this, e]
    · simp [hi, testBit_false_of_lt x i 20 hx (by omega)]
  · by_cases hi : i < 20
    · have : (3 * i + 1) % 3 = 1 := by omega
      have e : (3 * i + 1) / 3 = i := by omega
      simp [hi, this, e]
    · simp [hi, testBit_false_of_lt y i 20 hy (by omega)]
  · by_cases hi : i < 20
    · have : (3 * i + 2) % 3 = 2 := by omega
      have e : (3 * i + 2) / 3 = i := by omega
      simp [hi, this, e]
    · simp [hi, testBit_false_of_lt z i 20 hz (by omega)]

theorem srcBit_of_lt48 (x i : Nat) (hx : x < 2 ^ 48) : srcBit x i = x.testBit i := by
  unfold srcBit
  by_cases hi : 16 ≤ i
  · rw [testBit_false_of_lt x (i + 32) 48 hx (by omega)]; simp
  · simp [hi]

theorem morton3d_surj (v : Nat) (hv : v < 2 ^ 60) :
    morton3d (coord 0 20 v) (coord 1 20 v) (coord 2 20 v) = v := by
  apply Nat.eq_of_testBit_eq
  intro k
  rw [morton3d_testBit_small _ _ _ (coord_lt 0 20 v) (coord_lt 1 20 v) (coord_lt 2 20 v)]
  simp only [coord_testBit]
  by_cases hk : k < 60
  · have h3 : k % 3 = 0 ∨ k % 3 = 1 ∨ k % 3 = 2 := by omega
    have hlt : k / 3 < 20 := by omega
    rcases h3 with h | h | h
    · have e : 3 * (k / 3) + 0 = k := by omega
      simp [h, hlt, e]
    · have e : 3 * (k / 3) + 1 = k := by omega
      simp [h, hlt, e]
    · have e : 3 * (k / 3) + 2 = k := by omega
      simp [h, hlt, e]
  · have hlt : ¬ k / 3 < 20 := by omega
    rw [testBit_false_of_lt v k 60 hv (by omega)]
    simp [hlt]

theorem morton3d_inj (x y z x' y' z' : Nat) (hx : x < 2 ^ 20) (hy : y < 2 ^ 20)
    (hz : z < 2 ^ 20) (hx' : x' < 2 ^ 20) (hy' : y' < 2 ^ 20) (hz' : z' < 2 ^ 20)
    (h : morton3d x y z = morton3d x' y' z') : x = x' ∧ y = y' ∧ z = z' := by
  obtain ⟨a1, a2, a3⟩ := coord_morton3d x y z hx hy hz
  obtain ⟨b1, b2, b3⟩ := coord_morton3d x' y' z' hx' hy' hz'
  rw [h] at a1 a2 a3
  exact ⟨a1.symm.trans b1, a2.symm.trans b2, a3.symm.trans b3⟩

theorem morton3d_mod (x y z : Nat) (hx : x < 2 ^ 48) (hy : y < 2 ^ 48) (hz : z < 2 ^ 48) :
    morton3d x y z = morton3d (x % 2 ^ 22) (y % 2 ^ 21) (z % 2 ^ 21) := by
  apply Nat.eq_of_testBit_eq
  intro k
  rw [testBit_morton3d, testBit_morton3d, srcBit_of_lt48 x _ hx, srcBit_of_lt48 y _ hy,
    srcBit_of_lt48 z _ hz,
    srcBit_of_lt48 _ _ (lt_of_lt_of_le (Nat.mod_lt x (by norm_num)) (by norm_num)),
    srcBit_of_lt48 _ _ (lt_of_lt_of_le (Nat.mod_lt y (by norm_num)) (by norm_num)),
    srcBit_of_lt48 _ _ (lt_of_lt_of_le (Nat.mod_lt z (by norm_num)) (by norm_num))]
  simp only [Nat.testBit_mod_two_pow]
  by_cases hk : k < 64
  · have h3 : k % 3 = 0 ∨ k % 3 = 1 ∨ k % 3 = 2 := by omega
    rcases h3 with h | h | h
    · have : k / 3 < 22 := by omega
      simp [h, this]
    · have : k / 3 < 21 := by omega
      simp [h, this]
    · have : k / 3 < 21 := by omega
      simp [h, this]
  · simp [hk]

theorem morton3d_low60 (x y z : Nat) (hx : x < 2 ^ 48) (hy : y < 2 ^ 48) (hz : z < 2 ^ 48) :
    morton3d x y z % 2 ^ 60 = morton3d (x % 2 ^ 20) (y % 2 ^ 20) (z % 2 ^ 20) := by
  apply Nat.eq_of_testBit_eq
  intro k
  rw [Nat.testBit_mod_two_pow, testBit_morton3d, srcBit_of_lt48 x _ hx, srcBit_of_lt48 y _ hy,
    srcBit_of_lt48 z _ hz,
    morton3d_testBit_small _ _ _ (Nat.mod_lt x (by norm_num)) (Nat.mod_lt y (by norm_num))
      (Nat.mod_lt z (by norm_num))]
  simp only [Nat.testBit_mod_two_pow]
  by_cases hk : k < 60
  · have h1 : k < 64 := by omega
    have h2 : k / 3 < 20 := by omega
    simp [hk, h1, h2]
  · have h2 : ¬ k / 3 < 20 := by omega
    simp [hk, h2]

theorem morton3d_lt64 (x y z : Nat) : morton3d x y z < 2 ^ 64 := by
  apply Nat.lt_pow_two_of_testBit
  intro i hi
  rw [testBit_morton3d]
  have : ¬ i < 64 := by omega
  simp [this]

/-- C1: for every pair of points, `hilbert3d_compare p1 p2` returns true exactly when
`hilbert3d p1 < hilbert3d p2`: the early-exit comparator and the materialised key
define the same order. -/
theorem hilbert3d_compare_iff_key_lt (p1 p2 : point) :
    hilbert3d_compare p1 p2 = true ↔ hilbert3d p1 < hilbert3d p2 :=
  compare_iff_lt p1 p2

/-- C2: for coordinates below `2 ^ 20`, bit `3 * i` of `morton3d x y z` is bit `i` of `x`,
bit `3 * i + 1` is bit `i` of `y`, bit `3 * i + 2` is bit `i` of `z` (for `i < 20`), and
every bit at a position `≥ 60` is zero. -/
theorem morton3d_interleaves (x y z : Nat) (hx : x < 2 ^ 20) (hy : y < 2 ^ 20)
    (hz : z < 2 ^ 20) :
    (∀ i, i < 20 →
      (morton3d x y z).testBit (3 * i) = x.testBit i ∧
      (morton3d x y z).testBit (3 * i + 1) = y.testBit i ∧
      (morton3d x y z).testBit (3 * i + 2) = z.testBit i) ∧
    (∀ k, 60 ≤ k → (morton3d x y z).testBit k = false) := by
  refine ⟨fun i _ => ⟨?_, ?_, ?_⟩, fun k hk => ?_⟩
  · rw [morton3d_testBit_small x y z hx hy hz]
    have h : (3 * i) % 3 = 0 := by omega
    have e : (3 * i) / 3 = i := by omega
    simp [h, e]
  · rw [morton3d_testBit_small x y z hx hy hz]
    have h : (3 * i + 1) % 3 = 1 := by omega
    have e : (3 * i + 1) / 3 = i := by omega
    simp [h, e]
  · rw [morton3d_testBit_small x y z hx hy hz]
    have h : (3 * i + 2) % 3 = 2 := by omega
    have e : (3 * i + 2) / 3 = i := by omega
    simp [h, e]
  · exact testBit_false_of_lt _ k 60 (morton3d_lt x y z hx hy hz) hk

theorem morton3d_interleaves_witness :
    (5 < 2 ^ 20 ∧ 3 < 2 ^ 20 ∧ 6 < 2 ^ 20) ∧
    ((morton3d 5 3 6).testBit (3 * 2) = (5 : Nat).testBit 2 ∧
     (morton3d 5 3 6).testBit (3 * 2 + 1) = (3 : Nat).testBit 2 ∧
     (morton3d 5 3 6).testBit (3 * 2 + 2) = (6 : Nat).testBit 2) ∧
    (morton3d 5 3 6).testBit 60 = false :=
  ⟨by decide,
   (morton3d_interleaves 5 3 6 (by decide) (by decide) (by decide)).1 2 (by decide),
   (morton3d_interleaves 5 3 6 (by decide) (by decide) (by decide)).2 60 (by decide)⟩

/-- C3: restricted to triples with every coordinate below `2 ^ 20`, `morton3d` is a
bijection onto the integers below `2 ^ 60`: it is injective there, every key is below
`2 ^ 60`, and every value below `2 ^ 60` is the key of such a triple. -/
theorem morton3d_bijection :
    (∀ x y z x' y' z' : Nat, x < 2 ^ 20 → y < 2 ^ 20 → z < 2 ^ 20 →
      x' < 2 ^ 20 → y' < 2 ^ 20 → z' < 2 ^ 20 →
      morton3d x y z = morton3d x' y' z' → x = x' ∧ y = y' ∧ z = z') ∧
    (∀ x y z : Nat, x < 2 ^ 20 → y < 2 ^ 20 → z < 2 ^ 20 → morton3d x y z < 2 ^ 60) ∧
    (∀ v : Nat, v < 2 ^ 60 →
      ∃ x y z : Nat, x < 2 ^ 20 ∧ y < 2 ^ 20 ∧ z < 2 ^ 20 ∧ morton3d x y z = v) :=
  ⟨morton3d_inj, morton3d_lt,
   fun v hv => ⟨coord 0 20 v, coord 1 20 v, coord 2 20 v, coord_lt 0 20 v, coord_lt 1 20 v,
     coord_lt 2 20 v, morton3d_surj v hv⟩⟩

theorem morton3d_bijection_witness :
    morton3d 5 3 6 < 2 ^ 60 ∧ ∃ x y z : Nat, x < 2 ^ 20 ∧ y < 2 ^ 20 ∧ z < 2 ^ 20 ∧
      morton3d x y z = 371 :=
  ⟨morton3d_bijection.2.1 5 3 6 (by decide) (by decide) (by decide),
   morton3d_bijection.2.2 371 (by decide)⟩

/-- C4: Hilbert adjacency.  For points with every coordinate below `2 ^ 20`, if
`hilbert3d q = hilbert3d p + 1` then `p` and `q` differ in exactly one coordinate, and by
exactly 1 in that coordinate. -/
theorem hilbert3d_adjacent (p q : point)
    (hp : p.x < 2 ^ 20 ∧ p.y < 2 ^ 20 ∧ p.z < 2 ^ 20)
    (hq : q.x < 2 ^ 20 ∧ q.y < 2 ^ 20 ∧ q.z < 2 ^ 20)
    (h : hilbert3d q = hilbert3d p + 1) :
    (p.y = q.y ∧ p.z = q.z ∧ (p.x + 1 = q.x ∨ q.x + 1 = p.x)) ∨
    (p.x = q.x ∧ p.z = q.z ∧ (p.y + 1 = q.y ∨ q.y + 1 = p.y)) ∨
    (p.x = q.x ∧ p.y = q.y ∧ (p.z + 1 = q.z ∨ q.z + 1 = p.z)) := by
  rw [hilbert3d_eq_keyFrom, hilbert3d_eq_keyFrom] at h
  obtain ⟨a, ha, hoth, hstep⟩ := keyFrom_succ_adj 20 0 1 _ _ (by decide) h
  obtain ⟨px, py, pz⟩ := coord_morton3d p.x p.y p.z hp.1 hp.2.1 hp.2.2
  obtain ⟨qx, qy, qz⟩ := coord_morton3d q.x q.y q.z hq.1 hq.2.1 hq.2.2
  have h0 := hoth 0 (by norm_num)
  have h1 := hoth 1 (by norm_num)
  have h2 := hoth 2 (by norm_num)
  rw [px, qx] at h0
  rw [py, qy] at h1
  rw [pz, qz] at h2
  interval_cases a
  · rw [px, qx] at hstep
    exact Or.inl ⟨h1 (by norm_num), h2 (by norm_num), hstep⟩
  · rw [py, qy] at hstep
    exact Or.inr (Or.inl ⟨h0 (by norm_num), h2 (by norm_num), hstep⟩)
  · rw [pz, qz] at hstep
    exact Or.inr (Or.inr ⟨h0 (by norm_num), h1 (by norm_num), hstep⟩)

theorem hilbert3d_adjacent_witness :
    hilbert3d ⟨1, 0, 1⟩ = hilbert3d ⟨0, 0, 1⟩ + 1 ∧
    (((0 : Nat) = 0 ∧ (1 : Nat) = 1 ∧ ((0 : Nat) + 1 = 1 ∨ (1 : Nat) + 1 = 0)) ∨
     ((0 : Nat) = 1 ∧ (1 : Nat) = 1 ∧ ((0 : Nat) + 1 = 0 ∨ (0 : Nat) + 1 = 0)) ∨
     ((0 : Nat) = 1 ∧ (0 : Nat) = 0 ∧ ((1 : Nat) + 1 = 1 ∨ (1 : Nat) + 1 = 1))) :=
  ⟨by decide,
   hilbert3d_adjacent ⟨0, 0, 1⟩ ⟨1, 0, 1⟩ (by decide) (by decide) (by decide)⟩

theorem compare_eq_false_iff (p1 p2 : point) :
    hilbert3d_compare p1 p2 = false ↔ hilbert3d p2 ≤ hilbert3d p1 := by
  rw [← Bool.not_eq_true, compare_iff_lt]; omega

/-- C5: `hilbert3d_compare` is a strict weak order: it is irreflexive, it returns false
whenever the two keys are equal, it is transitive, and incomparability is transitive. -/
theorem hilbert3d_compare_strict_weak :
    (∀ p : point, hilbert3d_compare p p = false) ∧
    (∀ p1 p2 : point, hilbert3d p1 = hilbert3d p2 → hilbert3d_compare p1 p2 = false) ∧
    (∀ p1 p2 p3 : point, hilbert3d_compare p1 p2 = true → hilbert3d_compare p2 p3 = true →
      hilbert3d_compare p1 p3 = true) ∧
    (∀ p1 p2 p3 : point,
      hilbert3d_compare p1 p2 = false → hilbert3d_compare p2 p1 = false →
      hilbert3d_compare p2 p3 = false → hilbert3d_compare p3 p2 = false →
      hilbert3d_compare p1 p3 = false ∧ hilbert3d_compare p3 p1 = false) := by
  refine ⟨fun p => ?_, fun p1 p2 h => ?_, fun p1 p2 p3 h1 h2 => ?_,
    fun p1 p2 p3 h1 h2 h3 h4 => ?_⟩
  · rw [compare_eq_false_iff]
  · rw [compare_eq_false_iff]; omega
  · rw [compare_iff_lt] at h1 h2 ⊢; omega
  · rw [compare_eq_false_iff] at h1 h2 h3 h4 ⊢
    rw [compare_eq_false_iff]; omega

theorem hilbert3d_compare_strict_weak_witness :
    hilbert3d_compare ⟨0, 0, 0⟩ ⟨0, 0, 1⟩ = true ∧
    hilbert3d_compare ⟨0, 0, 1⟩ ⟨1, 0, 1⟩ = true ∧
    hilbert3d_compare ⟨0, 0, 0⟩ ⟨1, 0, 1⟩ = true :=
  ⟨by decide, by decide,
   hilbert3d_compare_strict_weak.2.2.1 ⟨0, 0, 0⟩ ⟨0, 0, 1⟩ ⟨1, 0, 1⟩ (by decide) (by decide)⟩

/-- C6: the Hilbert state invariant.  Both loops start from `(start, end) = (0, 1)`; after
any number of iterations of `hilbert3d`, and after any number of iterations of
`hilbert3d_compare` that has not returned, `start` and `end` are 3-bit values whose XOR
is 1, 2 or 4, and the `travel_shift` lookup is 1, 2 or 3. -/
theorem hilbert_state_invariant :
    (∀ val : Nat, (hilbert3d_iter val 0).start = 0 ∧ (hilbert3d_iter val 0).end_ = 1) ∧
    (∀ val1 val2 : Nat, hilbert3d_compare_iter val1 val2 0 = .running 0 1) ∧
    (∀ val k : Nat,
      (hilbert3d_iter val k).start < 8 ∧ (hilbert3d_iter val k).end_ < 8 ∧
      ((hilbert3d_iter val k).start ^^^ (hilbert3d_iter val k).end_ = 1 ∨
       (hilbert3d_iter val k).start ^^^ (hilbert3d_iter val k).end_ = 2 ∨
       (hilbert3d_iter val k).start ^^^ (hilbert3d_iter val k).end_ = 4) ∧
      (travel_shift (hilbert3d_iter val k).start (hilbert3d_iter val k).end_ = 1 ∨
       travel_shift (hilbert3d_iter val k).start (hilbert3d_iter val k).end_ = 2 ∨
       travel_shift (hilbert3d_iter val k).start (hilbert3d_iter val k).end_ = 3)) ∧
    (∀ val1 val2 k start end_ : Nat,
      hilbert3d_compare_iter val1 val2 k = .running start end_ →
      start < 8 ∧ end_ < 8 ∧ (start ^^^ end_ = 1 ∨ start ^^^ end_ = 2 ∨ start ^^^ end_ = 4) ∧
      (travel_shift start end_ = 1 ∨ travel_shift start end_ = 2 ∨
        travel_shift start end_ = 3)) := by
  refine ⟨fun _ => ⟨rfl, rfl⟩, fun _ _ => rfl, fun val k => ?_, fun val1 val2 k s e h => ?_⟩
  · have h := iter_inv val k
    exact ⟨h.1, h.2.1, h.2.2, travel_shift_table _ h.1 _ h.2.1 h⟩
  · have h := compare_iter_inv val1 val2 k s e h
    exact ⟨h.1, h.2.1, h.2.2, travel_shift_table _ h.1 _ h.2.1 h⟩

theorem hilbert_state_invariant_witness :
    hilbert3d_compare_iter 0 0 2 = .running 0 4 ∧
    ((0 : Nat) < 8 ∧ (4 : Nat) < 8 ∧
      ((0 : Nat) ^^^ 4 = 1 ∨ (0 : Nat) ^^^ 4 = 2 ∨ (0 : Nat) ^^^ 4 = 4) ∧
      (travel_shift 0 4 = 1 ∨ travel_shift 0 4 = 2 ∨ travel_shift 0 4 = 3)) :=
  ⟨by decide, hilbert_state_invariant.2.2.2 0 0 2 0 4 (by decide)⟩

/-- C7 (as stated) fails: `morton3d` is not determined by the low 20 bits of its inputs
and its result need not be below `2 ^ 60`; bit 20 of `x` is moved to bit 60. -/
theorem morton3d_low20_counterexample :
    ¬ (∀ x y z : Nat, x < 2 ^ 64 → y < 2 ^ 64 → z < 2 ^ 64 →
        morton3d x y z = morton3d (x % 2 ^ 20) (y % 2 ^ 20) (z % 2 ^ 20) ∧
        morton3d x y z < 2 ^ 60) := by
  intro h
  have := (h (2 ^ 20) 0 0 (by norm_num) (by norm_num) (by norm_num)).2
  revert this
  decide

/-- C7 (amended): `morton3d` interleaves the low 22 bits of `x` and the low 21 bits of
`y` and `z` into a 64-bit result.  For all inputs below `2 ^ 48` (in particular all 32-bit
coordinates) `morton3d x y z = morton3d (x mod 2^22) (y mod 2^21) (z mod 2^21) < 2^64`,
and the low 60 bits of the result are `morton3d (x mod 2^20) (y mod 2^20) (z mod 2^20)`,
which is below `2 ^ 60`. -/
theorem morton3d_truncation (x y z : Nat) (hx : x < 2 ^ 48) (hy : y < 2 ^ 48)
    (hz : z < 2 ^ 48) :
    morton3d x y z = morton3d (x % 2 ^ 22) (y % 2 ^ 21) (z % 2 ^ 21) ∧
    morton3d x y z < 2 ^ 64 ∧
    morton3d x y z % 2 ^ 60 = morton3d (x % 2 ^ 20) (y % 2 ^ 20) (z % 2 ^ 20) ∧
    morton3d (x % 2 ^ 20) (y % 2 ^ 20) (z % 2 ^ 20) < 2 ^ 60 :=
  ⟨morton3d_mod x y z hx hy hz, morton3d_lt64 x y z, morton3d_low60 x y z hx hy hz,
   morton3d_lt _ _ _ (Nat.mod_lt x (by norm_num)) (Nat.mod_lt y (by norm_num))
     (Nat.mod_lt z (by norm_num))⟩

theorem morton3d_truncation_witness :
    ((2 ^ 22 + 2 ^ 20 + 5 < 2 ^ 48) ∧ (3 < 2 ^ 48) ∧ (6 < 2 ^ 48)) ∧
    morton3d (2 ^ 22 + 2 ^ 20 + 5) 3 6 =
      morton3d ((2 ^ 22 + 2 ^ 20 + 5) % 2 ^ 22) (3 % 2 ^ 21) (6 % 2 ^ 21) ∧
    morton3d (2 ^ 22 + 2 ^ 20 + 5) 3 6 < 2 ^ 64 ∧
    morton3d (2 ^ 22 + 2 ^ 20 + 5) 3 6 % 2 ^ 60 =
      morton3d ((2 ^ 22 + 2 ^ 20 + 5) % 2 ^ 20) (3 % 2 ^ 20) (6 % 2 ^ 20) ∧
    morton3d ((2 ^ 22 + 2 ^ 20 + 5) % 2 ^ 20) (3 % 2 ^ 20) (6 % 2 ^ 20) < 2 ^ 60 :=
  ⟨by decide, morton3d_truncation (2 ^ 22 + 2 ^ 20 + 5) 3 6 (by decide) (by decide) (by decide)⟩

theorem toInt64_of_lt (v : Nat) (h : v < 2 ^ 63) : toInt64 v = (v : Int) := by
  unfold toInt64
  rw [Nat.mod_eq_of_lt (by omega), if_pos h]

/-- The largest Morton key of a list, starting from `m`. -/
theorem foldl_maxnode (ps : List point) (hk : ∀ p ∈ ps, morton3d p.x p.y p.z < 2 ^ 60) :
    ∀ st : CountState, 0 ≤ st.maxnode → st.maxnode < 2 ^ 60 →
      0 ≤ (ps.foldl count_step st).maxnode ∧ (ps.foldl count_step st).maxnode < 2 ^ 60 ∧
      st.maxnode ≤ (ps.foldl count_step st).maxnode ∧
      (∀ p ∈ ps, ((morton3d p.x p.y p.z : Nat) : Int) ≤ (ps.foldl count_step st).maxnode) ∧
      ((ps.foldl count_step st).maxnode = st.maxnode ∨
        ∃ p ∈ ps, (ps.foldl count_step st).maxnode = ((morton3d p.x p.y p.z : Nat) : Int)) := by
  induction ps with
  | nil => intro st h0 h1; exact ⟨h0, h1, le_rfl, fun p hp => absurd hp (List.not_mem_nil p), Or.inl rfl⟩
  | cons a t ih =>
    intro st h0 h1
    have ha := hk a (List.mem_cons_self _ _)
    have hc : toInt64 (morton3d a.x a.y a.z) = ((morton3d a.x a.y a.z : Nat) : Int) :=
      toInt64_of_lt _ (by omega)
    have hm : (count_step st a).maxnode =
        if st.maxnode < ((morton3d a.x a.y a.z : Nat) : Int) then
          ((morton3d a.x a.y a.z : Nat) : Int) else st.maxnode := by
      simp only [count_step, hc]
    have hlt : ((morton3d a.x a.y a.z : Nat) : Int) < 2 ^ 60 := by exact_mod_cast ha
    obtain ⟨i0, i1, i2, i3, i4⟩ := ih (fun p hp => hk p (List.mem_cons_of_mem _ hp))
      (count_step st a) (by rw [hm]; split_ifs <;> omega) (by rw [hm]; split_ifs <;> omega)
    simp only [List.foldl_cons]
    refine ⟨i0, i1, ?_, ?_, ?_⟩
    · rw [hm] at i2; split_ifs at i2 <;> omega
    · intro p hp
      rcases List.mem_cons.1 hp with rfl | hp
      · rw [hm] at i2; split_ifs at i2 <;> omega
      · exact i3 p hp
    · rcases i4 with e | ⟨p, hp, e⟩
      · rw [hm] at e
        split_ifs at e
        · exact Or.inr ⟨a, List.mem_cons_self _ _, e⟩
        · exact Or.inl e
      · exact Or.inr ⟨p, List.mem_cons_of_mem _ hp, e⟩

theorem shiftRight_ne_zero_iff (n k : Nat) :
    ((n : Int) >>> (k * 3) ≠ 0) ↔ 8 ^ k ≤ n := by
  have e : (2 : Nat) ^ (k * 3) = 8 ^ k := by rw [Nat.mul_comm, pow_mul]; norm_num
  rw [Int.shiftRight_eq_div_pow, e]
  have : ((n : Int) / ((8 ^ k : Nat) : Int)) = ((n / 8 ^ k : Nat) : Int) := by norm_cast
  rw [this]
  have hp : 0 < 8 ^ k := by positivity
  constructor
  · intro h
    by_contra hlt
    apply h
    rw [Nat.div_eq_of_lt (by omega)]
    rfl
  · intro h hz
    have : 0 < n / 8 ^ k := Nat.div_pos h hp
    omega

theorem layers_loop_spec (n : Nat) (hn : n < 8 ^ 20) :
    ∀ fuel l, l ≤ 20 → 22 ≤ l + fuel → (∀ l', l' < l → 8 ^ l' ≤ n) →
      ∃ L, layers_loop (n : Int) fuel l = some L ∧ L ≤ 20 ∧ n < 8 ^ L ∧
        ∀ l', l' < L → 8 ^ l' ≤ n := by
  intro fuel
  induction fuel with
  | zero => intro l h1 h2; omega
  | succ fuel ih =>
    intro l h1 h2 h3
    rw [layers_loop, if_neg (by omega)]
    by_cases hs : ((n : Int) >>> (l * 3) ≠ 0)
    · rw [if_pos hs]
      have h8 := (shiftRight_ne_zero_iff n l).1 hs
      have hl : l < 20 := by
        by_contra hc
        obtain rfl : l = 20 := by omega
        omega
      exact ih (l + 1) (by omega) (by omega) (fun l' hl' => by
        rcases Nat.lt_or_ge l' l with c | c
        · exact h3 l' c
        · obtain rfl : l' = l := by omega
          exact h8)
    · rw [if_neg hs]
      refine ⟨l, rfl, h1, ?_, h3⟩
      by_contra hc
      exact hs ((shiftRight_ne_zero_iff n l).2 (by omega))

theorem count_layers_spec (n : Nat) (hn : n < 2 ^ 60) :
    ∃ L, count_layers (n : Int) = some L ∧ L ≤ 20 ∧ n < 8 ^ L ∧ ∀ l', l' < L → 8 ^ l' ≤ n :=
  layers_loop_spec n (by norm_num at hn ⊢; omega) 23 0 (by norm_num) (by norm_num)
    (fun l' hl' => by omega)

/-- C15: the builder's layer rule.  For every point list whose Morton keys are below
`2 ^ 60` and every `repeat_depth` in `0..15`: `maxnode` is the largest key (0 for the
empty list), `layers` is the least `L` with `maxnode < 8 ^ L`, that is
`⌈log₈ (maxnode + 1)⌉`, `nonlayers = 19 - layers - repeat_depth`, and the assertion
`nonlayers >= 0` fails exactly when `maxnode ≥ 8 ^ (19 - repeat_depth)`.  For the two
points `(0,0,0)` and `(2^20-1, 2^20-1, 2^20-1)` with `repeat_depth = 0` the result is
`layers = 20`, `nonlayers = -1` and the assertion fails. -/
theorem layers_rule (ps : List point) (repeat_depth : Nat)
    (hk : ∀ p ∈ ps, morton3d p.x p.y p.z < 2 ^ 60) (hrd : repeat_depth ≤ 15) :
    (∃ maxnode L : Nat,
      (count_nodes ps).maxnode = (maxnode : Int) ∧
      (∀ p ∈ ps, morton3d p.x p.y p.z ≤ maxnode) ∧
      (maxnode = 0 ∨ ∃ p ∈ ps, morton3d p.x p.y p.z = maxnode) ∧
      count_layers (count_nodes ps).maxnode = some L ∧
      maxnode < 8 ^ L ∧ (∀ L', maxnode < 8 ^ L' → L ≤ L') ∧ L = Nat.clog 8 (maxnode + 1) ∧
      main_layers ps repeat_depth =
        some (if 0 ≤ (19 : Int) - L - repeat_depth
              then .ok L ((19 : Int) - L - repeat_depth)
              else .assert_failed L ((19 : Int) - L - repeat_depth)) ∧
      (((19 : Int) - L - repeat_depth < 0) ↔ 8 ^ (19 - repeat_depth) ≤ maxnode)) ∧
    main_layers [⟨0, 0, 0⟩, ⟨2 ^ 20 - 1, 2 ^ 20 - 1, 2 ^ 20 - 1⟩] 0 =
      some (.assert_failed 20 (-1)) := by
  refine ⟨?_, by decide⟩
  obtain ⟨m0, m1, _, m3, m4⟩ := foldl_maxnode ps hk
    { old := -1, nodecount := fun _ => 0, maxnode := 0 } (by norm_num) (by norm_num)
  obtain ⟨n, hn⟩ := Int.eq_ofNat_of_zero_le m0
  have hn' : (count_nodes ps).maxnode = (n : Int) := hn
  have hlt : n < 2 ^ 60 := by
    have : ((n : Nat) : Int) < 2 ^ 60 := by rw [← hn]; exact m1
    exact_mod_cast this
  obtain ⟨L, hL, hL20, hLt, hLmin⟩ := count_layers_spec n hlt
  have hmin : ∀ L', n < 8 ^ L' → L ≤ L' := by
    intro L' h'
    by_contra hc
    have := hLmin L' (by omega)
    omega
  refine ⟨n, L, hn', ?_, ?_, by rw [hn']; exact hL, hLt, hmin, ?_, ?_, ?_⟩
  · intro p hp
    have := m3 p hp
    rw [hn] at this
    exact_mod_cast this
  · rcases m4 with e | ⟨p, hp, e⟩
    · left
      have e' : (n : Int) = 0 := by rw [← hn]; exact e
      exact_mod_cast e'
    · right
      refine ⟨p, hp, ?_⟩
      rw [hn] at e
      exact_mod_cast e.symm
  · apply le_antisymm
    · apply hmin
      have := Nat.le_pow_clog (by norm_num : 1 < 8) (n + 1)
      omega
    · exact (Nat.le_pow_iff_clog_le (by norm_num : 1 < 8)).1 (by omega)
  · unfold main_layers
    rw [hn', hL]
    rfl
  · constructor
    · intro h
      by_contra hc
      have := hmin (19 - repeat_depth) (by omega)
      omega
    · intro h
      by_contra hc
      have hle : L ≤ 19 - repeat_depth := by omega
      have := Nat.pow_le_pow_right (by norm_num : 0 < 8) hle
      omega

theorem layers_rule_witness :
    (∀ p ∈ [(⟨0, 0, 0⟩ : point), ⟨5, 5, 5⟩], morton3d p.x p.y p.z < 2 ^ 60) ∧ 3 ≤ 15 ∧
    main_layers [⟨0, 0, 0⟩, ⟨2 ^ 20 - 1, 2 ^ 20 - 1, 2 ^ 20 - 1⟩] 0 =
      some (.assert_failed 20 (-1)) :=
  ⟨by decide, by decide, (layers_rule [⟨0, 0, 0⟩, ⟨5, 5, 5⟩] 3 (by decide) (by decide)).2⟩

theorem digit_eq_div_mod (v n : Nat) : (v >>> (3 * n)) &&& 7 = v / 8 ^ n % 8 := by
  have e : (2 : Nat) ^ (3 * n) = 8 ^ n := by rw [pow_mul]; norm_num
  rw [Nat.shiftRight_eq_div_pow, e]
  exact Nat.and_pow_two_sub_one_eq_mod _ 3

theorem split_div (a b P Q : Nat) (hQ : 0 < Q) : (a * (P * Q) + b) / Q = a * P + b / Q := by
  rw [← Nat.mul_assoc, Nat.add_comm, Nat.add_mul_div_right _ _ hQ, Nat.add_comm]

theorem mul_add_eq_iff (P a b c d : Nat) (hb : b < P) (hd : d < P) :
    a * P + b = c * P + d ↔ a = c ∧ b = d := by
  constructor
  · intro h
    have h1 : (a * P + b) / P = (c * P + d) / P := by rw [h]
    have hP : 0 < P := by omega
    rw [Nat.mul_comm a, Nat.mul_comm c, Nat.mul_add_div hP, Nat.mul_add_div hP,
      Nat.div_eq_of_lt hb, Nat.div_eq_of_lt hd] at h1
    have : a = c := by omega
    subst this
    exact ⟨rfl, by omega⟩
  · rintro ⟨rfl, rfl⟩; rfl

theorem div_lt_pow_sub (x n j : Nat) (hj : j ≤ n) (hx : x < 8 ^ n) : x / 8 ^ j < 8 ^ (n - j) := by
  rw [Nat.div_lt_iff_lt_mul (by positivity), ← pow_add]
  have : n - j + j = n := by omega
  rw [this]
  exact hx

/-- The key digits of the levels `j, ..., n-1` agree exactly when the Morton digits of
these levels agree. -/
theorem keyFrom_prefix (j : Nat) : ∀ n, j ≤ n → ∀ s e v1 v2, StateInv s e →
    (keyFrom v1 n s e / 8 ^ j = keyFrom v2 n s e / 8 ^ j ↔
      v1 % 8 ^ n / 8 ^ j = v2 % 8 ^ n / 8 ^ j) := by
  intro n hn
  induction n, hn using Nat.le_induction with
  | base =>
    intro s e v1 v2 _
    rw [Nat.div_eq_of_lt (keyFrom_lt v1 j s e), Nat.div_eq_of_lt (keyFrom_lt v2 j s e),
      Nat.div_eq_of_lt (Nat.mod_lt _ (by positivity)),
      Nat.div_eq_of_lt (Nat.mod_lt _ (by positivity))]
  | succ n hn ih =>
    intro s e v1 v2 hse
    have hP : (8 : Nat) ^ n = 8 ^ (n - j) * 8 ^ j := by
      rw [← pow_add]; congr 1; omega
    have hQ : 0 < 8 ^ j := by positivity
    have hm : ∀ v : Nat, v % 8 ^ (n + 1) = (v / 8 ^ n % 8) * (8 ^ (n - j) * 8 ^ j) + v % 8 ^ n := by
      intro v
      rw [Nat.mod_pow_succ, ← hP]
      ring
    simp only [keyFrom]
    rw [hm v1, hm v2, hP, split_div _ _ _ _ hQ, split_div _ _ _ _ hQ, split_div _ _ _ _ hQ,
      split_div _ _ _ _ hQ, ← hP]
    rw [mul_add_eq_iff _ _ _ _ _ (div_lt_pow_sub _ n j hn (keyFrom_lt _ _ _ _))
        (div_lt_pow_sub _ n j hn (keyFrom_lt _ _ _ _)),
      mul_add_eq_iff _ _ _ _ _ (div_lt_pow_sub _ n j hn (Nat.mod_lt _ (by positivity)))
        (div_lt_pow_sub _ n j hn (Nat.mod_lt _ (by positivity)))]
    rw [hilbert_digit_eq, hilbert_digit_eq, digit_eq_div_mod, digit_eq_div_mod]
    have hd1 : v1 / 8 ^ n % 8 < 8 := Nat.mod_lt _ (by norm_num)
    have hd2 : v2 / 8 ^ n % 8 < 8 := Nat.mod_lt _ (by norm_num)
    constructor
    · rintro ⟨hi, hk⟩
      have hd := hdig_inj_table s hse.1 e hse.2.1 _ hd1 _ hd2 hse hi
      refine ⟨hd, ?_⟩
      rw [hd] at hk
      exact (ih _ _ v1 v2 (next_inv _ (by
        have := hilbert_digit_lt v2 n s e
        rw [hilbert_digit_eq, digit_eq_div_mod] at this
        exact this) hse)).1 hk
    · rintro ⟨hd, hr⟩
      rw [hd]
      refine ⟨rfl, ?_⟩
      exact (ih _ _ v1 v2 (next_inv _ (by
        have := hilbert_digit_lt v2 n s e
        rw [hilbert_digit_eq, digit_eq_div_mod] at this
        exact this) hse)).2 hr

theorem hilbert3d_lt (p : point) : hilbert3d p < 8 ^ 20 := by
  rw [hilbert3d_eq_keyFrom]; exact keyFrom_lt _ _ _ _

/-- Key prefixes and Morton prefixes identify the same octree cells. -/
theorem prefix_iff (p q : point) (hp : p.x < 2 ^ 20 ∧ p.y < 2 ^ 20 ∧ p.z < 2 ^ 20)
    (hq : q.x < 2 ^ 20 ∧ q.y < 2 ^ 20 ∧ q.z < 2 ^ 20) (j : Nat) :
    hilbert3d p / 8 ^ j = hilbert3d q / 8 ^ j ↔
      morton3d p.x p.y p.z / 8 ^ j = morton3d q.x q.y q.z / 8 ^ j := by
  have mp := morton3d_lt p.x p.y p.z hp.1 hp.2.1 hp.2.2
  have mq := morton3d_lt q.x q.y q.z hq.1 hq.2.1 hq.2.2
  have e60 : (2 : Nat) ^ 60 = 8 ^ 20 := by norm_num
  rw [e60] at mp mq
  rcases Nat.lt_or_ge 20 j with h | h
  · have hpow : (8 : Nat) ^ 20 ≤ 8 ^ j := Nat.pow_le_pow_right (by norm_num) (by omega)
    rw [Nat.div_eq_of_lt (lt_of_lt_of_le (hilbert3d_lt p) hpow),
      Nat.div_eq_of_lt (lt_of_lt_of_le (hilbert3d_lt q) hpow),
      Nat.div_eq_of_lt (lt_of_lt_of_le mp hpow), Nat.div_eq_of_lt (lt_of_lt_of_le mq hpow)]
  · have := keyFrom_prefix j 20 h 0 1 (morton3d p.x p.y p.z) (morton3d q.x q.y q.z) (by decide)
    rw [Nat.mod_eq_of_lt mp, Nat.mod_eq_of_lt mq] at this
    rw [hilbert3d_eq_keyFrom, hilbert3d_eq_keyFrom]
    exact this

theorem shiftRight_three_mul (v j : Nat) : v >>> (3 * j) = v / 8 ^ j := by
  have e : (2 : Nat) ^ (3 * j) = 8 ^ j := by rw [pow_mul]; norm_num
  rw [Nat.shiftRight_eq_div_pow, e]

theorem hilbert3d_inj (p q : point) (hp : p.x < 2 ^ 20 ∧ p.y < 2 ^ 20 ∧ p.z < 2 ^ 20)
    (hq : q.x < 2 ^ 20 ∧ q.y < 2 ^ 20 ∧ q.z < 2 ^ 20) (h : hilbert3d p = hilbert3d q) :
    p = q := by
  have := (prefix_iff p q hp hq 0).1 (by rw [h])
  simp only [pow_zero, Nat.div_one] at this
  obtain ⟨hx, hy, hz⟩ := morton3d_inj _ _ _ _ _ _ hp.1 hp.2.1 hp.2.2 hq.1 hq.2.1 hq.2.2 this
  cases p; cases q
  simp only at hx hy hz
  rw [hx, hy, hz]

/-- C19: Hilbert keys preserve the octree hierarchy.  For points with coordinates below
`2 ^ 20` and every `j`, `hilbert3d p >> 3j = hilbert3d q >> 3j` if and only if
`morton3d p >> 3j = morton3d q >> 3j`; in particular `hilbert3d` is injective on such
points, and two of them that are incomparable under `hilbert3d_compare` are equal. -/
theorem hilbert3d_prefix_iff_morton3d_cell (p q : point)
    (hp : p.x < 2 ^ 20 ∧ p.y < 2 ^ 20 ∧ p.z < 2 ^ 20)
    (hq : q.x < 2 ^ 20 ∧ q.y < 2 ^ 20 ∧ q.z < 2 ^ 20) :
    (∀ j : Nat, hilbert3d p >>> (3 * j) = hilbert3d q >>> (3 * j) ↔
      morton3d p.x p.y p.z >>> (3 * j) = morton3d q.x q.y q.z >>> (3 * j)) ∧
    (hilbert3d p = hilbert3d q → p = q) ∧
    (hilbert3d_compare p q = false → hilbert3d_compare q p = false → p = q) := by
  refine ⟨fun j => ?_, hilbert3d_inj p q hp hq, fun h1 h2 => ?_⟩
  · simp only [shiftRight_three_mul]
    exact prefix_iff p q hp hq j
  · rw [compare_eq_false_iff] at h1 h2
    exact hilbert3d_inj p q hp hq (by omega)

theorem hilbert3d_prefix_iff_morton3d_cell_witness :
    ((5 : Nat) < 2 ^ 20 ∧ (5 : Nat) < 2 ^ 20 ∧ (5 : Nat) < 2 ^ 20) ∧
    ((5 : Nat) < 2 ^ 20 ∧ (5 : Nat) < 2 ^ 20 ∧ (6 : Nat) < 2 ^ 20) ∧
    (hilbert3d ⟨5, 5, 5⟩ >>> (3 * 1) = hilbert3d ⟨5, 5, 6⟩ >>> (3 * 1) ↔
      morton3d 5 5 5 >>> (3 * 1) = morton3d 5 5 6 >>> (3 * 1)) :=
  ⟨by decide, by decide,
   (hilbert3d_prefix_iff_morton3d_cell ⟨5, 5, 5⟩ ⟨5, 5, 6⟩ (by decide) (by decide)).1 1⟩

theorem count_inner_apply (cur old : Int) (nc : Nat → Nat) (n : Nat) (hn : n ≤ 20) (k : Nat) :
    count_inner cur old nc n k =
      nc k + if k ≤ 19 ∧ 19 - k < n ∧ cur >>> ((19 - k) * 3) ≠ old >>> ((19 - k) * 3)
        then 1 else 0 := by
  induction n with
  | zero => simp [count_inner]
  | succ n ih =>
    have ih' := ih (by omega)
    simp only [count_inner]
    by_cases hd : cur >>> (n * 3) ≠ old >>> (n * 3)
    · rw [if_pos hd]
      by_cases hk : k = 19 - n
      · subst hk
        have e : 19 - (19 - n) = n := by omega
        rw [Function.update_same, ih (by omega), e]
        have c1 : ¬ (19 - n ≤ 19 ∧ n < n ∧ cur >>> (n * 3) ≠ old >>> (n * 3)) := by omega
        have c2 : (19 - n ≤ 19 ∧ n < n + 1 ∧ cur >>> (n * 3) ≠ old >>> (n * 3)) :=
          ⟨by omega, by omega, hd⟩
        rw [if_neg c1, if_pos c2]
      · rw [Function.update_noteq hk, ih']
        by_cases c : k ≤ 19 ∧ 19 - k < n ∧ cur >>> ((19 - k) * 3) ≠ old >>> ((19 - k) * 3)
        · rw [if_pos c, if_pos ⟨c.1, by omega, c.2.2⟩]
        · rw [if_neg c, if_neg]
          rintro ⟨a1, a2, a3⟩
          exact c ⟨a1, by omega, a3⟩
    · rw [if_neg hd, ih']
      by_cases c : k ≤ 19 ∧ 19 - k < n ∧ cur >>> ((19 - k) * 3) ≠ old >>> ((19 - k) * 3)
      · rw [if_pos c, if_pos ⟨c.1, by omega, c.2.2⟩]
      · rw [if_neg c, if_neg]
        rintro ⟨a1, a2, a3⟩
        by_cases hk : 19 - k = n
        · rw [hk] at a3; exact hd a3
        · exact c ⟨a1, by omega, a3⟩

theorem foldl_nodecount (j : Nat) (hj : j < 20) (ps : List point) :
    ∀ st : CountState,
      (ps.foldl count_step st).nodecount (19 - j) = st.nodecount (19 - j) + changes j st.old ps := by
  induction ps with
  | nil => intro st; simp [changes]
  | cons a t ih =>
    intro st
    rw [List.foldl_cons, ih]
    have e : 19 - (19 - j) = j := by omega
    simp only [count_step, changes, count_inner_apply _ _ _ 20 le_rfl, e]
    by_cases c : toInt64 (morton3d a.x a.y a.z) >>> (j * 3) ≠ st.old >>> (j * 3)
    · rw [if_pos ⟨by omega, by omega, c⟩, if_pos c]; ring
    · rw [if_neg (fun x => c x.2.2), if_neg c]; ring

theorem int_shiftRight_natCast (v j : Nat) : ((v : Nat) : Int) >>> (j * 3) = ((v / 8 ^ j : Nat) : Int) := by
  have e : (2 : Nat) ^ (j * 3) = 8 ^ j := by rw [Nat.mul_comm, pow_mul]; norm_num
  rw [Int.shiftRight_eq_div_pow, e]
  norm_cast

theorem neg_one_shiftRight (k : Nat) : (-1 : Int) >>> k = -1 := by
  show Int.negSucc (0 >>> k) = Int.negSucc 0
  simp

/-- In a list sorted by Hilbert key, counting the changes of the Morton prefix counts the
distinct Morton prefixes that differ from the one of the preceding point. -/
theorem changes_sorted (j : Nat) : ∀ (l : List point) (prev : point),
    (∀ p ∈ prev :: l, p.x < 2 ^ 20 ∧ p.y < 2 ^ 20 ∧ p.z < 2 ^ 20) →
    List.Pairwise (fun a b => hilbert3d a ≤ hilbert3d b) (prev :: l) →
    changes j (toInt64 (morton3d prev.x prev.y prev.z)) l =
      (((l.map fun p => morton3d p.x p.y p.z / 8 ^ j).toFinset).erase
        (morton3d prev.x prev.y prev.z / 8 ^ j)).card := by
  intro l
  induction l with
  | nil => intro prev _ _; simp [changes]
  | cons a t ih =>
    intro prev hc hs
    have hprev := hc prev (List.mem_cons_self _ _)
    have ha := hc a (List.mem_cons_of_mem _ (List.mem_cons_self _ _))
    have mp := morton3d_lt prev.x prev.y prev.z hprev.1 hprev.2.1 hprev.2.2
    have ma := morton3d_lt a.x a.y a.z ha.1 ha.2.1 ha.2.2
    have hs' := List.pairwise_cons.1 hs
    have hat := List.pairwise_cons.1 hs'.2
    have iht := ih a (fun p hp => hc p (List.mem_cons_of_mem _ hp)) hs'.2
    simp only [changes]
    rw [iht, toInt64_of_lt _ (by omega), toInt64_of_lt _ (by omega), int_shiftRight_natCast,
      int_shiftRight_natCast, List.map_cons, List.toFinset_cons]
    by_cases hg : morton3d a.x a.y a.z / 8 ^ j = morton3d prev.x prev.y prev.z / 8 ^ j
    · have : ¬ ((((morton3d a.x a.y a.z / 8 ^ j : Nat) : Int)) ≠
          ((morton3d prev.x prev.y prev.z / 8 ^ j : Nat) : Int)) := by
        rw [hg]; simp
      rw [if_neg this, hg, Finset.erase_insert_eq_erase, Nat.zero_add]
    · have : ((((morton3d a.x a.y a.z / 8 ^ j : Nat) : Int)) ≠
          ((morton3d prev.x prev.y prev.z / 8 ^ j : Nat) : Int)) := by
        intro h; apply hg; exact_mod_cast h
      rw [if_pos this]
      have hnot : morton3d prev.x prev.y prev.z / 8 ^ j ∉
          insert (morton3d a.x a.y a.z / 8 ^ j)
            (t.map fun p => morton3d p.x p.y p.z / 8 ^ j).toFinset := by
        intro hmem
        rcases Finset.mem_insert.1 hmem with h | h
        · exact hg h.symm
        · rw [List.mem_toFinset, List.mem_map] at h
          obtain ⟨q, hq, hqe⟩ := h
          have hqc := hc q (List.mem_cons_of_mem _ (List.mem_cons_of_mem _ hq))
          have h1 : hilbert3d prev ≤ hilbert3d a := hs'.1 a (List.mem_cons_self _ _)
          have h2 : hilbert3d a ≤ hilbert3d q := hat.1 q hq
          have e1 := (prefix_iff q prev hqc hprev j).2 hqe
          have e2 : hilbert3d a / 8 ^ j ≠ hilbert3d prev / 8 ^ j :=
            fun x => hg ((prefix_iff a prev ha hprev j).1 x)
          have d1 := Nat.div_le_div_right (c := 8 ^ j) h1
          have d2 := Nat.div_le_div_right (c := 8 ^ j) h2
          omega
      rw [Finset.erase_eq_of_not_mem hnot]
      by_cases hin : morton3d a.x a.y a.z / 8 ^ j ∈
          (t.map fun p => morton3d p.x p.y p.z / 8 ^ j).toFinset
      · rw [Finset.insert_eq_of_mem hin, Finset.card_erase_of_mem hin]
        have := Finset.card_pos.2 ⟨_, hin⟩
        omega
      · rw [Finset.card_insert_of_not_mem hin, Finset.erase_eq_of_not_mem hin]
        omega

theorem changes_first (j : Nat) (l : List point)
    (hc : ∀ p ∈ l, p.x < 2 ^ 20 ∧ p.y < 2 ^ 20 ∧ p.z < 2 ^ 20)
    (hs : List.Pairwise (fun a b => hilbert3d a ≤ hilbert3d b) l) :
    changes j (-1) l = ((l.map fun p => morton3d p.x p.y p.z / 8 ^ j).toFinset).card := by
  cases l with
  | nil => simp [changes]
  | cons a t =>
    have ha := hc a (List.mem_cons_self _ _)
    have ma := morton3d_lt a.x a.y a.z ha.1 ha.2.1 ha.2.2
    simp only [changes]
    rw [changes_sorted j t a hc hs, toInt64_of_lt _ (by omega), int_shiftRight_natCast,
      neg_one_shiftRight, List.map_cons, List.toFinset_cons]
    have : (((morton3d a.x a.y a.z / 8 ^ j : Nat) : Int)) ≠ -1 := by
      intro h
      have h0 := Int.natCast_nonneg (morton3d a.x a.y a.z / 8 ^ j)
      rw [h] at h0
      exact absurd h0 (by decide)
    rw [if_pos this]
    by_cases hin : morton3d a.x a.y a.z / 8 ^ j ∈
        (t.map fun p => morton3d p.x p.y p.z / 8 ^ j).toFinset
    · rw [Finset.insert_eq_of_mem hin, Finset.card_erase_of_mem hin]
      have := Finset.card_pos.2 ⟨_, hin⟩
      omega
    · rw [Finset.card_insert_of_not_mem hin, Finset.erase_eq_of_not_mem hin]
      omega

/-- C17: node counting.  For every list of points with coordinates below `2 ^ 20` that is
in non-decreasing `hilbert3d` key order, after the counting loop `nodecount[19-j]` is the
number of distinct values of `morton3d(p) >> 3j` over the points of the list, for every
`j` in `0..19`. -/
theorem nodecount_distinct_cells (ps : List point)
    (hc : ∀ p ∈ ps, p.x < 2 ^ 20 ∧ p.y < 2 ^ 20 ∧ p.z < 2 ^ 20)
    (hs : (ps.map hilbert3d).Sorted (· ≤ ·)) (j : Nat) (hj : j < 20) :
    (count_nodes ps).nodecount (19 - j) =
      ((ps.map fun p => morton3d p.x p.y p.z >>> (3 * j)).toFinset).card ∧
    (count_nodes ps).nodecount (19 - j) =
      ((ps.map fun p => morton3d p.x p.y p.z >>> (3 * j)).dedup).length := by
  have hs' : List.Pairwise (fun a b => hilbert3d a ≤ hilbert3d b) ps := by
    have := hs
    unfold List.Sorted at this
    rwa [List.pairwise_map] at this
  have key : (count_nodes ps).nodecount (19 - j) =
      ((ps.map fun p => morton3d p.x p.y p.z >>> (3 * j)).toFinset).card := by
    unfold count_nodes
    rw [foldl_nodecount j hj ps]
    simp only [Nat.zero_add, shiftRight_three_mul]
    exact changes_first j ps hc hs'
  exact ⟨key, by rw [key, List.card_toFinset]⟩

theorem nodecount_distinct_cells_witness :
    (∀ p ∈ [(⟨0, 0, 0⟩ : point), ⟨0, 0, 1⟩, ⟨1, 0, 1⟩],
      p.x < 2 ^ 20 ∧ p.y < 2 ^ 20 ∧ p.z < 2 ^ 20) ∧
    (([(⟨0, 0, 0⟩ : point), ⟨0, 0, 1⟩, ⟨1, 0, 1⟩]).map hilbert3d).Sorted (· ≤ ·) ∧
    (count_nodes [⟨0, 0, 0⟩, ⟨0, 0, 1⟩, ⟨1, 0, 1⟩]).nodecount (19 - 0) =
      (([(⟨0, 0, 0⟩ : point), ⟨0, 0, 1⟩, ⟨1, 0, 1⟩].map
        fun p => morton3d p.x p.y p.z >>> (3 * 0)).dedup).length :=
  ⟨by decide, by decide,
   (nodecount_distinct_cells [⟨0, 0, 0⟩, ⟨0, 0, 1⟩, ⟨1, 0, 1⟩] (by decide) (by decide) 0
     (by decide)).2⟩

theorem changes_zero (j : Nat) (l : List point)
    (hk : ∀ p ∈ l, morton3d p.x p.y p.z < 2 ^ 60)
    (hl : ∀ p ∈ l, morton3d p.x p.y p.z < 8 ^ j)
    (old : Int) (ho : old >>> (j * 3) = 0) : changes j old l = 0 := by
  induction l generalizing old with
  | nil => rfl
  | cons a t ih =>
    have ha := hl a (List.mem_cons_self _ _)
    have ha60 := hk a (List.mem_cons_self _ _)
    have hz : toInt64 (morton3d a.x a.y a.z) >>> (j * 3) = 0 := by
      rw [toInt64_of_lt _ (by omega), int_shiftRight_natCast, Nat.div_eq_of_lt ha]
      rfl
    simp only [changes]
    rw [ih (fun p hp => hk p (List.mem_cons_of_mem _ hp))
      (fun p hp => hl p (List.mem_cons_of_mem _ hp)) _ hz, hz, ho]
    simp

theorem changes_one (j : Nat) (l : List point) (hne : l ≠ [])
    (hk : ∀ p ∈ l, morton3d p.x p.y p.z < 2 ^ 60)
    (hl : ∀ p ∈ l, morton3d p.x p.y p.z < 8 ^ j) : changes j (-1) l = 1 := by
  cases l with
  | nil => exact absurd rfl hne
  | cons a t =>
    have ha := hl a (List.mem_cons_self _ _)
    have ha60 := hk a (List.mem_cons_self _ _)
    have hz : toInt64 (morton3d a.x a.y a.z) >>> (j * 3) = 0 := by
      rw [toInt64_of_lt _ (by omega), int_shiftRight_natCast, Nat.div_eq_of_lt ha]
      rfl
    simp only [changes]
    rw [changes_zero j t (fun p hp => hk p (List.mem_cons_of_mem _ hp))
      (fun p hp => hl p (List.mem_cons_of_mem _ hp)) _ hz, hz, neg_one_shiftRight]
    simp

theorem count_maxnode_layers (ps : List point)
    (hk : ∀ p ∈ ps, morton3d p.x p.y p.z < 2 ^ 60) :
    ∃ L, count_layers (count_nodes ps).maxnode = some L ∧ L ≤ 20 ∧
      ∀ p ∈ ps, morton3d p.x p.y p.z < 8 ^ L := by
  obtain ⟨h0, h1, _, h3, _⟩ := foldl_maxnode ps hk
    { old := -1, nodecount := fun _ => 0, maxnode := 0 } le_rfl (by norm_num)
  obtain ⟨m, hm⟩ := Int.eq_ofNat_of_zero_le h0
  have hm' : (count_nodes ps).maxnode = (m : Int) := hm
  rw [hm] at h1 h3
  have hm60 : m < 2 ^ 60 := by exact_mod_cast h1
  obtain ⟨L, e, hL, hlt, _⟩ := count_layers_spec m hm60
  refine ⟨L, by rw [hm']; exact e, hL, fun p hp => ?_⟩
  have := h3 p hp
  have : morton3d p.x p.y p.z ≤ m := by exact_mod_cast this
  omega

theorem nodesum_loop_spec (nc : Nat → Nat) (fuel : Nat) :
    ∀ i s, 20 ≤ i + fuel → s < 2 ^ 64 →
      nodesum_loop nc fuel i s = (s + ∑ k in Finset.Ico i 19, nc k) % 2 ^ 64 := by
  induction fuel with
  | zero =>
    intro i s hi hs
    rw [nodesum_loop, Finset.Ico_eq_empty (by omega), Finset.sum_empty, Nat.add_zero,
      Nat.mod_eq_of_lt hs]
  | succ fuel ih =>
    intro i s hi hs
    rw [nodesum_loop]
    by_cases c : i < 20
    · rw [if_pos c]
      by_cases d : i < 19
      · rw [if_pos d, ih (i + 1) _ (by omega) (Nat.mod_lt _ (by norm_num)),
          Finset.sum_eq_sum_Ico_succ_bot d, Nat.mod_add_mod, Nat.add_assoc]
      · rw [if_neg d, ih (i + 1) s (by omega) hs, Finset.Ico_eq_empty (by omega),
          Finset.Ico_eq_empty (by omega)]
    · rw [if_neg c, Finset.Ico_eq_empty (by omega), Finset.sum_empty, Nat.add_zero,
        Nat.mod_eq_of_lt hs]

theorem sum_ones (nc : Nat → Nat) (a b : Nat) (h : ∀ i, a ≤ i → i < b → nc i = 1) :
    ∑ k in Finset.Ico a b, nc k = b - a := by
  rw [Finset.sum_congr rfl (fun k hk => h k (Finset.mem_Ico.1 hk).1 (Finset.mem_Ico.1 hk).2)]
  simp

/-- C22: single root and single repetition nodes.  For every non-empty point list whose
Morton keys are below `2 ^ 60`, in any order, the layer loop returns some `layers` and
the counting loop yields `nodecount[i] = 1` for every `i ≤ 19 - layers`.  Hence, when
`nonlayers = 19 - layers - repeat_depth ≥ 0`, the assertion holds and in the node total
`sum(nodecount[nonlayers..18])` (a `uint64_t`) the layers `nonlayers, ..., 19 - layers`
count one node each: `repeat_depth + 1` nodes for the repetition layers and the top data
layer when there is a data layer (`layers ≥ 1`), and `repeat_depth` nodes when there is
none (`layers = 0`: all points in one leaf, index 19 is not in the sum); the rest of the
total is the sum over the data layers below the top one. -/
theorem single_root_nodes (ps : List point) (repeat_depth : Nat) (hne : ps ≠ [])
    (hk : ∀ p ∈ ps, morton3d p.x p.y p.z < 2 ^ 60) :
    ∃ layers, count_layers (count_nodes ps).maxnode = some layers ∧
      (∀ i, i + layers ≤ 19 → (count_nodes ps).nodecount i = 1) ∧
      (layers + repeat_depth ≤ 19 →
        main_layers ps repeat_depth =
          some (.ok layers ((19 - layers - repeat_depth : Nat) : Int)) ∧
        main_nodesum ps repeat_depth =
          some (((if 1 ≤ layers then repeat_depth + 1 else repeat_depth) +
            ∑ k in Finset.Ico (20 - layers) 19, (count_nodes ps).nodecount k) % 2 ^ 64)) := by
  obtain ⟨L, e, hL, hlt⟩ := count_maxnode_layers ps hk
  have ones : ∀ i, i + L ≤ 19 → (count_nodes ps).nodecount i = 1 := by
    intro i hi
    have hj : 19 - (19 - i) = i := by omega
    have := foldl_nodecount (19 - i) (by omega) ps
      { old := -1, nodecount := fun _ => 0, maxnode := 0 }
    rw [hj] at this
    unfold count_nodes
    rw [this, changes_one (19 - i) ps hne hk (fun p hp =>
      Nat.lt_of_lt_of_le (hlt p hp) (Nat.pow_le_pow_right (by norm_num) (by omega)))]
  refine ⟨L, e, ones, fun hnl => ?_⟩
  have hcast : (19 : Int) - (L : Int) - (repeat_depth : Int) =
      ((19 - L - repeat_depth : Nat) : Int) := by omega
  have ml : main_layers ps repeat_depth =
      some (.ok L ((19 - L - repeat_depth : Nat) : Int)) := by
    unfold main_layers
    rw [e, Option.map_some', hcast, if_pos (Int.natCast_nonneg _)]
  refine ⟨ml, ?_⟩
  unfold main_nodesum
  rw [ml]
  simp only [Int.toNat_ofNat]
  unfold nodesum
  rw [nodesum_loop_spec _ 20 _ 0 (by omega) (by norm_num), Nat.zero_add]
  congr 2
  by_cases c : 1 ≤ L
  · rw [if_pos c, ← Finset.sum_Ico_consecutive _ (by omega : 19 - L - repeat_depth ≤ 20 - L)
      (by omega : 20 - L ≤ 19),
      sum_ones _ _ _ (fun i _ h2 => ones i (by omega))]
    congr 1
    omega
  · have hL0 : L = 0 := by omega
    subst hL0
    rw [if_neg c, Finset.Ico_eq_empty (by omega : ¬ 20 - 0 < 19), Finset.sum_empty,
      sum_ones _ _ _ (fun i _ h2 => ones i (by omega))]
    omega

theorem single_root_nodes_witness :
    ([(⟨0, 0, 0⟩ : point), ⟨5, 5, 5⟩] ≠ [] ∧
      ∀ p ∈ [(⟨0, 0, 0⟩ : point), ⟨5, 5, 5⟩], morton3d p.x p.y p.z < 2 ^ 60) ∧
    ∃ layers, count_layers (count_nodes [⟨0, 0, 0⟩, ⟨5, 5, 5⟩]).maxnode = some layers ∧
      (∀ i, i + layers ≤ 19 → (count_nodes [⟨0, 0, 0⟩, ⟨5, 5, 5⟩]).nodecount i = 1) := by
  obtain ⟨layers, h1, h2, _⟩ :=
    single_root_nodes [⟨0, 0, 0⟩, ⟨5, 5, 5⟩] 3 (by decide) (by decide)
  exact ⟨⟨by decide, by decide⟩, layers, h1, h2⟩

end hilbertsort

namespace quadtree

theorem N_eq : N = 1398100 := by decide
theorem M_eq : M = 349524 := by decide
theorem L_eq : L = 87380 := by decide
theorem SIZE_eq : SIZE = 1024 := by decide

theorem mask32_high (m k : Nat) (hm : m < 2 ^ 32) (hk : 32 ≤ k) : m.testBit k = false :=
  Nat.testBit_lt_two_pow (lt_of_lt_of_le hm (Nat.pow_le_pow_right (by norm_num) hk))

theorem maskB0_bit (k : Nat) :
    (0x00FF00FF : Nat).testBit k = decide (k % 16 < 8 ∧ k < 32) := by
  by_cases hk : k < 32
  · revert k; decide
  · have h1 : ¬ (k % 16 < 8 ∧ k < 32) := fun h => hk h.2
    rw [mask32_high _ k (by norm_num) (by omega)]; exact (decide_eq_false h1).symm

theorem maskB1_bit (k : Nat) :
    (0x0F0F0F0F : Nat).testBit k = decide (k % 8 < 4 ∧ k < 32) := by
  by_cases hk : k < 32
  · revert k; decide
  · have h1 : ¬ (k % 8 < 4 ∧ k < 32) := fun h => hk h.2
    rw [mask32_high _ k (by norm_num) (by omega)]; exact (decide_eq_false h1).symm

theorem maskB2_bit (k : Nat) :
    (0x33333333 : Nat).testBit k = decide (k % 4 < 2 ∧ k < 32) := by
  by_cases hk : k < 32
  · revert k; decide
  · have h1 : ¬ (k % 4 < 2 ∧ k < 32) := fun h => hk h.2
    rw [mask32_high _ k (by norm_num) (by omega)]; exact (decide_eq_false h1).symm

theorem maskB3_bit (k : Nat) :
    (0x55555555 : Nat).testBit k = decide (k % 2 < 1 ∧ k < 32) := by
  by_cases hk : k < 32
  · revert k; decide
  · have h1 : ¬ (k % 2 < 1 ∧ k < 32) := fun h => hk h.2
    rw [mask32_high _ k (by norm_num) (by omega)]; exact (decide_eq_false h1).symm

theorem maskFFFF_bit (k : Nat) :
    (0xffff : Nat).testBit k = decide (k % 32 < 16 ∧ k < 32) := by
  by_cases hk : k < 32
  · revert k; decide
  · have h1 : ¬ (k % 32 < 16 ∧ k < 32) := fun h => hk h.2
    rw [mask32_high _ k (by norm_num) (by omega)]; exact (decide_eq_false h1).symm

theorem testBit_shl32 (a s k : Nat) :
    (shl32 a s).testBit k = (decide (k < 32) && (decide (s ≤ k) && a.testBit (k - s))) := by
  unfold shl32
  rw [Nat.testBit_mod_two_pow, Nat.testBit_shiftLeft]

theorem testBit_set_pass (s m x k : Nat) (hm : m < 2 ^ 32) :
    ((x ||| shl32 x s) &&& m).testBit k =
      ((x.testBit k || (decide (s ≤ k) && x.testBit (k - s))) && m.testBit k) := by
  simp only [Nat.testBit_and, Nat.testBit_or, testBit_shl32]
  by_cases hk : k < 32
  · simp [hk]
  · simp only [mask32_high m k hm (by omega), Bool.and_false]

theorem set_spread_unfold (x : Nat) :
    set_spread x = set_pass 3 (set_pass 2 (set_pass 1 (set_pass 0 x))) := rfl

theorem set_pass0_bit (x k : Nat) :
    (set_pass 0 x).testBit k =
      (decide (k % 16 < 8 ∧ k < 32) && srcBit2 x (k / 16 * 8 + k % 16)) := by
  simp only [set_pass, S, B, List.getD_cons_zero]
  rw [testBit_set_pass _ _ _ _ (by norm_num), maskB0_bit]
  by_cases hk : k < 32
  · unfold srcBit2
    interval_cases k <;> simp [Bool.or_comm]
  · have h1 : ¬ (k % 16 < 8 ∧ k < 32) := fun h => hk h.2
    simp [h1]

theorem set_pass_step (g m a : Nat) (y : Nat → Bool) (hm : m < 2 ^ 32)
    (hg : g = 4 ∨ g = 2 ∨ g = 1)
    (hmask : ∀ k, m.testBit k = decide (k % (2 * g) < g ∧ k < 32))
    (ha : ∀ k, a.testBit k =
      (decide (k % (4 * g) < 2 * g ∧ k < 32) && y (k / (4 * g) * (2 * g) + k % (4 * g))))
    (k : Nat) :
    ((a ||| shl32 a g) &&& m).testBit k =
      (decide (k % (2 * g) < g ∧ k < 32) && y (k / (2 * g) * g + k % (2 * g))) := by
  rw [testBit_set_pass _ _ _ _ hm, hmask, ha, ha]
  by_cases hk : k < 32
  · rcases hg with rfl | rfl | rfl <;> interval_cases k <;> simp
  · have h1 : ¬ (k % (2 * g) < g ∧ k < 32) := fun h => hk h.2
    simp [h1]

theorem testBit_set_spread (x k : Nat) :
    (set_spread x).testBit k = (decide (k % 2 = 0 ∧ k < 32) && srcBit2 x (k / 2)) := by
  have h1 := set_pass_step 4 0x0F0F0F0F _ (srcBit2 x) (by norm_num) (by simp) maskB1_bit
    (set_pass0_bit x)
  have h2 := set_pass_step 2 0x33333333 _ (srcBit2 x) (by norm_num) (by simp) maskB2_bit h1
  have h3 := set_pass_step 1 0x55555555 _ (srcBit2 x) (by norm_num) (by simp) maskB3_bit h2
  have h4 := h3 k
  rw [set_spread_unfold]
  simp only [set_pass, S, B, List.getD_cons_zero, List.getD_cons_succ] at h4 ⊢
  rw [h4]
  by_cases hk : k % 2 = 0
  · have e : k / 2 * 1 + k % 2 = k / 2 := by omega
    simp [hk, e]
  · have : ¬ k % 2 < 1 := by omega
    simp [hk, this]

theorem compact_step (g m b : Nat) (f : Nat → Bool)
    (hg : g = 1 ∨ g = 2 ∨ g = 4 ∨ g = 8)
    (hmask : ∀ k, m.testBit k = decide (k % (4 * g) < 2 * g ∧ k < 32))
    (hb : ∀ k, b.testBit k =
      (decide (k % (2 * g) < g ∧ k < 32) && f (2 * g * (k / (2 * g)) + 2 * (k % (2 * g)))))
    (k : Nat) :
    ((b ||| (b >>> g)) &&& m).testBit k =
      (decide (k % (4 * g) < 2 * g ∧ k < 32) &&
        f (4 * g * (k / (4 * g)) + 2 * (k % (4 * g)))) := by
  rw [Nat.testBit_and, Nat.testBit_or, Nat.testBit_shiftRight, hmask, hb, hb]
  by_cases hk : k < 32
  · rcases hg with rfl | rfl | rfl | rfl <;> interval_cases k <;> simp
  · have h1 : ¬ (k % (4 * g) < 2 * g ∧ k < 32) := fun h => hk h.2
    simp [h1]

theorem set_face_compact_unfold (v : Nat) :
    set_face_compact v =
      set_face_pass 0 (set_face_pass 1 (set_face_pass 2 (set_face_pass 3 v))) := rfl

theorem testBit_set_face_compact (v k : Nat) :
    (set_face_compact v &&& 0xffff).testBit k = (decide (k < 16) && v.testBit (2 * k)) := by
  have h0 : ∀ k, (v &&& 0x55555555).testBit k =
      (decide (k % (2 * 1) < 1 ∧ k < 32) && v.testBit (2 * 1 * (k / (2 * 1)) + 2 * (k % (2 * 1)))) := by
    intro k
    rw [Nat.testBit_and, maskB3_bit]
    by_cases h : k % 2 < 1
    · have e : 2 * 1 * (k / (2 * 1)) + 2 * (k % (2 * 1)) = k := by omega
      rw [e, Bool.and_comm]
    · simp [h]
  have h1 := compact_step 1 0x33333333 _ v.testBit (by simp) maskB2_bit h0
  have h2 := compact_step 2 0x0F0F0F0F _ v.testBit (by simp) maskB1_bit h1
  have h3 := compact_step 4 0x00FF00FF _ v.testBit (by simp) maskB0_bit h2
  have h4 := compact_step 8 0xffff _ v.testBit (by simp) maskFFFF_bit h3 k
  rw [set_face_compact_unfold]
  simp only [set_face_pass, S, B, List.getD_cons_zero, List.getD_cons_succ] at h4 ⊢
  rw [h4]
  by_cases hk : k < 16
  · have e1 : k % 32 < 16 ∧ k < 32 := by omega
    have e2 : 4 * 8 * (k / (4 * 8)) + 2 * (k % (4 * 8)) = 2 * k := by omega
    simp [hk, e1, e2]
  · have e1 : ¬ (k % 32 < 16 ∧ k < 32) := by omega
    simp [hk, e1]

theorem srcBit2_of_lt (x i : Nat) (hx : x < 2 ^ 10) : srcBit2 x i = x.testBit i := by
  unfold srcBit2
  by_cases hi : 8 ≤ i
  · rw [testBit_false_of_lt x (i + 8) 10 hx (by omega)]; simp
  · simp [hi]

theorem testBit_morton2d (x y k : Nat) (hx : x < 2 ^ 10) (hy : y < 2 ^ 10) :
    (morton2d x y).testBit k = (if k % 2 = 0 then x.testBit (k / 2) else y.testBit (k / 2)) := by
  unfold morton2d
  simp only [Nat.testBit_or, testBit_shl32, testBit_set_spread, srcBit2_of_lt x _ hx,
    srcBit2_of_lt y _ hy]
  by_cases hk : k < 32
  · by_cases h : k % 2 = 0
    · rcases Nat.eq_zero_or_pos k with h0 | h0
      · subst h0; simp
      · have e1 : ¬ (k - 1) % 2 = 0 := by omega
        simp [hk, h, e1]
    · have e0 : 1 ≤ k := by omega
      have e1 : (k - 1) % 2 = 0 := by omega
      have e2 : (k - 1) / 2 = k / 2 := by omega
      have e3 : k - 1 < 32 := by omega
      simp [hk, h, e0, e1, e2, e3]
  · rw [testBit_false_of_lt x (k / 2) 10 hx (by omega),
      testBit_false_of_lt y (k / 2) 10 hy (by omega)]
    simp [hk]

theorem morton2d_lt (x y : Nat) (hx : x < 2 ^ 10) (hy : y < 2 ^ 10) :
    morton2d x y < 2 ^ 20 := by
  apply Nat.lt_pow_two_of_testBit
  intro i hi
  rw [testBit_morton2d x y i hx hy, testBit_false_of_lt x (i / 2) 10 hx (by omega),
    testBit_false_of_lt y (i / 2) 10 hy (by omega)]
  simp

theorem set_index_eq (x y : Nat) (hx : x < 2 ^ 10) (hy : y < 2 ^ 10) :
    set_index x y = M + morton2d x y := by
  have h := morton2d_lt x y hx hy
  have hM := M_eq
  show (M + morton2d x y) % 2 ^ 32 = _
  rw [Nat.mod_eq_of_lt (by omega)]

theorem compact_morton2d (x y : Nat) (hx : x < 2 ^ 10) (hy : y < 2 ^ 10) :
    set_face_compact (morton2d x y) &&& 0xffff = x ∧
    set_face_compact (morton2d x y >>> 1) &&& 0xffff = y := by
  constructor <;> apply Nat.eq_of_testBit_eq <;> intro k <;>
    rw [testBit_set_face_compact]
  · rw [testBit_morton2d x y _ hx hy]
    have h : (2 * k) % 2 = 0 := by omega
    have e : 2 * k / 2 = k := by omega
    by_cases hk : k < 16
    · simp [hk, h, e]
    · simp [hk, testBit_false_of_lt x k 10 hx (by omega)]
  · rw [Nat.testBit_shiftRight, testBit_morton2d x y _ hx hy]
    have h : ¬ (1 + 2 * k) % 2 = 0 := by omega
    have e : (1 + 2 * k) / 2 = k := by omega
    by_cases hk : k < 16
    · simp [hk, h, e]
    · simp [hk, testBit_false_of_lt y k 10 hy (by omega)]

theorem morton2d_inj (x y x2 y2 : Nat) (hx : x < 2 ^ 10) (hy : y < 2 ^ 10)
    (hx2 : x2 < 2 ^ 10) (hy2 : y2 < 2 ^ 10) (h : morton2d x2 y2 = morton2d x y) :
    x2 = x ∧ y2 = y := by
  obtain ⟨a1, a2⟩ := compact_morton2d x y hx hy
  obtain ⟨b1, b2⟩ := compact_morton2d x2 y2 hx2 hy2
  rw [h] at b1 b2
  exact ⟨b1.symm.trans a1, b2.symm.trans a2⟩

theorem set_face_leaf (q : quadtree) (x y color : Nat) (hx : x < 2 ^ 10) (hy : y < 2 ^ 10) :
    set_face q (set_index x y) color =
      some { map := Function.update q.map (set_index x y) 0,
             face := Function.update q.face (y * SIZE + x) color } := by
  have hm := morton2d_lt x y hx hy
  have hM := M_eq
  have hN := N_eq
  have hS := SIZE_eq
  obtain ⟨cx, cy⟩ := compact_morton2d x y hx hy
  have hv : (set_index x y + 2 ^ 32 - M) % 2 ^ 32 = morton2d x y := by
    rw [set_index_eq x y hx hy]
    have : M + morton2d x y + 2 ^ 32 - M = morton2d x y + 2 ^ 32 := by omega
    rw [this, Nat.add_mod_right, Nat.mod_eq_of_lt (by omega)]
  have hlt : set_index x y < N := by rw [set_index_eq x y hx hy]; omega
  have hp : y * SIZE + x < SIZE * SIZE := by
    rw [hS]; omega
  unfold set_face store
  simp only [hlt, if_true, Option.some_bind, hv, cx, cy, pixel, hp]

/-- C8: for every quadtree state and every interior index `i < M`, the read
`children[i+1]` of `compute(i)` is inside the array, `compute(i)` sets `map[i]` to 0 when
the four child bytes `map[4i+4], ..., map[4i+7]` are all zero and otherwise leaves it as
it was, and no other byte of the map (and no pixel) changes. -/
theorem compute_spec (q : quadtree) (i : Nat) (hi : i < M) :
    i + 1 < N / 4 ∧
    ∃ q', compute q i = some q' ∧ q'.face = q.face ∧
      q'.map i =
        (if q.map (4 * i + 4) = 0 ∧ q.map (4 * i + 5) = 0 ∧ q.map (4 * i + 6) = 0 ∧
            q.map (4 * i + 7) = 0 then 0 else q.map i) ∧
      ∀ j, j ≠ i → q'.map j = q.map j := by
  have hM := M_eq
  have hN := N_eq
  have h1 : (i + 1) % 2 ^ 32 = i + 1 := Nat.mod_eq_of_lt (by omega)
  have h2 : i + 1 < N / 4 := by omega
  have h3 : i < N := by omega
  refine ⟨h2, ?_⟩
  unfold compute children store
  have e4 : 4 * (i + 1) = 4 * i + 4 := by ring
  have e5 : 4 * i + 4 + 1 = 4 * i + 5 := by ring
  have e6 : 4 * i + 4 + 2 = 4 * i + 6 := by ring
  have e7 : 4 * i + 4 + 3 = 4 * i + 7 := by ring
  rw [h1, if_pos h2, e4, e5, e6, e7, Option.some_bind, if_pos h3]
  by_cases hz : q.map (4 * i + 4) = 0 ∧ q.map (4 * i + 5) = 0 ∧ q.map (4 * i + 6) = 0 ∧
      q.map (4 * i + 7) = 0
  · obtain ⟨z4, z5, z6, z7⟩ := hz
    simp only [z4, z5, z6, z7, Nat.mul_zero, Nat.add_zero, if_true, and_self]
    exact ⟨_, rfl, rfl, by simp, fun j hj => by simp [Function.update, hj]⟩
  · have hsum : ¬ (q.map (4 * i + 4) + 2 ^ 8 * q.map (4 * i + 5) + 2 ^ 16 * q.map (4 * i + 6) +
        2 ^ 24 * q.map (4 * i + 7) = 0) := by
      intro h0
      apply hz
      omega
    simp only [hsum, hz, if_false]
    exact ⟨_, rfl, rfl, rfl, fun j _ => rfl⟩

theorem compute_spec_witness :
    5 < M ∧ 5 + 1 < N / 4 ∧
    ∃ q', compute ⟨fun _ => 1, fun _ => 0⟩ 5 = some q' ∧ q'.map 5 = 1 :=
  ⟨by decide, (compute_spec ⟨fun _ => 1, fun _ => 0⟩ 5 (by decide)).1,
   by
    obtain ⟨q', h1, _, h3, _⟩ := (compute_spec ⟨fun _ => 1, fun _ => 0⟩ 5 (by decide)).2
    exact ⟨q', h1, by simpa using h3⟩⟩

/-- C9: pixel/leaf round trip.  For `x, y < SIZE`, `set(x, y)` writes 1 to exactly the one
byte `map[v]`, `v = set_index x y`, where `M ≤ v < N`, bit `2k` of `v - M` is bit `k` of `x`
and bit `2k+1` is bit `k` of `y`; `set_face(v, color)` clears `map[v]` and writes `color`
to the pixel `(x, y)` and nothing else; distinct pixels have distinct leaf indices. -/
theorem set_set_face_roundtrip (q : quadtree) (x y color : Nat) (hx : x < SIZE)
    (hy : y < SIZE) :
    M ≤ set_index x y ∧ set_index x y < N ∧
    (∀ k, (set_index x y - M).testBit (2 * k) = x.testBit k ∧
          (set_index x y - M).testBit (2 * k + 1) = y.testBit k) ∧
    quadtree.set q x y = some { q with map := Function.update q.map (set_index x y) 1 } ∧
    set_face q (set_index x y) color =
      some { map := Function.update q.map (set_index x y) 0,
             face := Function.update q.face (y * SIZE + x) color } ∧
    (∀ x2 y2, x2 < SIZE → y2 < SIZE → set_index x2 y2 = set_index x y → x2 = x ∧ y2 = y) := by
  have hS := SIZE_eq
  have hx' : x < 2 ^ 10 := by omega
  have hy' : y < 2 ^ 10 := by omega
  have hm := morton2d_lt x y hx' hy'
  have hM := M_eq
  have hN := N_eq
  have he := set_index_eq x y hx' hy'
  have hlt : set_index x y < N := by omega
  refine ⟨by omega, hlt, fun k => ?_, ?_, set_face_leaf q x y color hx' hy', ?_⟩
  · have e : set_index x y - M = morton2d x y := by omega
    rw [e, testBit_morton2d x y _ hx' hy', testBit_morton2d x y _ hx' hy']
    have h1 : (2 * k) % 2 = 0 := by omega
    have h2 : 2 * k / 2 = k := by omega
    have h3 : ¬ (2 * k + 1) % 2 = 0 := by omega
    have h4 : (2 * k + 1) / 2 = k := by omega
    simp [h1, h2, h3, h4]
  · unfold quadtree.set store
    simp only [hlt, if_true]
  · intro x2 y2 hx2 hy2 h
    have hx2' : x2 < 2 ^ 10 := by omega
    have hy2' : y2 < 2 ^ 10 := by omega
    rw [he, set_index_eq x2 y2 hx2' hy2'] at h
    exact morton2d_inj x y x2 y2 hx' hy' hx2' hy2' (by omega)

theorem set_set_face_roundtrip_witness :
    (3 < SIZE ∧ 5 < SIZE) ∧
    M ≤ set_index 3 5 ∧ set_index 3 5 < N ∧
    set_face ⟨fun _ => 1, fun _ => 0⟩ (set_index 3 5) 9 =
      some { map := Function.update (fun _ => 1) (set_index 3 5) 0,
             face := Function.update (fun _ => 0) (5 * SIZE + 3) 9 } :=
  ⟨by decide,
   (set_set_face_roundtrip ⟨fun _ => 1, fun _ => 0⟩ 3 5 9 (by decide) (by decide)).1,
   (set_set_face_roundtrip ⟨fun _ => 1, fun _ => 0⟩ 3 5 9 (by decide) (by decide)).2.1,
   (set_set_face_roundtrip ⟨fun _ => 1, fun _ => 0⟩ 3 5 9 (by decide) (by decide)).2.2.2.2.1⟩

theorem desc_child (k i c : Nat) : desc k (4 * i + 4 + c) = desc (k + 1) i + c * 4 ^ k := by
  induction k with
  | zero => simp [desc]
  | succ k ih =>
    simp only [desc, ih, pow_succ]
    ring

theorem desc_succ_shift (k i : Nat) : desc k (4 * i + 4) = desc (k + 1) i := by
  have := desc_child k i 0
  simpa using this

theorem store_eq (q : quadtree) (i v : Nat) (hi : i < N) :
    store q i v = some { q with map := Function.update q.map i v } := by
  unfold store; rw [if_pos hi]

theorem build_fill_row_spec (q : quadtree) (i n : Nat) (h : i + n ≤ N) :
    ∃ q', build_fill_row q i n = some q' ∧ q'.face = q.face ∧
      ∀ j, q'.map j = if i ≤ j ∧ j < i + n then 1 else q.map j := by
  induction n with
  | zero =>
    refine ⟨q, rfl, rfl, fun j => ?_⟩
    rw [if_neg (by omega)]
  | succ n ih =>
    obtain ⟨q1, h1, hf, hm⟩ := ih (by omega)
    refine ⟨{ q1 with map := Function.update q1.map (i + n) 1 }, ?_, hf, fun j => ?_⟩
    · simp only [build_fill_row, h1, Option.some_bind]
      exact store_eq q1 (i + n) 1 (by omega)
    · by_cases hj : j = i + n
      · subst hj; simp
      · simp only [Function.update, hj, dite_false, hm]
        by_cases c : i ≤ j ∧ j < i + n
        · have : i ≤ j ∧ j < i + (n + 1) := by omega
          simp [c, this]
        · have : ¬ (i ≤ j ∧ j < i + (n + 1)) := by omega
          simp [c, this]

theorem shl32_two (a : Nat) (h : a * 4 < 2 ^ 32) : shl32 a 2 = a * 4 := by
  unfold shl32
  rw [Nat.shiftLeft_eq, Nat.mod_eq_of_lt (by simpa using h)]

/-- `build_fill_loop` sets to 1 the rows of `t` consecutive levels below node `i`. -/
theorem build_fill_loop_spec (t : Nat) : ∀ (q : quadtree) (i n : Nat), 0 < n →
    4 ^ t * n ≤ 2 ^ 30 →
    (∀ s, s < t → desc s i + 4 ^ s * n ≤ N) → N ≤ desc t i →
    ∃ q', build_fill_loop q i n = some q' ∧ q'.face = q.face ∧
      ∀ j, q'.map j =
        if ∃ s, s < t ∧ desc s i ≤ j ∧ j < desc s i + 4 ^ s * n then 1 else q.map j := by
  induction t with
  | zero =>
    intro q i n _ _ _ hN
    refine ⟨q, ?_, rfl, fun j => by simp⟩
    rw [build_fill_loop, if_neg (by simpa [desc] using hN)]
  | succ t ih =>
    intro q i n hn hnN hrows hN
    have hNe := N_eq
    have h0 := hrows 0 (by omega)
    simp only [desc, pow_zero, one_mul] at h0
    obtain ⟨q1, hq1, hf1, hm1⟩ := build_fill_row_spec q i n h0
    have hpos : 1 ≤ 4 ^ t := Nat.one_le_pow _ _ (by norm_num)
    have hn4 : 4 * n ≤ 2 ^ 30 := by
      rw [pow_succ, Nat.mul_assoc] at hnN
      exact le_trans (Nat.le_mul_of_pos_left _ (by omega)) hnN
    have es : shl32 (i + 1) 2 = 4 * i + 4 := by rw [shl32_two _ (by omega)]; ring
    have en : shl32 n 2 = 4 * n := by rw [shl32_two _ (by omega)]; ring
    obtain ⟨q2, hq2, hf2, hm2⟩ := ih q1 (4 * i + 4) (4 * n) (by omega)
      (by rw [pow_succ, Nat.mul_assoc] at hnN; exact hnN)
      (fun s hs => by
        have := hrows (s + 1) (by omega)
        rw [desc_succ_shift, ← Nat.mul_assoc, ← pow_succ]
        exact this)
      (by rw [desc_succ_shift]; exact hN)
    refine ⟨q2, ?_, hf2.trans hf1, fun j => ?_⟩
    · rw [build_fill_loop, if_pos (by omega), hq1, Option.some_bind, es, en, hq2]
    · rw [hm2 j, hm1 j]
      by_cases c2 : ∃ s, s < t ∧ desc s (4 * i + 4) ≤ j ∧ j < desc s (4 * i + 4) + 4 ^ s * (4 * n)
      · obtain ⟨s, hs, hh⟩ := c2
        have : ∃ s, s < t + 1 ∧ desc s i ≤ j ∧ j < desc s i + 4 ^ s * n :=
          ⟨s + 1, by omega, by
            rw [desc_succ_shift, ← Nat.mul_assoc, ← pow_succ] at hh
            exact hh⟩
        rw [if_pos ⟨s, hs, hh⟩, if_pos this]
      · rw [if_neg c2]
        by_cases c : i ≤ j ∧ j < i + n
        · have : ∃ s, s < t + 1 ∧ desc s i ≤ j ∧ j < desc s i + 4 ^ s * n :=
            ⟨0, by omega, by simpa [desc] using c⟩
          rw [if_pos c, if_pos this]
        · have : ¬ ∃ s, s < t + 1 ∧ desc s i ≤ j ∧ j < desc s i + 4 ^ s * n := by
            rintro ⟨s, hs, hh⟩
            rcases s with _ | s
            · exact c (by simpa [desc] using hh)
            · apply c2
              refine ⟨s, by omega, ?_⟩
              rw [desc_succ_shift, ← Nat.mul_assoc, ← pow_succ]
              exact hh
          rw [if_neg c, if_neg this]

theorem N_eq_M : N = 4 * M + 4 := by decide

theorem desc_row_end (k i : Nat) (h : desc k i + 4 ^ k ≤ N) :
    ∀ s, s < k → desc s i + 4 ^ s ≤ M := by
  induction k with
  | zero => intro s hs; omega
  | succ k ih =>
    have hNM := N_eq_M
    have hk : desc k i + 4 ^ k ≤ M := by
      simp only [desc, pow_succ] at h
      omega
    intro s hs
    rcases Nat.lt_or_ge s k with h1 | h1
    · exact ih (by omega) s h1
    · obtain rfl : s = k := by omega
      exact hk

theorem build_fill_leaves (q : quadtree) (i k : Nat) (hM : M ≤ desc k i)
    (hN : desc k i + 4 ^ k ≤ N) :
    ∃ q', build_fill q i = some q' ∧ q'.face = q.face ∧
      ∀ j, M ≤ j → q'.map j = if desc k i ≤ j ∧ j < desc k i + 4 ^ k then 1 else q.map j := by
  have hNM := N_eq_M
  have hNe := N_eq
  have hrow := desc_row_end k i hN
  have hpos : 1 ≤ 4 ^ k := Nat.one_le_pow _ _ (by norm_num)
  obtain ⟨q', h1, h2, h3⟩ := build_fill_loop_spec (k + 1) q i 1 (by norm_num)
    (by rw [pow_succ]; omega)
    (fun s hs => by
      rcases Nat.lt_or_ge s k with c | c
      · have := hrow s c; omega
      · obtain rfl : s = k := by omega
        simpa using hN)
    (by simp only [desc]; omega)
  refine ⟨q', h1, h2, fun j hj => ?_⟩
  rw [h3 j]
  by_cases c : desc k i ≤ j ∧ j < desc k i + 4 ^ k
  · rw [if_pos c, if_pos ⟨k, by omega, by simpa using c⟩]
  · rw [if_neg c, if_neg]
    rintro ⟨s, hs, hh⟩
    rcases Nat.lt_or_ge s k with c1 | c1
    · have := hrow s c1
      simp only [mul_one] at hh
      omega
    · obtain rfl : s = k := by omega
      exact c (by simpa using hh)

theorem coord2_lt (a n v : Nat) : coord2 a n v < 2 ^ n := by
  induction n with
  | zero => simp [coord2]
  | succ n ih => simp only [coord2, pow_succ]; split_ifs <;> omega

theorem coord2_low (a k c r : Nat) (ha : a < 2) (hr : r < 4 ^ k) :
    ∀ n, n ≤ k → coord2 a n (c * 4 ^ k + r) = coord2 a n r := by
  have e4 : (4 : Nat) ^ k = 2 ^ (2 * k) := by rw [pow_mul]; norm_num
  intro n
  induction n with
  | zero => intro _; rfl
  | succ n ih =>
    intro hn
    simp only [coord2]
    rw [ih (by omega)]
    have : (c * 4 ^ k + r).testBit (2 * n + a) = r.testBit (2 * n + a) := by
      rw [e4, Nat.mul_comm c, Nat.testBit_mul_pow_two_add c (by rw [← e4]; exact hr),
        if_pos (by omega)]
    rw [this]

theorem coord2_child (a k c r : Nat) (ha : a < 2) (hr : r < 4 ^ k) :
    coord2 a (k + 1) (c * 4 ^ k + r) = (if c.testBit a then 2 ^ k else 0) + coord2 a k r := by
  have e4 : (4 : Nat) ^ k = 2 ^ (2 * k) := by rw [pow_mul]; norm_num
  simp only [coord2]
  rw [coord2_low a k c r ha hr k le_rfl]
  have : (c * 4 ^ k + r).testBit (2 * k + a) = c.testBit a := by
    rw [e4, Nat.mul_comm c, Nat.testBit_mul_pow_two_add c (by rw [← e4]; exact hr),
      if_neg (by omega)]
    congr 1
    omega
  rw [this]

theorem coord2_testBit (a n v i : Nat) :
    (coord2 a n v).testBit i = (decide (i < n) && v.testBit (2 * i + a)) := by
  induction n with
  | zero => simp [coord2]
  | succ n ih =>
    simp only [coord2]
    have hlt := coord2_lt a n v
    by_cases hb : v.testBit (2 * n + a)
    · simp only [hb, if_true]
      rcases Nat.lt_trichotomy i n with h | h | h
      · rw [Nat.testBit_two_pow_add_gt h, ih]
        have : i < n + 1 := by omega
        simp [h, this]
      · subst h
        rw [Nat.testBit_two_pow_add_eq, ih]
        simp [hb]
      · rw [testBit_false_of_lt _ i (n + 1) (by rw [pow_succ]; omega) (by omega)]
        have : ¬ i < n + 1 := by omega
        simp [this]
    · simp only [hb, Bool.false_eq_true, if_false, Nat.zero_add]
      rw [ih]
      by_cases h : i < n
      · have : i < n + 1 := by omega
        simp [h, this]
      · by_cases h2 : i = n
        · subst h2; simp [hb]
        · have : ¬ i < n + 1 := by omega
          simp [h, this]

theorem coord2_morton2d (x y : Nat) (hx : x < 2 ^ 10) (hy : y < 2 ^ 10) :
    coord2 0 10 (morton2d x y) = x ∧ coord2 1 10 (morton2d x y) = y := by
  constructor <;> apply Nat.eq_of_testBit_eq <;> intro i <;>
    rw [coord2_testBit, testBit_morton2d x y _ hx hy]
  · by_cases hi : i < 10
    · have : (2 * i + 0) % 2 = 0 := by omega
      have e : (2 * i + 0) / 2 = i := by omega
      simp [hi, this, e]
    · simp [hi, testBit_false_of_lt x i 10 hx (by omega)]
  · by_cases hi : i < 10
    · have : ¬ (2 * i + 1) % 2 = 0 := by omega
      have e : (2 * i + 1) / 2 = i := by omega
      simp [hi, this, e]
    · simp [hi, testBit_false_of_lt y i 10 hy (by omega)]

theorem two_pow_even (k : Nat) (hk : 1 ≤ k) : ∃ a, 2 ^ k = 2 * a := by
  obtain ⟨m, rfl⟩ : ∃ m, k = m + 1 := ⟨k - 1, by omega⟩
  exact ⟨2 ^ m, by rw [pow_succ]; ring⟩

theorem leafRule_child (D k c : Nat) (w h : Int) (j : Nat) (hk : 1 ≤ k) (hc : c < 4)
    (h1 : D + c * 4 ^ k ≤ j) (h2 : j < D + c * 4 ^ k + 4 ^ k) :
    LeafRule (D + c * 4 ^ k) k (w - ((c % 2 * 2 ^ k : Nat) : Int))
        (h - ((c / 2 * 2 ^ k : Nat) : Int)) j ↔
      LeafRule D (k + 1) w h j := by
  obtain ⟨a, ha⟩ := two_pow_even k hk
  have e : j - D = c * 4 ^ k + (j - (D + c * 4 ^ k)) := by omega
  have hr : j - (D + c * 4 ^ k) < 4 ^ k := by omega
  unfold LeafRule
  rw [e, coord2_child 0 k c _ (by norm_num) hr, coord2_child 1 k c _ (by norm_num) hr]
  have hQ : (4 : Nat) ^ (k + 1) = 4 * 4 ^ k := by rw [pow_succ]; ring
  rw [hQ]
  generalize coord2 0 k (j - (D + c * 4 ^ k)) = tx
  generalize coord2 1 k (j - (D + c * 4 ^ k)) = ty
  generalize (4 : Nat) ^ k = Q at *
  rw [ha]
  have hb : ∀ c < 4, (c.testBit 0 = decide (c % 2 = 1)) ∧ (c.testBit 1 = decide (c / 2 = 1)) := by
    decide
  rw [(hb c hc).1, (hb c hc).2]
  interval_cases c <;> simp <;> omega

theorem leafRule_outside (D k : Nat) (w h : Int) (j : Nat)
    (hj : j < D ∨ D + 4 ^ k ≤ j) : ¬ LeafRule D k w h j := by
  unfold LeafRule
  omega

theorem four_calls (k : Nat) (hk : 1 ≤ k) (ih : BuildCheckSpec k) (q : quadtree) (w h : Int)
    (D i0 i1 i2 i3 : Nat) (h0 : desc k i0 = D) (h1 : desc k i1 = D + 4 ^ k)
    (h2 : desc k i2 = D + 2 * 4 ^ k) (h3 : desc k i3 = D + 3 * 4 ^ k)
    (hM : M ≤ D) (hN : D + 4 ^ (k + 1) ≤ N) (hw : w < 2 ^ 31) (hh : h < 2 ^ 31) :
    ∃ q',
      ((build_check q w h i0 ((2 : Int) ^ k)).bind fun q1 =>
       (build_check q1 (w - (2 : Int) ^ k) h i1 ((2 : Int) ^ k)).bind fun q2 =>
       (build_check q2 w (h - (2 : Int) ^ k) i2 ((2 : Int) ^ k)).bind fun q3 =>
       build_check q3 (w - (2 : Int) ^ k) (h - (2 : Int) ^ k) i3 ((2 : Int) ^ k)) = some q' ∧
      q'.face = q.face ∧
      ∀ j, M ≤ j → q'.map j = if LeafRule D (k + 1) w h j then 1 else q.map j := by
  have hQ : (4 : Nat) ^ (k + 1) = 4 * 4 ^ k := by rw [pow_succ]; ring
  have hP : (0 : Int) < (2 : Int) ^ k := by positivity
  obtain ⟨q1, e1, f1, m1⟩ := ih q w h i0 (by omega) (by omega) hw hh
  obtain ⟨q2, e2, f2, m2⟩ := ih q1 (w - (2 : Int) ^ k) h i1 (by omega) (by omega) (by omega) hh
  obtain ⟨q3, e3, f3, m3⟩ := ih q2 w (h - (2 : Int) ^ k) i2 (by omega) (by omega) hw (by omega)
  obtain ⟨q4, e4, f4, m4⟩ := ih q3 (w - (2 : Int) ^ k) (h - (2 : Int) ^ k) i3 (by omega)
    (by omega) (by omega) (by omega)
  refine ⟨q4, ?_, ?_, fun j hj => ?_⟩
  · rw [e1, Option.some_bind, e2, Option.some_bind, e3, Option.some_bind, e4]
  · rw [f4, f3, f2, f1]
  · rw [m4 j hj, m3 j hj, m2 j hj, m1 j hj, h0, h1, h2, h3]
    have c0 := leafRule_child D k 0 w h j hk (by norm_num)
    have c1 := leafRule_child D k 1 w h j hk (by norm_num)
    have c2 := leafRule_child D k 2 w h j hk (by norm_num)
    have c3 := leafRule_child D k 3 w h j hk (by norm_num)
    simp only [Nat.zero_mul, Nat.add_zero, Nat.zero_mod, Nat.zero_div, Nat.cast_zero, sub_zero,
      Nat.reduceMod, Nat.reduceDiv, Nat.one_mul, Nat.cast_pow, Nat.cast_ofNat] at c0 c1 c2 c3
    have o0 := leafRule_outside D k w h j
    have o1 := leafRule_outside (D + 4 ^ k) k (w - (2 : Int) ^ k) h j
    have o2 := leafRule_outside (D + 2 * 4 ^ k) k w (h - (2 : Int) ^ k) j
    have o3 := leafRule_outside (D + 3 * 4 ^ k) k (w - (2 : Int) ^ k) (h - (2 : Int) ^ k) j
    have oo := leafRule_outside D (k + 1) w h j
    rw [hQ] at oo
    rcases Nat.lt_or_ge j D with a | a
    · rw [if_neg (o3 (by omega)), if_neg (o2 (by omega)), if_neg (o1 (by omega)),
        if_neg (o0 (by omega)), if_neg (oo (by omega))]
    rcases Nat.lt_or_ge j (D + 4 ^ k) with a0 | a0
    · rw [if_neg (o3 (by omega)), if_neg (o2 (by omega)), if_neg (o1 (by omega))]
      have := c0 (by omega) (by omega)
      by_cases r : LeafRule D (k + 1) w h j
      · rw [if_pos r, if_pos (this.2 r)]
      · rw [if_neg r, if_neg (fun x => r (this.1 x))]
    rcases Nat.lt_or_ge j (D + 4 ^ k + 4 ^ k) with a1 | a1
    · rw [if_neg (o3 (by omega)), if_neg (o2 (by omega))]
      have := c1 (by omega) (by omega)
      by_cases r : LeafRule D (k + 1) w h j
      · rw [if_pos r, if_pos (this.2 r)]
      · rw [if_neg r, if_neg (fun x => r (this.1 x)), if_neg (o0 (by omega))]
    rcases Nat.lt_or_ge j (D + 2 * 4 ^ k + 4 ^ k) with a2 | a2
    · rw [if_neg (o3 (by omega))]
      have := c2 (by omega) (by omega)
      by_cases r : LeafRule D (k + 1) w h j
      · rw [if_pos r, if_pos (this.2 r)]
      · rw [if_neg r, if_neg (fun x => r (this.1 x)), if_neg (o1 (by omega)),
          if_neg (o0 (by omega))]
    rcases Nat.lt_or_ge j (D + 3 * 4 ^ k + 4 ^ k) with a3 | a3
    · have := c3 (by omega) (by omega)
      by_cases r : LeafRule D (k + 1) w h j
      · rw [if_pos r, if_pos (this.2 r)]
      · rw [if_neg r, if_neg (fun x => r (this.1 x)), if_neg (o2 (by omega)),
          if_neg (o1 (by omega)), if_neg (o0 (by omega))]
    · rw [if_neg (o3 (by omega)), if_neg (o2 (by omega)), if_neg (o1 (by omega)),
        if_neg (o0 (by omega)), if_neg (oo (by omega))]

theorem desc_mono (k i : Nat) : desc k i ≤ desc (k + 1) i := by
  simp only [desc]; omega

theorem desc_two_le (k i : Nat) (hk : 2 ≤ k) : desc 2 i ≤ desc k i := by
  induction k with
  | zero => omega
  | succ k ih =>
    rcases Nat.lt_or_ge k 2 with h | h
    · obtain rfl : k = 1 := by omega
      exact le_rfl
    · exact le_trans (ih h) (desc_mono k i)

theorem store_leaves (q : quadtree) (i v : Nat) (hi : i < M) :
    ∃ q', store q i v = some q' ∧ q'.face = q.face ∧ ∀ j, M ≤ j → q'.map j = q.map j := by
  have hNM := N_eq_M
  refine ⟨_, store_eq q i v (by omega), rfl, fun j hj => ?_⟩
  have : j ≠ i := by omega
  simp [Function.update, this]

theorem sub32_eq (a b : Int) (h1 : -2 ^ 31 ≤ a - b) (h2 : a - b < 2 ^ 31) :
    sub32 a b = some (a - b) := by
  unfold sub32; rw [if_pos ⟨h1, h2⟩]

theorem tdiv_two_pow (k : Nat) : Int.tdiv ((2 : Int) ^ (k + 1)) 2 = 2 ^ k := by
  rw [pow_succ, Int.mul_tdiv_cancel _ (by norm_num)]

/-- The cases of `build_check` in which the node is wholly outside or is filled. -/
theorem build_check_leaf_cases (k : Nat) (q : quadtree) (w h : Int) (i : Nat)
    (hM : M ≤ desc k i) (hN : desc k i + 4 ^ k ≤ N) (hk : 1 ≤ k)
    (hcase : (w ≤ 0 ∨ h ≤ 0) ∨ ¬ (i < L ∧ (w < (2 : Int) ^ k ∨ h < (2 : Int) ^ k))) :
    ∃ q', build_check q w h i ((2 : Int) ^ k) = some q' ∧ q'.face = q.face ∧
      ∀ j, M ≤ j → q'.map j = if LeafRule (desc k i) k w h j then 1 else q.map j := by
  have hNM := N_eq_M
  have hLe := L_eq
  have hNe := N_eq
  have hi : i < M := by
    have h1 := desc_row_end k i hN 0 (by omega)
    simp only [desc, pow_zero] at h1
    omega
  by_cases hout : w ≤ 0 ∨ h ≤ 0
  · obtain ⟨q', e, f, m⟩ := store_leaves q i 0 hi
    refine ⟨q', ?_, f, fun j hj => ?_⟩
    · rw [build_check, if_pos hout, e]
    · rw [m j hj, if_neg]
      unfold LeafRule
      omega
  · have hfill : ¬ (i < L ∧ (w < (2 : Int) ^ k ∨ h < (2 : Int) ^ k)) := by
      rcases hcase with c | c
      · exact absurd c hout
      · exact c
    obtain ⟨q', e, f, m⟩ := build_fill_leaves q i k hM hN
    refine ⟨q', ?_, f, fun j hj => ?_⟩
    · rw [build_check, if_neg hout, if_neg hfill, e]
    · rw [m j hj]
      by_cases c : desc k i ≤ j ∧ j < desc k i + 4 ^ k
      · rw [if_pos c, if_pos]
        have cx := coord2_lt 0 k (j - desc k i)
        have cy := coord2_lt 1 k (j - desc k i)
        refine ⟨c.1, c.2, ?_, ?_⟩
        · by_cases hl : i < L
          · have hw : ¬ w < (2 : Int) ^ k := fun x => hfill ⟨hl, Or.inl x⟩
            have : ((coord2 0 k (j - desc k i) : Nat) : Int) < (2 : Int) ^ k := by
              exact_mod_cast cx
            omega
          · have hk1 : k = 1 := by
              by_contra hne
              have := desc_two_le k i (by omega)
              simp only [desc] at this
              omega
            subst hk1
            simp only [pow_one] at cx
            have : coord2 0 1 (j - desc 1 i) / 2 = 0 := by omega
            rw [this]
            simp only [Nat.mul_zero, Nat.cast_zero]
            omega
        · by_cases hl : i < L
          · have hw : ¬ h < (2 : Int) ^ k := fun x => hfill ⟨hl, Or.inr x⟩
            have : ((coord2 1 k (j - desc k i) : Nat) : Int) < (2 : Int) ^ k := by
              exact_mod_cast cy
            omega
          · have hk1 : k = 1 := by
              by_contra hne
              have := desc_two_le k i (by omega)
              simp only [desc] at this
              omega
            subst hk1
            simp only [pow_one] at cy
            have : coord2 1 1 (j - desc 1 i) / 2 = 0 := by omega
            rw [this]
            simp only [Nat.mul_zero, Nat.cast_zero]
            omega
      · rw [if_neg c, if_neg]
        unfold LeafRule
        omega

theorem build_check_spec (k : Nat) (hk : 1 ≤ k) : BuildCheckSpec k := by
  induction k with
  | zero => omega
  | succ k ih =>
    intro q w h i hM hN hw hh
    have hNM := N_eq_M
    have hLe := L_eq
    have hNe := N_eq
    by_cases hcase : (w ≤ 0 ∨ h ≤ 0) ∨
        ¬ (i < L ∧ (w < (2 : Int) ^ (k + 1) ∨ h < (2 : Int) ^ (k + 1)))
    · exact build_check_leaf_cases (k + 1) q w h i hM hN (by omega) hcase
    · have hout : ¬ (w ≤ 0 ∨ h ≤ 0) := fun x => hcase (Or.inl x)
      have hpart : i < L ∧ (w < (2 : Int) ^ (k + 1) ∨ h < (2 : Int) ^ (k + 1)) := by
        by_contra x
        exact hcase (Or.inr x)
      have hk1 : 1 ≤ k := by
        by_contra hne
        obtain rfl : k = 0 := by omega
        simp only [desc] at hM
        omega
      have hi : i < M := by omega
      have hpk : (4 : Nat) ^ k ≤ N :=
        le_trans (Nat.pow_le_pow_right (by norm_num) (Nat.le_succ k))
          (le_trans (Nat.le_add_left _ _) hN)
      have hk10 : k ≤ 10 := by
        by_contra hne
        have := Nat.pow_le_pow_right (by norm_num : 0 < 4) (by omega : 11 ≤ k)
        omega
      have hP : (2 : Int) ^ k ≤ 2 ^ 10 := by
        exact_mod_cast Nat.pow_le_pow_right (by norm_num : 0 < 2) hk10
      have hP0 : (0 : Int) < (2 : Int) ^ k := by positivity
      obtain ⟨q0, e0, f0, m0⟩ := store_leaves q i 1 hi
      obtain ⟨q', e, f, m⟩ := four_calls k hk1 (ih hk1) q0 w h (desc (k + 1) i)
        (i * 4 + 4) (i * 4 + 5) (i * 4 + 6) (i * 4 + 7)
        (by have := desc_child k i 0; rw [Nat.mul_comm i 4]; simpa using this)
        (by have := desc_child k i 1; rw [Nat.mul_comm i 4]; simpa using this)
        (by have := desc_child k i 2; rw [Nat.mul_comm i 4]; simpa using this)
        (by have := desc_child k i 3; rw [Nat.mul_comm i 4]; simpa using this)
        hM hN hw hh
      refine ⟨q', ?_, f.trans f0, fun j hj => ?_⟩
      · rw [build_check, if_neg hout, if_pos hpart, e0, Option.some_bind, tdiv_two_pow,
          sub32_eq _ _ (by omega) (by omega), Option.some_bind,
          sub32_eq _ _ (by omega) (by omega), Option.some_bind]
        exact e
      · rw [m j hj, m0 j hj]

theorem build_leaf_spec (q : quadtree) (w h : Int) (hw1 : -2 ^ 31 + 512 ≤ w) (hw2 : w < 2 ^ 31)
    (hh1 : -2 ^ 31 + 512 ≤ h) (hh2 : h < 2 ^ 31) :
    ∃ q', build q w h = some q' ∧ q'.face = q.face ∧
      ∀ j, M ≤ j → q'.map j = if LeafRule M 10 w h j then 1 else q.map j := by
  have hs : ((SIZE / 2 : Nat) : Int) = (2 : Int) ^ 9 := by decide
  obtain ⟨q', e, f, m⟩ := four_calls 9 (by norm_num) (build_check_spec 9 (by norm_num)) q w h M
    0 1 2 3 (by decide) (by decide) (by decide) (by decide) le_rfl (by decide) hw2 hh2
  refine ⟨q', ?_, f, m⟩
  unfold build
  rw [hs, sub32_eq _ _ (by norm_num; omega) (by norm_num; omega), Option.some_bind,
    sub32_eq _ _ (by norm_num; omega) (by norm_num; omega), Option.some_bind]
  exact e

/-- After `build(w, h)` on a new quadtree, the leaf of pixel `(x, y)` is 1 when the 2×2
block of the pixel meets the rectangle, and 0 otherwise. -/
theorem build_pixel_spec (q0 : quadtree) (w h : Int) (hw1 : -2 ^ 31 + 512 ≤ w)
    (hw2 : w < 2 ^ 31) (hh1 : -2 ^ 31 + 512 ≤ h) (hh2 : h < 2 ^ 31) :
    ∃ q', build (new q0) w h = some q' ∧
      ∀ x y, x < SIZE → y < SIZE →
        q'.map (set_index x y) =
          if ((2 * (x / 2) : Nat) : Int) < w ∧ ((2 * (y / 2) : Nat) : Int) < h then 1 else 0 := by
  obtain ⟨q', e, _, m⟩ := build_leaf_spec (new q0) w h hw1 hw2 hh1 hh2
  refine ⟨q', e, fun x y hx hy => ?_⟩
  have hS := SIZE_eq
  have hx' : x < 2 ^ 10 := by omega
  have hy' : y < 2 ^ 10 := by omega
  have hm := morton2d_lt x y hx' hy'
  have hi := set_index_eq x y hx' hy'
  obtain ⟨cx, cy⟩ := coord2_morton2d x y hx' hy'
  rw [m _ (by omega)]
  have e1 : set_index x y - M = morton2d x y := by omega
  have hrule : LeafRule M 10 w h (set_index x y) ↔
      (((2 * (x / 2) : Nat) : Int) < w ∧ ((2 * (y / 2) : Nat) : Int) < h) := by
    unfold LeafRule
    rw [e1, cx, cy]
    constructor
    · exact fun r => ⟨r.2.2.1, r.2.2.2⟩
    · exact fun r => ⟨by omega, by norm_num; omega, r.1, r.2⟩
  by_cases r : ((2 * (x / 2) : Nat) : Int) < w ∧ ((2 * (y / 2) : Nat) : Int) < h
  · rw [if_pos r, if_pos (hrule.2 r)]
  · rw [if_neg r, if_neg (fun c => r (hrule.1 c))]
    rfl

/-- C10 (as stated) fails: after `build(1, 1)` on a new quadtree the leaf of the pixel
`(1, 0)` is nonzero although the pixel is outside the 1-by-1 rectangle. -/
theorem build_odd_width_counterexample :
    ∃ q', build (new ⟨fun _ => 0, fun _ => 0⟩) 1 1 = some q' ∧
      q'.map (set_index 1 0) ≠ 0 ∧ ¬ (((1 : Nat) : Int) < 1 ∧ ((0 : Nat) : Int) < 1) := by
  obtain ⟨q', e, m⟩ := build_pixel_spec ⟨fun _ => 0, fun _ => 0⟩ 1 1 (by norm_num)
    (by norm_num) (by norm_num) (by norm_num)
  refine ⟨q', e, ?_, by norm_num⟩
  rw [m 1 0 (by decide) (by decide)]
  norm_num

/-- C10 (amended): after `build(w, h)` on a freshly constructed quadtree, for `int`
arguments whose differences `w - SIZE/2`, `h - SIZE/2` are representable, the call
returns and the leaf byte of every pixel `(x, y)`, `x, y < SIZE`, is nonzero if and only
if the 2×2 pixel block containing the pixel meets the rectangle, i.e. `2⌊x/2⌋ < w` and
`2⌊y/2⌋ < h`; when `w` and `h` are even this is `x < w` and `y < h`. -/
theorem build_leaves (q0 : quadtree) (w h : Int) (hw : -2 ^ 31 + 512 ≤ w ∧ w < 2 ^ 31)
    (hh : -2 ^ 31 + 512 ≤ h ∧ h < 2 ^ 31) :
    ∃ q', build (new q0) w h = some q' ∧
      ∀ x y, x < SIZE → y < SIZE →
        ((q'.map (set_index x y) ≠ 0 ↔
          ((2 * (x / 2) : Nat) : Int) < w ∧ ((2 * (y / 2) : Nat) : Int) < h) ∧
         (w % 2 = 0 → h % 2 = 0 →
          (q'.map (set_index x y) ≠ 0 ↔ (x : Int) < w ∧ (y : Int) < h))) := by
  obtain ⟨q', e, m⟩ := build_pixel_spec q0 w h hw.1 hw.2 hh.1 hh.2
  refine ⟨q', e, fun x y hx hy => ?_⟩
  rw [m x y hx hy]
  have key : ((if ((2 * (x / 2) : Nat) : Int) < w ∧ ((2 * (y / 2) : Nat) : Int) < h
      then 1 else 0 : Nat) ≠ 0) ↔
      (((2 * (x / 2) : Nat) : Int) < w ∧ ((2 * (y / 2) : Nat) : Int) < h) := by
    by_cases r : ((2 * (x / 2) : Nat) : Int) < w ∧ ((2 * (y / 2) : Nat) : Int) < h
    · simp [r]
    · simp only [r, if_false, ne_eq, not_true_eq_false]
  refine ⟨key, fun hwe hhe => ?_⟩
  rw [key]
  omega

theorem build_leaves_witness :
    ((-2 ^ 31 + 512 ≤ (3 : Int) ∧ (3 : Int) < 2 ^ 31) ∧
      (-2 ^ 31 + 512 ≤ (2 : Int) ∧ (2 : Int) < 2 ^ 31)) ∧
    ∃ q', build (new ⟨fun _ => 7, fun _ => 0⟩) 3 2 = some q' ∧
      (q'.map (set_index 3 1) ≠ 0 ↔
        ((2 * (3 / 2) : Nat) : Int) < 3 ∧ ((2 * (1 / 2) : Nat) : Int) < 2) := by
  refine ⟨by norm_num, ?_⟩
  obtain ⟨q', e, m⟩ := build_leaves ⟨fun _ => 7, fun _ => 0⟩ 3 2 (by norm_num) (by norm_num)
  exact ⟨q', e, (m 3 1 (by decide) (by decide)).1⟩

/-- C16 (as stated) fails: the node count constant `N` is not `(4^(D+1) - 1)/3`. -/
theorem N_formula_counterexample : N ≠ (4 ^ (dim + 1) - 1) / 3 := by decide

/-- C16 (amended): for `D = dim = 10`, `N = (4^(D+1) - 1)/3 - 1 = 4 + 4^2 + ... + 4^D`
(the quadtree has four roots and no node above them), and `M = N/4 - 1 = N - 4^D` is the
index of the first leaf: every pixel has its leaf at an index in `[M, N)`, the pixel
`(0, 0)` at index `M`, and the children `4i+4, ..., 4i+7` of a node `i` are below `N`
exactly when `i < M`. -/
theorem N_M_formula :
    N = (4 ^ (dim + 1) - 1) / 3 - 1 ∧
    N = ((List.range dim).map fun d => 4 ^ (d + 1)).sum ∧
    M = N / 4 - 1 ∧ M + 4 ^ dim = N ∧
    set_index 0 0 = M ∧
    (∀ x y, x < SIZE → y < SIZE → M ≤ set_index x y ∧ set_index x y < N) ∧
    (∀ i, 4 * i + 7 < N ↔ i < M) := by
  refine ⟨by decide, by decide, by decide, by decide, by decide, fun x y hx hy => ?_, fun i => ?_⟩
  · have hS := SIZE_eq
    have hM := M_eq
    have hN := N_eq
    have hm := morton2d_lt x y (by omega) (by omega)
    rw [set_index_eq x y (by omega) (by omega)]
    omega
  · have hM := M_eq
    have hN := N_eq
    omega

theorem N_M_formula_witness :
    (3 < SIZE ∧ 5 < SIZE) ∧ M ≤ set_index 3 5 ∧ set_index 3 5 < N :=
  ⟨by decide, N_M_formula.2.2.2.2.2.1 3 5 (by decide) (by decide)⟩

theorem writes_store (i v : Nat) (hi : i < N) :
    Writes (fun q => store q i v) (storeOv i v) := by
  intro q
  refine ⟨_, store_eq q i v hi, rfl, fun j => ?_⟩
  unfold storeOv
  by_cases h : j = i
  · subst h; simp
  · simp [Function.update, h]

theorem writes_seq (f g : quadtree → Option quadtree) (o1 o2 : Nat → Option Nat)
    (hf : Writes f o1) (hg : Writes g o2) :
    Writes (fun q => (f q).bind g) (ovSeq o1 o2) := by
  intro q
  obtain ⟨q1, e1, f1, m1⟩ := hf q
  obtain ⟨q2, e2, f2, m2⟩ := hg q1
  refine ⟨q2, by simp only [e1, Option.some_bind, e2], f2.trans f1, fun j => ?_⟩
  rw [m2 j, m1 j]
  unfold ovSeq
  cases o2 j <;> rfl

theorem ovSeq_isSome (o1 o2 : Nat → Option Nat) (j : Nat)
    (h : (o1 j).isSome = true ∨ (o2 j).isSome = true) : (ovSeq o1 o2 j).isSome = true := by
  unfold ovSeq
  cases h2 : o2 j with
  | some v => rfl
  | none =>
    rcases h with h | h
    · exact h
    · rw [h2] at h; exact absurd h (by simp)

theorem ovClosed_seq (o1 o2 : Nat → Option Nat) (h1 : OvClosed o1) (h2 : OvClosed o2) :
    OvClosed (ovSeq o1 o2) := by
  intro j v hj hv hM c hc
  unfold ovSeq at hj
  cases e2 : o2 j with
  | some v2 =>
    rw [e2] at hj
    simp only [Option.some.injEq] at hj
    subst hj
    exact ovSeq_isSome _ _ _ (Or.inr (h2 j v2 e2 hv hM c hc))
  | none =>
    rw [e2] at hj
    exact ovSeq_isSome _ _ _ (Or.inl (h1 j v hj hv hM c hc))

theorem build_fill_fillOv (i k : Nat) (hM : M ≤ desc k i) (hN : desc k i + 4 ^ k ≤ N) :
    Writes (fun q => build_fill q i) (fillOv i k) := by
  have hNM := N_eq_M
  have hNe := N_eq
  have hrow := desc_row_end k i hN
  have hpos : 1 ≤ 4 ^ k := Nat.one_le_pow _ _ (by norm_num)
  intro q
  obtain ⟨q', h1, h2, h3⟩ := build_fill_loop_spec (k + 1) q i 1 (by norm_num)
    (by rw [pow_succ]; omega)
    (fun s hs => by
      rcases Nat.lt_or_ge s k with c | c
      · have := hrow s c; omega
      · obtain rfl : s = k := by omega
        simpa using hN)
    (by simp only [desc]; omega)
  refine ⟨q', h1, h2, fun j => ?_⟩
  rw [h3 j]
  unfold fillOv
  by_cases c : ∃ s, s < k + 1 ∧ desc s i ≤ j ∧ j < desc s i + 4 ^ s * 1
  · rw [if_pos c, if_pos c]; rfl
  · rw [if_neg c, if_neg c]; rfl

theorem build_fill_writes (i k : Nat) (hM : M ≤ desc k i) (hN : desc k i + 4 ^ k ≤ N) :
    ∃ o, Writes (fun q => build_fill q i) o ∧ (o i).isSome = true ∧ OvClosed o := by
  have hNM := N_eq_M
  refine ⟨fillOv i k, build_fill_fillOv i k hM hN, ?_, ?_⟩
  · have : ∃ s, s < k + 1 ∧ desc s i ≤ i ∧ i < desc s i + 4 ^ s * 1 :=
      ⟨0, by omega, by simp [desc]⟩
    unfold fillOv
    rw [if_pos this]; rfl
  · intro j v hj hv hjM c hc
    unfold fillOv at hj ⊢
    by_cases hs : ∃ s, s < k + 1 ∧ desc s i ≤ j ∧ j < desc s i + 4 ^ s * 1
    · obtain ⟨s, hs1, hs2, hs3⟩ := hs
      have hsk : s < k := by
        by_contra hne
        obtain rfl : s = k := by omega
        omega
      have : ∃ s, s < k + 1 ∧ desc s i ≤ 4 * j + 4 + c ∧
          4 * j + 4 + c < desc s i + 4 ^ s * 1 := by
        refine ⟨s + 1, by omega, ?_, ?_⟩
        · simp only [desc]; omega
        · simp only [desc, pow_succ]; omega
      rw [if_pos this]; rfl
    · rw [if_neg hs] at hj
      exact absurd hj (by simp)

theorem build_check_writes_cases (k : Nat) (w h : Int) (i : Nat)
    (hM : M ≤ desc k i) (hN : desc k i + 4 ^ k ≤ N) (hk : 1 ≤ k)
    (hcase : (w ≤ 0 ∨ h ≤ 0) ∨ ¬ (i < L ∧ (w < (2 : Int) ^ k ∨ h < (2 : Int) ^ k))) :
    ∃ o, Writes (fun q => build_check q w h i ((2 : Int) ^ k)) o ∧ (o i).isSome = true ∧
      OvClosed o := by
  have hNM := N_eq_M
  have hi : i < M := by
    have h1 := desc_row_end k i hN 0 (by omega)
    simp only [desc, pow_zero] at h1
    omega
  by_cases hout : w ≤ 0 ∨ h ≤ 0
  · refine ⟨storeOv i 0, fun q => ?_, by simp [storeOv], ?_⟩
    · obtain ⟨q', e, f, m⟩ := writes_store i 0 (by omega) q
      exact ⟨q', by show build_check q w h i ((2 : Int) ^ k) = some q'; rw [build_check, if_pos hout]; exact e, f, m⟩
    · intro j v hj hv
      unfold storeOv at hj
      by_cases c : j = i
      · rw [if_pos c] at hj
        simp only [Option.some.injEq] at hj
        exact absurd hj.symm hv
      · rw [if_neg c] at hj
        exact absurd hj (by simp)
  · have hfill : ¬ (i < L ∧ (w < (2 : Int) ^ k ∨ h < (2 : Int) ^ k)) := by
      rcases hcase with c | c
      · exact absurd c hout
      · exact c
    obtain ⟨o, ho, hoi, hoc⟩ := build_fill_writes i k hM hN
    refine ⟨o, fun q => ?_, hoi, hoc⟩
    obtain ⟨q', e, f, m⟩ := ho q
    exact ⟨q', by show build_check q w h i ((2 : Int) ^ k) = some q'; rw [build_check, if_neg hout, if_neg hfill]; exact e, f, m⟩

theorem four_calls_writes (k : Nat) (ih : BuildCheckWrites k) (w h : Int)
    (D i0 i1 i2 i3 : Nat) (h0 : desc k i0 = D) (h1 : desc k i1 = D + 4 ^ k)
    (h2 : desc k i2 = D + 2 * 4 ^ k) (h3 : desc k i3 = D + 3 * 4 ^ k)
    (hM : M ≤ D) (hN : D + 4 ^ (k + 1) ≤ N) (hw : w < 2 ^ 31) (hh : h < 2 ^ 31) :
    ∃ o, Writes (fun q =>
        (build_check q w h i0 ((2 : Int) ^ k)).bind fun q1 =>
        (build_check q1 (w - (2 : Int) ^ k) h i1 ((2 : Int) ^ k)).bind fun q2 =>
        (build_check q2 w (h - (2 : Int) ^ k) i2 ((2 : Int) ^ k)).bind fun q3 =>
        build_check q3 (w - (2 : Int) ^ k) (h - (2 : Int) ^ k) i3 ((2 : Int) ^ k)) o ∧
      ((o i0).isSome = true ∧ (o i1).isSome = true ∧ (o i2).isSome = true ∧
        (o i3).isSome = true) ∧ OvClosed o := by
  have hQ : (4 : Nat) ^ (k + 1) = 4 * 4 ^ k := by rw [pow_succ]; ring
  have hP : (0 : Int) < (2 : Int) ^ k := by positivity
  obtain ⟨o0, w0, s0, c0⟩ := ih w h i0 (by omega) (by omega) hw hh
  obtain ⟨o1, w1, s1, c1⟩ := ih (w - (2 : Int) ^ k) h i1 (by omega) (by omega) (by omega) hh
  obtain ⟨o2, w2, s2, c2⟩ := ih w (h - (2 : Int) ^ k) i2 (by omega) (by omega) hw (by omega)
  obtain ⟨o3, w3, s3, c3⟩ := ih (w - (2 : Int) ^ k) (h - (2 : Int) ^ k) i3 (by omega)
    (by omega) (by omega) (by omega)
  refine ⟨ovSeq o0 (ovSeq o1 (ovSeq o2 o3)),
    writes_seq _ _ _ _ w0 (writes_seq _ _ _ _ w1 (writes_seq _ _ _ _ w2 w3)), ⟨?_, ?_, ?_, ?_⟩,
    ovClosed_seq _ _ c0 (ovClosed_seq _ _ c1 (ovClosed_seq _ _ c2 c3))⟩
  · exact ovSeq_isSome _ _ _ (Or.inl s0)
  · exact ovSeq_isSome _ _ _ (Or.inr (ovSeq_isSome _ _ _ (Or.inl s1)))
  · exact ovSeq_isSome _ _ _ (Or.inr (ovSeq_isSome _ _ _ (Or.inr (ovSeq_isSome _ _ _ (Or.inl s2)))))
  · exact ovSeq_isSome _ _ _ (Or.inr (ovSeq_isSome _ _ _ (Or.inr (ovSeq_isSome _ _ _ (Or.inr s3)))))

theorem build_check_writes (k : Nat) (hk : 1 ≤ k) : BuildCheckWrites k := by
  induction k with
  | zero => omega
  | succ k ih =>
    intro w h i hM hN hw hh
    have hNM := N_eq_M
    have hLe := L_eq
    have hNe := N_eq
    by_cases hcase : (w ≤ 0 ∨ h ≤ 0) ∨
        ¬ (i < L ∧ (w < (2 : Int) ^ (k + 1) ∨ h < (2 : Int) ^ (k + 1)))
    · exact build_check_writes_cases (k + 1) w h i hM hN (by omega) hcase
    · have hout : ¬ (w ≤ 0 ∨ h ≤ 0) := fun x => hcase (Or.inl x)
      have hpart : i < L ∧ (w < (2 : Int) ^ (k + 1) ∨ h < (2 : Int) ^ (k + 1)) := by
        by_contra x
        exact hcase (Or.inr x)
      have hk1 : 1 ≤ k := by
        by_contra hne
        obtain rfl : k = 0 := by omega
        simp only [desc] at hM
        omega
      have hi : i < M := by omega
      have hpk : (4 : Nat) ^ k ≤ N :=
        le_trans (Nat.pow_le_pow_right (by norm_num) (Nat.le_succ k))
          (le_trans (Nat.le_add_left _ _) hN)
      have hk10 : k ≤ 10 := by
        by_contra hne
        have := Nat.pow_le_pow_right (by norm_num : 0 < 4) (by omega : 11 ≤ k)
        omega
      have hP : (2 : Int) ^ k ≤ 2 ^ 10 := by
        exact_mod_cast Nat.pow_le_pow_right (by norm_num : 0 < 2) hk10
      have hP0 : (0 : Int) < (2 : Int) ^ k := by positivity
      obtain ⟨o4, w4, ⟨s0, s1, s2, s3⟩, c4⟩ := four_calls_writes k (ih hk1) w h (desc (k + 1) i)
        (i * 4 + 4) (i * 4 + 5) (i * 4 + 6) (i * 4 + 7)
        (by have := desc_child k i 0; rw [Nat.mul_comm i 4]; simpa using this)
        (by have := desc_child k i 1; rw [Nat.mul_comm i 4]; simpa using this)
        (by have := desc_child k i 2; rw [Nat.mul_comm i 4]; simpa using this)
        (by have := desc_child k i 3; rw [Nat.mul_comm i 4]; simpa using this)
        hM hN hw hh
      have ws := writes_seq _ _ _ _ (writes_store i 1 (by omega)) w4
      refine ⟨ovSeq (storeOv i 1) o4, fun q => ?_, ?_, ?_⟩
      · obtain ⟨q', e, f, m⟩ := ws q
        refine ⟨q', ?_, f, m⟩
        show build_check q w h i ((2 : Int) ^ (k + 1)) = some q'
        rw [build_check, if_neg hout, if_pos hpart, tdiv_two_pow,
          sub32_eq _ _ (by omega) (by omega), sub32_eq _ _ (by omega) (by omega)]
        exact e
      · exact ovSeq_isSome _ _ _ (Or.inl (by simp [storeOv]))
      · intro j v hj hv hjM c hc
        unfold ovSeq at hj
        cases e4 : o4 j with
        | some v4 =>
          rw [e4] at hj
          simp only [Option.some.injEq] at hj
          subst hj
          exact ovSeq_isSome _ _ _ (Or.inr (c4 j v4 e4 hv hjM c hc))
        | none =>
          rw [e4] at hj
          unfold storeOv at hj
          by_cases cj : j = i
          · subst cj
            have e5 : 4 * j + 4 + 1 = j * 4 + 5 := by ring
            have e6 : 4 * j + 4 + 2 = j * 4 + 6 := by ring
            have e7 : 4 * j + 4 + 3 = j * 4 + 7 := by ring
            have e4' : 4 * j + 4 + 0 = j * 4 + 4 := by ring
            apply ovSeq_isSome _ _ _ (Or.inr _)
            interval_cases c
            · rw [e4']; exact s0
            · rw [e5]; exact s1
            · rw [e6]; exact s2
            · rw [e7]; exact s3
          · rw [if_neg cj] at hj
            exact absurd hj (by simp)

/-- The bytes stored by `build`: the four roots are written, and so are the children of
every interior node that receives a nonzero byte. -/
theorem build_writes (w h : Int) (hw1 : -2 ^ 31 + 512 ≤ w) (hw2 : w < 2 ^ 31)
    (hh1 : -2 ^ 31 + 512 ≤ h) (hh2 : h < 2 ^ 31) :
    ∃ o, Writes (fun q => build q w h) o ∧ (∀ r, r < 4 → (o r).isSome = true) ∧
      OvClosed o := by
  have hs : ((SIZE / 2 : Nat) : Int) = (2 : Int) ^ 9 := by decide
  obtain ⟨o, wo, ⟨s0, s1, s2, s3⟩, co⟩ := four_calls_writes 9 (build_check_writes 9 (by norm_num))
    w h M 0 1 2 3 (by decide) (by decide) (by decide) (by decide) le_rfl (by decide) hw2 hh2
  refine ⟨o, fun q => ?_, fun r hr => ?_, co⟩
  · obtain ⟨q', e, f, m⟩ := wo q
    refine ⟨q', ?_, f, m⟩
    show build q w h = some q'
    unfold build
    rw [hs, sub32_eq _ _ (by norm_num; omega) (by norm_num; omega), Option.some_bind,
      sub32_eq _ _ (by norm_num; omega) (by norm_num; omega), Option.some_bind]
    exact e
  · interval_cases r
    · exact s0
    · exact s1
    · exact s2
    · exact s3

theorem visible_written (o : Nat → Option Nat) (m : Nat → Nat)
    (hroot : ∀ r, r < 4 → (o r).isSome = true) (hc : OvClosed o)
    (hm : ∀ j, (o j).isSome = true → ∀ v, o j = some v → m j = v) :
    ∀ j, Visible m j → j < N → (o j).isSome = true := by
  intro j hv
  induction hv with
  | root r hr => intro _; exact hroot r hr
  | child i c _ hnz hc4 ih =>
    intro hlt
    have hNM := N_eq_M
    have hi : i < M := by omega
    have hs := ih (by omega)
    obtain ⟨v, hv⟩ := Option.isSome_iff_exists.1 hs
    have := hm i hs v hv
    exact hc i v hv (by rw [← this]; exact hnz) hi c hc4

theorem written_or_below (o : Nat → Option Nat)
    (hroot : ∀ r, r < 4 → (o r).isSome = true) (hc : OvClosed o) :
    ∀ j, j < N → (o j).isSome = true ∨ ∃ a, Below a j ∧ o a = some 0 := by
  intro j
  induction j using Nat.strong_induction_on with
  | _ j ih =>
    intro hlt
    have hNM := N_eq_M
    rcases Nat.lt_or_ge j 4 with h4 | h4
    · exact Or.inl (hroot j h4)
    · have hj : j = 4 * (j / 4 - 1) + 4 + j % 4 := by omega
      have hp : j / 4 - 1 < M := by omega
      rcases ih (j / 4 - 1) (by omega) (by omega) with hs | ⟨a, ha, hz⟩
      · obtain ⟨v, hv⟩ := Option.isSome_iff_exists.1 hs
        by_cases hv0 : v = 0
        · right
          refine ⟨j / 4 - 1, ?_, by rw [hv, hv0]⟩
          have hb := Below.child (j / 4 - 1) (j % 4) (Nat.mod_lt _ (by norm_num))
          rwa [← hj] at hb
        · left
          have hb := hc _ v hv hv0 hp (j % 4) (Nat.mod_lt _ (by norm_num))
          rwa [← hj] at hb
      · right
        refine ⟨a, ?_, hz⟩
        have hb := Below.step a (j / 4 - 1) (j % 4) ha (Nat.mod_lt _ (by norm_num))
        rwa [← hj] at hb

/-- C20: `build` overwrites everything the renderer can see.  For any two states before
the call, and the same `w`, `h` (for which the differences `w - SIZE/2`, `h - SIZE/2`
are representable), `build` returns on both; the two maps agree on the four roots and
on every node that is reachable from a root through nonzero bytes; and every node whose
byte is not determined by `build` lies below a node that `build` sets to zero. -/
theorem build_overwrites_visible (qa qb : quadtree) (w h : Int)
    (hw : -2 ^ 31 + 512 ≤ w ∧ w < 2 ^ 31) (hh : -2 ^ 31 + 512 ≤ h ∧ h < 2 ^ 31) :
    ∃ qa' qb', build qa w h = some qa' ∧ build qb w h = some qb' ∧
      (∀ r, r < 4 → qa'.map r = qb'.map r) ∧
      (∀ j, j < N → Visible qa'.map j → qa'.map j = qb'.map j) ∧
      (∀ j, j < N →
        (∀ q q', build q w h = some q' → q'.map j = qa'.map j) ∨
        (∃ a, Below a j ∧ ∀ q q', build q w h = some q' → q'.map a = 0)) := by
  obtain ⟨o, wo, hroot, hc⟩ := build_writes w h hw.1 hw.2 hh.1 hh.2
  obtain ⟨qa', ea, _, ma⟩ := wo qa
  obtain ⟨qb', eb, _, mb⟩ := wo qb
  have det : ∀ j v, o j = some v → ∀ q q', build q w h = some q' → q'.map j = v := by
    intro j v hv q q' hq
    obtain ⟨q'', e, _, m⟩ := wo q
    have e' : build q w h = some q'' := e
    rw [hq] at e'
    simp only [Option.some.injEq] at e'
    subst e'
    rw [m j, hv]; rfl
  have agree : ∀ j, (o j).isSome = true → qa'.map j = qb'.map j := by
    intro j hs
    obtain ⟨v, hv⟩ := Option.isSome_iff_exists.1 hs
    rw [det j v hv qa qa' ea, det j v hv qb qb' eb]
  refine ⟨qa', qb', ea, eb, fun r hr => agree r (hroot r hr), fun j hj hv => ?_, fun j hj => ?_⟩
  · exact agree j (visible_written o qa'.map hroot hc
      (fun j _ v hv => det j v hv qa qa' ea) j hv hj)
  · rcases written_or_below o hroot hc j hj with hs | ⟨a, ha, hz⟩
    · left
      obtain ⟨v, hv⟩ := Option.isSome_iff_exists.1 hs
      intro q q' hq
      rw [det j v hv q q' hq, det j v hv qa qa' ea]
    · right
      exact ⟨a, ha, fun q q' hq => det a 0 hz q q' hq⟩

theorem build_overwrites_visible_witness :
    ((-2 ^ 31 + 512 ≤ (3 : Int) ∧ (3 : Int) < 2 ^ 31) ∧
      (-2 ^ 31 + 512 ≤ (2 : Int) ∧ (2 : Int) < 2 ^ 31)) ∧
    ∃ qa' qb', build ⟨fun _ => 0, fun _ => 0⟩ 3 2 = some qa' ∧
      build ⟨fun _ => 1, fun _ => 0⟩ 3 2 = some qb' ∧
      (∀ r, r < 4 → qa'.map r = qb'.map r) := by
  refine ⟨by norm_num, ?_⟩
  obtain ⟨qa', qb', ea, eb, hr, _⟩ := build_overwrites_visible ⟨fun _ => 0, fun _ => 0⟩
    ⟨fun _ => 1, fun _ => 0⟩ 3 2 (by norm_num) (by norm_num)
  exact ⟨qa', qb', ea, eb, hr⟩

theorem build_zero (q : quadtree) :
    build q 0 0 =
      some ⟨Function.update (Function.update (Function.update (Function.update q.map 0 0) 1 0)
        2 0) 3 0, q.face⟩ := by
  have hN := N_eq
  unfold build
  rw [sub32_eq _ _ (by decide) (by decide), Option.some_bind, Option.some_bind,
    build_check, if_pos (by decide), store_eq _ _ _ (by omega), Option.some_bind,
    build_check, if_pos (by decide), store_eq _ _ _ (by omega), Option.some_bind,
    build_check, if_pos (by decide), store_eq _ _ _ (by omega), Option.some_bind,
    build_check, if_pos (by decide), store_eq _ _ _ (by omega)]

/-- A root whose quadrant lies inside the rectangle is filled: every byte becomes 1 or
keeps its value, and the four children of the root become 1. -/
theorem build_check_root_full (q : quadtree) (w h : Int) (r : Nat) (hr : r < 4)
    (hw : 512 ≤ w) (hh : 512 ≤ h) :
    ∃ q', build_check q w h r ((SIZE / 2 : Nat) : Int) = some q' ∧
      (∀ j, q'.map j = 1 ∨ q'.map j = q.map j) ∧
      (∀ c, c < 4 → q'.map (4 * r + 4 + c) = 1) := by
  have hs : ((SIZE / 2 : Nat) : Int) = 512 := by decide
  have hL := L_eq
  have hd : M ≤ desc 9 r ∧ desc 9 r + 4 ^ 9 ≤ N := by
    interval_cases r <;> decide
  obtain ⟨q', e, _, m⟩ := build_fill_fillOv r 9 hd.1 hd.2 q
  refine ⟨q', ?_, fun j => ?_, fun c hc => ?_⟩
  · rw [build_check, if_neg (by omega), if_neg (by rw [hs]; omega)]
    exact e
  · rw [m j]
    unfold fillOv
    split_ifs
    · left; rfl
    · right; rfl
  · rw [m]
    unfold fillOv
    rw [if_pos ⟨1, by norm_num, by simp only [desc]; omega, by simp only [desc]; omega⟩]
    rfl

/-- C11: the code breaks the documented postcondition of `build` ("a node is non-zero if
one of its children is nonzero") on a map that holds the bytes of an earlier call: after
`build(1024, 1024)` on a new quadtree followed by `build(0, 0)`, the root 0 is zero while
its child `map[4]` is still nonzero. -/
theorem build_leaves_stale_child :
    ∃ q1 q2, build (new ⟨fun _ => 0, fun _ => 0⟩) 1024 1024 = some q1 ∧
      build q1 0 0 = some q2 ∧ (0 < M ∧ q2.map (4 * 0 + 4) ≠ 0 ∧ q2.map 0 = 0) := by
  have hs : ((SIZE / 2 : Nat) : Int) = 512 := by decide
  obtain ⟨a0, e0, _, c0⟩ := build_check_root_full (new ⟨fun _ => 0, fun _ => 0⟩) 1024 1024 0
    (by norm_num) (by norm_num) (by norm_num)
  obtain ⟨a1, e1, m1, _⟩ := build_check_root_full a0 (1024 - 512) 1024 1
    (by norm_num) (by norm_num) (by norm_num)
  obtain ⟨a2, e2, m2, _⟩ := build_check_root_full a1 1024 (1024 - 512) 2
    (by norm_num) (by norm_num) (by norm_num)
  obtain ⟨a3, e3, m3, _⟩ := build_check_root_full a2 (1024 - 512) (1024 - 512) 3
    (by norm_num) (by norm_num) (by norm_num)
  have h4 : a3.map 4 = 1 := by
    have k0 : a0.map 4 = 1 := c0 0 (by norm_num)
    have k1 : a1.map 4 = 1 := by rcases m1 4 with h | h; exact h; rw [h, k0]
    have k2 : a2.map 4 = 1 := by rcases m2 4 with h | h; exact h; rw [h, k1]
    rcases m3 4 with h | h
    · exact h
    · rw [h, k2]
  refine ⟨a3, _, ?_, build_zero a3, by decide, ?_, ?_⟩
  · unfold build
    rw [sub32_eq _ _ (by decide) (by decide), Option.some_bind, Option.some_bind, hs,
      ← hs, e0, Option.some_bind, hs]
    rw [hs] at e1 e2 e3
    rw [e1, Option.some_bind, e2, Option.some_bind, e3]
  · simp [Function.update, h4]
  · simp [Function.update]

theorem set_index_inj (x y x' y' : Nat) (hx : x < 2 ^ 10) (hy : y < 2 ^ 10)
    (hx' : x' < 2 ^ 10) (hy' : y' < 2 ^ 10) (h : set_index x y = set_index x' y') :
    x = x' ∧ y = y' := by
  rw [set_index_eq x y hx hy, set_index_eq x' y' hx' hy'] at h
  have e : morton2d x y = morton2d x' y' := by omega
  have a := coord2_morton2d x y hx hy
  have b := coord2_morton2d x' y' hx' hy'
  rw [e] at a
  exact ⟨a.1.symm.trans b.1, a.2.symm.trans b.2⟩

theorem set_index_range (x y : Nat) (hx : x < 2 ^ 10) (hy : y < 2 ^ 10) :
    M ≤ set_index x y ∧ set_index x y < N := by
  have h := morton2d_lt x y hx hy
  have hM := M_eq
  have hN := N_eq
  rw [set_index_eq x y hx hy]
  omega

theorem set_all_spec (ps : List (Nat × Nat)) (hps : ∀ p ∈ ps, p.1 < SIZE ∧ p.2 < SIZE)
    (q : quadtree) :
    ∃ q1, set_all q ps = some q1 ∧ q1.face = q.face ∧
      (∀ i, i < M → q1.map i = q.map i) ∧
      ∀ x y, x < SIZE → y < SIZE →
        q1.map (set_index x y) = if (x, y) ∈ ps then 1 else q.map (set_index x y) := by
  have hS := SIZE_eq
  induction ps generalizing q with
  | nil => exact ⟨q, rfl, rfl, fun _ _ => rfl, fun x y _ _ => by simp⟩
  | cons p ps ih =>
    have hp := hps p (List.mem_cons_self _ _)
    have hp1 : p.1 < 2 ^ 10 := by omega
    have hp2 : p.2 < 2 ^ 10 := by omega
    have hr := set_index_range p.1 p.2 hp1 hp2
    obtain ⟨q1, e, f, lo, m⟩ := ih (fun p' h' => hps p' (List.mem_cons_of_mem _ h'))
      { q with map := Function.update q.map (set_index p.1 p.2) 1 }
    refine ⟨q1, ?_, f, fun i hi => ?_, fun x y hx hy => ?_⟩
    · show (set q p.1 p.2).bind _ = _
      unfold set
      rw [store_eq _ _ _ hr.2, Option.some_bind]
      exact e
    · rw [lo i hi]
      exact Function.update_noteq (by omega) _ _
    · rw [m x y hx hy]
      by_cases c : (x, y) ∈ ps
      · rw [if_pos c, if_pos (List.mem_cons_of_mem _ c)]
      · rw [if_neg c]
        by_cases d : (x, y) = p
        · subst d
          rw [if_pos (List.mem_cons_self _ _)]
          exact Function.update_same _ _ _
        · have : (x, y) ∉ p :: ps := by
            intro h
            rcases List.mem_cons.1 h with h | h
            · exact d h
            · exact c h
          rw [if_neg this]
          apply Function.update_noteq
          intro h
          have := set_index_inj x y p.1 p.2 (by omega) (by omega) hp1 hp2 h
          exact d (Prod.ext this.1 this.2)

theorem compute_cases (q : quadtree) (i : Nat) (hi : i < M) :
    compute q i = some q ∨
      compute q i = some { q with map := Function.update q.map i 0 } := by
  have hM := M_eq
  have hN := N_eq
  unfold compute children
  rw [Nat.mod_eq_of_lt (by omega), if_pos (by omega), Option.some_bind]
  split_ifs
  · right; exact store_eq _ _ _ (by omega)
  · left; rfl

theorem compute_down_spec (n : Nat) (hn : n ≤ M) (q : quadtree)
    (hz : ∀ i, i < n → q.map i = 0) :
    ∃ q', compute_down q n = some q' ∧ q'.face = q.face ∧ ∀ j, q'.map j = q.map j := by
  induction n generalizing q with
  | zero => exact ⟨q, rfl, rfl, fun _ => rfl⟩
  | succ n ih =>
    rcases compute_cases q n (by omega) with e | e
    · obtain ⟨q', e', f, m⟩ := ih (by omega) q (fun i hi => hz i (by omega))
      refine ⟨q', ?_, f, m⟩
      show (compute q n).bind _ = _
      rw [e, Option.some_bind]; exact e'
    · have same : ∀ j, Function.update q.map n 0 j = q.map j := by
        intro j
        by_cases c : j = n
        · subst c; rw [Function.update_same, hz j (by omega)]
        · exact Function.update_noteq c _ _
      obtain ⟨q', e', f, m⟩ := ih (by omega) { q with map := Function.update q.map n 0 }
        (fun i hi => by show Function.update q.map n 0 i = 0; rw [same i]; exact hz i (by omega))
      refine ⟨q', ?_, f, fun j => ?_⟩
      · show (compute q n).bind _ = _
        rw [e, Option.some_bind]; exact e'
      · rw [m j]; exact same j

theorem fold_spec (q0 : quadtree) (ps : List (Nat × Nat))
    (hps : ∀ p ∈ ps, p.1 < SIZE ∧ p.2 < SIZE) :
    ∃ q1 q2, set_all (new q0) ps = some q1 ∧ compute_down q1 M = some q2 ∧
      (∀ i, i < M → q2.map i = 0) ∧
      (∀ x y, x < SIZE → y < SIZE →
        q2.map (set_index x y) = if (x, y) ∈ ps then 1 else 0) ∧
      q2.face = q0.face := by
  obtain ⟨q1, e1, f1, lo, m1⟩ := set_all_spec ps hps (new q0)
  have z1 : ∀ i, i < M → q1.map i = 0 := fun i hi => by rw [lo i hi]; rfl
  obtain ⟨q2, e2, f2, m2⟩ := compute_down_spec M le_rfl q1 z1
  refine ⟨q1, q2, e1, e2, fun i hi => by rw [m2 i]; exact z1 i hi, fun x y hx hy => ?_,
    by rw [f2, f1]; rfl⟩
  rw [m2, m1 x y hx hy]
  rfl

/-- C12 (as stated): one pixel is set on a new quadtree and `compute` is applied to the
interior nodes `M-1, ..., 0`; the fold returns and `map[0]` is 0 although a pixel was
set. -/
theorem fold_root_counterexample :
    ∃ q1 q2, set_all (new ⟨fun _ => 0, fun _ => 0⟩) [(0, 0)] = some q1 ∧
      compute_down q1 M = some q2 ∧ q2.map 0 = 0 ∧ [((0 : Nat), (0 : Nat))] ≠ [] := by
  obtain ⟨q1, q2, e1, e2, z, _⟩ := fold_spec ⟨fun _ => 0, fun _ => 0⟩ [(0, 0)]
    (fun p hp => by
      rw [List.mem_singleton] at hp
      subst hp
      exact ⟨by decide, by decide⟩)
  exact ⟨q1, q2, e1, e2, z 0 (by decide), by simp⟩

/-- C12 (amended): on a new quadtree, after any sequence of `set(x, y)` with
`x, y < SIZE` followed by `compute(i)` for `i = M-1, ..., 0`, all calls return, every
interior byte is 0 (so `map[0] = 0` whatever was set: `compute` only clears bytes and
`set` writes leaves only), and the leaf of a pixel is 1 exactly when the pixel was
set. -/
theorem fold_after_set (q0 : quadtree) (ps : List (Nat × Nat))
    (hps : ∀ p ∈ ps, p.1 < SIZE ∧ p.2 < SIZE) :
    ∃ q1 q2, set_all (new q0) ps = some q1 ∧ compute_down q1 M = some q2 ∧
      (∀ i, i < M → q2.map i = 0) ∧
      (∀ x y, x < SIZE → y < SIZE →
        q2.map (set_index x y) = if (x, y) ∈ ps then 1 else 0) :=
  let ⟨q1, q2, e1, e2, z, m, _⟩ := fold_spec q0 ps hps
  ⟨q1, q2, e1, e2, z, m⟩

theorem fold_after_set_witness :
    (∀ p ∈ [((3 : Nat), (5 : Nat))], p.1 < SIZE ∧ p.2 < SIZE) ∧
    ∃ q1 q2, set_all (new ⟨fun _ => 1, fun _ => 0⟩) [(3, 5)] = some q1 ∧
      compute_down q1 M = some q2 ∧
      (∀ i, i < M → q2.map i = 0) ∧
      (∀ x y, x < SIZE → y < SIZE →
        q2.map (set_index x y) = if (x, y) ∈ [((3 : Nat), (5 : Nat))] then 1 else 0) :=
  ⟨by decide, fold_after_set ⟨fun _ => 1, fun _ => 0⟩ [(3, 5)] (by decide)⟩

end quadtree

namespace octree_draw

open quadtree (N M L SIZE)
open SubFaceRenderer

theorem leaf_is_pixel (v : Nat) (h1 : M ≤ v) (h2 : v < N) :
    ∃ x y, x < 2 ^ 10 ∧ y < 2 ^ 10 ∧ quadtree.set_index x y = v := by
  have hM := quadtree.M_eq
  have hN := quadtree.N_eq
  have cx := quadtree.coord2_lt 0 10 (v - M)
  have cy := quadtree.coord2_lt 1 10 (v - M)
  refine ⟨quadtree.coord2 0 10 (v - M), quadtree.coord2 1 10 (v - M), cx, cy, ?_⟩
  rw [quadtree.set_index_eq _ _ cx cy]
  have e : quadtree.morton2d (quadtree.coord2 0 10 (v - M)) (quadtree.coord2 1 10 (v - M))
      = v - M := by
    apply Nat.eq_of_testBit_eq
    intro k
    rw [quadtree.testBit_morton2d _ _ _ cx cy, quadtree.coord2_testBit,
      quadtree.coord2_testBit]
    by_cases hk : k < 20
    · by_cases h : k % 2 = 0
      · have e : 2 * (k / 2) + 0 = k := by omega
        have d : k / 2 < 10 := by omega
        rw [if_pos h, e]; simp [d]
      · have e : 2 * (k / 2) + 1 = k := by omega
        have d : k / 2 < 10 := by omega
        rw [if_neg h, e]; simp [d]
    · have d : ¬ k / 2 < 10 := by omega
      rw [testBit_false_of_lt (v - M) k 20 (by omega) (by omega)]
      simp [d]
  omega

theorem painted_refl (f : quadtree) : Painted f f [] :=
  ⟨fun _ h => h, List.nodup_nil, fun _ h => absurd h (List.not_mem_nil _),
    fun _ h => absurd rfl h⟩

theorem painted_trans (f f1 f2 : quadtree) (l1 l2 : List Nat)
    (h1 : Painted f f1 l1) (h2 : Painted f1 f2 l2) : Painted f f2 (l1 ++ l2) := by
  obtain ⟨a1, b1, c1, d1⟩ := h1
  obtain ⟨a2, b2, c2, d2⟩ := h2
  refine ⟨fun j h => a2 j (a1 j h), ?_, fun v hv => ?_, fun p hp => ?_⟩
  · rw [List.nodup_append]
    refine ⟨b1, b2, fun v hv1 hv2 => ?_⟩
    exact (c2 v hv2).2.2.1 (c1 v hv1).2.2.2
  · rcases List.mem_append.1 hv with h | h
    · obtain ⟨x1, x2, x3, x4⟩ := c1 v h
      exact ⟨x1, x2, x3, a2 v x4⟩
    · obtain ⟨x1, x2, x3, x4⟩ := c2 v h
      exact ⟨x1, x2, fun h0 => x3 (a1 v h0), x4⟩
  · by_cases c : f1.face p = f.face p
    · rw [← c] at hp
      obtain ⟨x, y, hx, hy, hm, e⟩ := d2 p hp
      exact ⟨x, y, hx, hy, List.mem_append_right _ hm, e⟩
    · obtain ⟨x, y, hx, hy, hm, e⟩ := d1 p c
      exact ⟨x, y, hx, hy, List.mem_append_left _ hm, e⟩

theorem andThen_eq_some (a : Option Effect) (k : quadtree → Option Effect) (e : Effect)
    (h : andThen a k = some e) :
    ∃ p p2, a = some p ∧ k p.1 = some p2 ∧ e = (p2.1, p.2 ++ p2.2) := by
  unfold andThen at h
  rcases a with _ | p
  · simp at h
  · rw [Option.some_bind] at h
    rcases hk : k p.1 with _ | p2
    · rw [hk] at h; simp at h
    · rw [hk] at h
      simp only [Option.map_some', Option.some.injEq] at h
      exact ⟨p, p2, rfl, hk, h.symm⟩

theorem andThen_painted (a : Option Effect) (k : quadtree → Option Effect) (f : quadtree)
    (e : Effect) (ha : ∀ p, a = some p → Painted f p.1 p.2)
    (hk : ∀ g p, k g = some p → Painted g p.1 p.2)
    (h : andThen a k = some e) : Painted f e.1 e.2 := by
  obtain ⟨p, p2, h1, h2, rfl⟩ := andThen_eq_some a k e h
  exact painted_trans f p.1 p2.1 p.2 p2.2 (ha p h1) (hk p.1 p2 h2)

theorem paint_child_painted (I : SubFaceRenderer) (i color : Nat) (b : Box) (f : quadtree)
    (e : Effect) (h1 : M ≤ i) (h2 : i < N) (h : I.paint_child i color b f = some e) :
    Painted f e.1 e.2 := by
  have hS := quadtree.SIZE_eq
  unfold paint_child load at h
  rw [if_pos h2, Option.some_bind] at h
  split_ifs at h with hm
  · unfold paint at h
    split_ifs at h with ho
    · simp only [Option.some.injEq] at h
      subst h
      exact painted_refl f
    · obtain ⟨x, y, hx, hy, rfl⟩ := leaf_is_pixel i h1 h2
      rw [quadtree.set_face_leaf f x y color hx hy, Option.some_bind,
        quadtree.store_eq _ _ _ h2] at h
      simp only [Option.map_some', Option.some.injEq] at h
      subst h
      refine ⟨fun j hj => ?_, List.nodup_singleton _, fun v hv => ?_, fun p hp => ?_⟩
      · show Function.update (Function.update f.map _ 0) _ 0 j = 0
        by_cases c : j = quadtree.set_index x y
        · rw [c, Function.update_same]
        · rw [Function.update_noteq c, Function.update_noteq c]; exact hj
      · rw [List.mem_singleton] at hv
        subst hv
        refine ⟨h1, h2, hm, ?_⟩
        show Function.update (Function.update f.map _ 0) _ 0 _ = 0
        rw [Function.update_same]
      · refine ⟨x, y, by omega, by omega, List.mem_singleton_self _, ?_⟩
        by_contra c
        apply hp
        show Function.update f.face _ color p = f.face p
        exact Function.update_noteq c _ _
  · simp only [Option.some.injEq] at h
    subst h
    exact painted_refl f

theorem quad_child_painted (rec : Traverse) (hrec : PaintsOnce rec) (i index color : Nat)
    (b : Box) (f : quadtree) (e : Effect)
    (h : quad_child rec i index color b f = some e) : Painted f e.1 e.2 := by
  unfold quad_child at h
  rcases hl : load f i with _ | m
  · rw [hl] at h; simp at h
  · rw [hl, Option.some_bind] at h
    split_ifs at h with hm
    · rcases hr : rec f i index color b with _ | res
      · rw [hr] at h; simp at h
      · rw [hr] at h
        simp only [Option.map_some', Option.some.injEq] at h
        subst h
        exact hrec f i index color b res hr
    · simp only [Option.some.injEq] at h
      subst h
      exact painted_refl f

theorem compute_painted (f f2 : quadtree) (r : Nat) (hr : r < M)
    (h : quadtree.compute f r = some f2) : Painted f f2 [] := by
  rcases quadtree.compute_cases f r hr with c | c
  · rw [c] at h
    simp only [Option.some.injEq] at h
    subst h
    exact painted_refl f
  · rw [c] at h
    simp only [Option.some.injEq] at h
    subst h
    refine ⟨fun j hj => ?_, List.nodup_nil, fun _ hv => absurd hv (List.not_mem_nil _),
      fun p hp => absurd rfl hp⟩
    show Function.update f.map r 0 j = 0
    by_cases c : j = r
    · rw [c, Function.update_same]
    · rw [Function.update_noteq c]; exact hj

theorem first_true_painted (rec : Traverse) (hrec : PaintsOnce rec) (r : Nat)
    (vs : List Visit) : ∀ (f : quadtree) (res : Bool × Effect),
    first_true rec r vs f = some res → Painted f res.2.1 res.2.2 := by
  induction vs with
  | nil =>
    intro f res h
    simp only [first_true, Option.some.injEq] at h
    subst h
    exact painted_refl f
  | cons v vs ih =>
    intro f res h
    rw [first_true] at h
    split_ifs at h with hg
    · rcases hc : rec f r v.index v.color v.box with _ | res1
      · rw [hc] at h; simp at h
      · rw [hc, Option.some_bind] at h
        have p1 := hrec f r v.index v.color v.box res1 hc
        split_ifs at h with ht
        · simp only [Option.some.injEq] at h
          subst h
          exact p1
        · rcases hn : first_true rec r vs res1.2.1 with _ | res2
          · rw [hn] at h; simp at h
          · rw [hn] at h
            simp only [Option.map_some', Option.some.injEq] at h
            subst h
            exact painted_trans _ _ _ _ _ p1 (ih _ _ hn)
    · exact ih f res h

theorem first_true_returns (rec : Traverse) (hrec : ReturnsRendered rec) (r : Nat)
    (vs : List Visit) : ∀ (f : quadtree) (res : Bool × Effect), f.map r ≠ 0 →
    first_true rec r vs f = some res → (res.1 = true ↔ res.2.1.map r = 0) := by
  induction vs with
  | nil =>
    intro f res h0 h
    simp only [first_true, Option.some.injEq] at h
    subst h
    simp [h0]
  | cons v vs ih =>
    intro f res h0 h
    rw [first_true] at h
    split_ifs at h with hg
    · rcases hc : rec f r v.index v.color v.box with _ | res1
      · rw [hc] at h; simp at h
      · rw [hc, Option.some_bind] at h
        have p1 := hrec f r v.index v.color v.box res1 h0 hc
        split_ifs at h with ht
        · simp only [Option.some.injEq] at h
          subst h
          simp only [true_iff]
          exact p1.1 ht
        · rcases hn : first_true rec r vs res1.2.1 with _ | res2
          · rw [hn] at h; simp at h
          · rw [hn] at h
            simp only [Option.map_some', Option.some.injEq] at h
            subst h
            exact ih _ res2 (fun hz => ht (p1.2 hz)) hn
    · exact ih f res h0 h

theorem load_eq_some (f : quadtree) (i m : Nat) (h : load f i = some m) : m = f.map i := by
  unfold load at h
  split_ifs at h
  simp only [Option.some.injEq] at h
  exact h.symm

theorem load_lt (f : quadtree) (i m : Nat) (h : load f i = some m) : i < N := by
  unfold load at h
  split_ifs at h with c
  exact c

theorem compute_some_lt (f f2 : quadtree) (r : Nat) (hN : r < N)
    (h : quadtree.compute f r = some f2) : r < M := by
  have hM := quadtree.M_eq
  have hN' := quadtree.N_eq
  unfold quadtree.compute quadtree.children at h
  rw [Nat.mod_eq_of_lt (by omega)] at h
  split_ifs at h with c
  · omega
  · simp at h

theorem traverse_body_returns (I : SubFaceRenderer) (root : Nat → octree) (rec : Traverse)
    (hrec : ReturnsRendered rec) : ReturnsRendered (I.traverse_body root rec) := by
  intro f r index color b res h0 h
  unfold traverse_body at h
  split_ifs at h with ho hreg
  · simp only [Option.some.injEq] at h
    subst h
    simp [h0]
  · exact first_true_returns rec hrec r _ f res h0 h
  · exact first_true_returns rec hrec r _ f res h0 h
  · rcases hq : I.quad_visits rec r index color b f with _ | p
    · rw [hq] at h; simp at h
    · rw [hq, Option.some_bind] at h
      rcases hc : quadtree.compute p.1 r with _ | f2
      · rw [hc] at h; simp at h
      · rw [hc, Option.some_bind] at h
        rcases hl : load f2 r with _ | m
        · rw [hl] at h; simp at h
        · rw [hl] at h
          simp only [Option.map_some', Option.some.injEq] at h
          subst h
          rw [load_eq_some f2 r m hl]
          simp

theorem quad_visits_painted (I : SubFaceRenderer) (rec : Traverse) (hrec : PaintsOnce rec)
    (r index color : Nat) (b : Box) (f : quadtree) (e : Effect) (hr : r < M)
    (h : I.quad_visits rec r index color b f = some e) : Painted f e.1 e.2 := by
  have hM := quadtree.M_eq
  have hL := quadtree.L_eq
  have hN := quadtree.N_eq
  have hi : ∀ c, c < 4 → (r * 4 + 4 + c) % 2 ^ 32 = r * 4 + 4 + c :=
    fun c hc => Nat.mod_eq_of_lt (by omega)
  unfold quad_visits at h
  simp only [hi 0 (by norm_num), hi 1 (by norm_num), hi 2 (by norm_num),
    hi 3 (by norm_num)] at h
  split_ifs at h with hl
  · refine andThen_painted _ _ f e (fun p hp => andThen_painted _ _ f p (fun p hp =>
      andThen_painted _ _ f p (fun p hp => ?_) (fun g p hp => ?_) hp)
      (fun g p hp => ?_) hp) (fun g p hp => ?_) h
    all_goals exact quad_child_painted rec hrec _ index color _ _ p hp
  · refine andThen_painted _ _ f e (fun p hp => andThen_painted _ _ f p (fun p hp =>
      andThen_painted _ _ f p (fun p hp => ?_) (fun g p hp => ?_) hp)
      (fun g p hp => ?_) hp) (fun g p hp => ?_) h
    all_goals exact paint_child_painted I _ color _ _ p (by omega) (by omega) hp

theorem traverse_body_paints (I : SubFaceRenderer) (root : Nat → octree) (rec : Traverse)
    (hrec : PaintsOnce rec) : PaintsOnce (I.traverse_body root rec) := by
  intro f r index color b res h
  unfold traverse_body at h
  split_ifs at h with ho hreg
  · simp only [Option.some.injEq] at h
    subst h
    exact painted_refl f
  · exact first_true_painted rec hrec r _ f res h
  · exact first_true_painted rec hrec r _ f res h
  · rcases hq : I.quad_visits rec r index color b f with _ | p
    · rw [hq] at h; simp at h
    · rw [hq, Option.some_bind] at h
      rcases hc : quadtree.compute p.1 r with _ | f2
      · rw [hc] at h; simp at h
      · rw [hc, Option.some_bind] at h
        rcases hl : load f2 r with _ | m
        · rw [hl] at h; simp at h
        · rw [hl] at h
          simp only [Option.map_some', Option.some.injEq] at h
          subst h
          have hr := compute_some_lt p.1 f2 r (load_lt f2 r m hl) hc
          have p1 := quad_visits_painted I rec hrec r index color b f p hr hq
          have p2 := painted_trans _ _ _ _ _ p1 (compute_painted p.1 f2 r hr hc)
          rw [List.append_nil] at p2
          exact p2

theorem traverse_returns (I : SubFaceRenderer) (root : Nat → octree) (n : Nat) :
    ReturnsRendered (I.traverse root n) := by
  induction n with
  | zero =>
    intro f r index color b res _ h
    simp [SubFaceRenderer.traverse] at h
  | succ n ih => exact traverse_body_returns I root _ ih

theorem traverse_paints (I : SubFaceRenderer) (root : Nat → octree) (n : Nat) :
    PaintsOnce (I.traverse root n) := by
  induction n with
  | zero =>
    intro f r index color b res h
    simp [SubFaceRenderer.traverse] at h
  | succ n ih => exact traverse_body_paints I root _ ih

theorem render_painted (F : FaceRenderer) (root : Nat → octree) (fuel : Nat) (f : quadtree)
    (x y Q : Int) (e : Effect) (h : F.render root fuel f x y Q = some e) :
    Painted f e.1 e.2 := by
  unfold FaceRenderer.render at h
  refine andThen_painted _ _ f e (fun p hp => andThen_painted _ _ f p (fun p hp =>
    andThen_painted _ _ f p (fun p hp => ?_) (fun g p hp => ?_) hp)
    (fun g p hp => ?_) hp) (fun g p hp => ?_) h
  all_goals exact quad_child_painted _ (traverse_paints _ root fuel) _ 0 0 _ _ p hp

theorem painted_keeps (f f1 : quadtree) (log : List Nat) (h : Painted f f1 log) :
    (∀ x y, x < SIZE → y < SIZE → f.map (quadtree.set_index x y) = 0 →
      f1.face (y * SIZE + x) = f.face (y * SIZE + x)) ∧
    (∀ v, log.count v ≤ 1) := by
  obtain ⟨_, b, c, d⟩ := h
  refine ⟨fun x y hx hy h0 => ?_, fun v => List.nodup_iff_count_le_one.1 b v⟩
  by_contra hne
  obtain ⟨x1, y1, hx1, hy1, hm, e⟩ := d _ hne
  have hS := quadtree.SIZE_eq
  have ex : x = x1 := by
    rw [hS] at e hx hx1
    omega
  have ey : y = y1 := by
    rw [hS] at e hx hx1
    omega
  subst ex ey
  exact (c _ hm).2.2.1 h0

theorem first_true_stops (rec : Traverse) (r : Nat) (v : Visit) (vs2 : List Visit)
    (vs1 : List Visit) : ∀ (f g g2 : quadtree) (l1 l2 : List Nat),
    first_true rec r vs1 f = some (false, g, l1) → v.guard = true →
    rec g r v.index v.color v.box = some (true, g2, l2) →
    first_true rec r (vs1 ++ v :: vs2) f = some (true, g2, l1 ++ l2) := by
  induction vs1 with
  | nil =>
    intro f g g2 l1 l2 h hg hc
    simp only [first_true, Option.some.injEq, Prod.mk.injEq] at h
    obtain ⟨_, rfl, rfl⟩ := h
    simp [first_true, hg, hc]
  | cons w ws ih =>
    intro f g g2 l1 l2 h hg hc
    rw [first_true] at h
    rw [List.cons_append, first_true]
    split_ifs at h with hw
    · rcases hr : rec f r w.index w.color w.box with _ | res1
      · rw [hr] at h; simp at h
      · rw [hr, Option.some_bind] at h
        rw [if_pos hw, Option.some_bind]
        split_ifs at h with ht
        · simp at h
        · rw [if_neg ht]
          rcases hn : first_true rec r ws res1.2.1 with _ | res2
          · rw [hn] at h; simp at h
          · rw [hn] at h
            simp only [Option.map_some', Option.some.injEq, Prod.mk.injEq] at h
            obtain ⟨h1, h2, h3⟩ := h
            obtain ⟨b2, g', l'⟩ := res2
            simp only at h1 h2 h3
            subst h1 h2 h3
            rw [ih res1.2.1 g' g2 l' l2 hn hg hc]
            simp
    · rw [if_neg hw]
      exact ih f g g2 l1 l2 h hg hc

theorem example_run :
    ∃ f1, exampleRenderer.traverse examplePool 2 exampleFace L ALL_ONES 7 exampleBox =
      some (false, f1, [M, M + 2]) :=
  ⟨_, rfl⟩

theorem example_wide_run :
    ∃ f1, exampleRenderer.traverse examplePool 1 exampleFace L 0 7 exampleWideBox =
      some (true, f1, [M, M + 1, M + 2, M + 3]) :=
  ⟨_, rfl⟩

theorem paint_child_cases (I : SubFaceRenderer) (i color : Nat) (b : Box) (f f1 : quadtree)
    (log : List Nat) (h : I.paint_child i color b f = some (f1, log)) :
    (log = [] ∧ f1 = f) ∨ (log = [i] ∧ f.map i ≠ 0 ∧ f1.map i = 0) := by
  unfold paint_child at h
  rcases hl : load f i with _ | m
  · rw [hl] at h; simp at h
  · rw [hl, Option.some_bind] at h
    have hm := load_eq_some f i m hl
    subst hm
    split_ifs at h with h0
    · unfold paint at h
      split_ifs at h with ho
      · simp only [Option.some.injEq, Prod.mk.injEq] at h
        exact Or.inl ⟨h.2.symm, h.1.symm⟩
      · rcases hs : quadtree.set_face f i color with _ | g
        · rw [hs] at h; simp at h
        · rw [hs, Option.some_bind] at h
          unfold quadtree.store at h
          split_ifs at h
          · simp only [Option.map_some', Option.some.injEq, Prod.mk.injEq] at h
            obtain ⟨h1, h2⟩ := h
            subst h1
            exact Or.inr ⟨h2.symm, h0, Function.update_same _ _ _⟩
          · simp at h
    · simp only [Option.some.injEq, Prod.mk.injEq] at h
      exact Or.inl ⟨h.2.symm, h.1.symm⟩

/-- C13: the return contract of `SubFaceRenderer::traverse`.  For every instantiation,
pool and quadtree, a call of `traverse` on a node `r` whose byte is nonzero that returns
(whatever the bound on the depth) returns true exactly when `map[r]` is zero on return;
the bound `r < M` is not needed.  In the octree regime the call is the sequence of
guarded child calls, and when a child call returns true the value is true at once: the
statements after it have no effect on the result. -/
theorem traverse_returns_rendered (I : SubFaceRenderer) (root : Nat → octree) (fuel : Nat)
    (f : quadtree) (r index color : Nat) (b : Box) (ret : Bool) (f1 : quadtree)
    (log : List Nat) (h0 : f.map r ≠ 0)
    (h : I.traverse root fuel f r index color b = some (ret, f1, log)) :
    (ret = true ↔ f1.map r = 0) ∧
    (I.off_face b = false → b.x2 - b.x1 ≤ 2 * I.ONE ∧ b.y2 - b.y1 ≤ 2 * I.ONE →
      ∀ n, I.traverse root (n + 1) f r index color b =
        first_true (I.traverse root n) r
          (if index ≠ ALL_ONES then I.node_visits (root index) b
            else I.leaf_visits color b) f) ∧
    (∀ n vs1 v vs2 g g2 l1 l2,
      first_true (I.traverse root n) r vs1 f = some (false, g, l1) → v.guard = true →
      I.traverse root n g r v.index v.color v.box = some (true, g2, l2) →
      first_true (I.traverse root n) r (vs1 ++ v :: vs2) f = some (true, g2, l1 ++ l2)) := by
  refine ⟨traverse_returns I root fuel f r index color b (ret, f1, log) h0 h,
    fun ho hreg n => ?_, fun n vs1 v vs2 g g2 l1 l2 h1 hg h2 =>
      first_true_stops _ r v vs2 vs1 f g g2 l1 l2 h1 hg h2⟩
  show I.traverse_body root (I.traverse root n) f r index color b = _
  unfold traverse_body
  rw [if_neg (by rw [ho]; simp), if_pos hreg]

theorem traverse_returns_rendered_witness :
    exampleFace.map L ≠ 0 ∧
    ∃ f1, exampleRenderer.traverse examplePool 1 exampleFace L 0 7 exampleWideBox =
        some (true, f1, [M, M + 1, M + 2, M + 3]) ∧
      (true = true ↔ f1.map L = 0) := by
  obtain ⟨f1, h⟩ := example_wide_run
  exact ⟨by decide, f1, h,
    (traverse_returns_rendered exampleRenderer examplePool 1 exampleFace L 0 7
      exampleWideBox true f1 _ (by decide) h).1⟩

/-- C14: write-once pixels.  For every call of `traverse` that returns (whatever the
bound on the depth), and for every call of `FaceRenderer::render` that returns, with `f` the
quadtree before, `f1` the quadtree after and `log` the nodes given to `set_face`:
no map byte goes from zero to nonzero, every painted node is a leaf whose byte was
nonzero and is zero afterwards, no leaf is painted twice, the face differs from the one
before at most at the pixels of the painted leaves (these are the four parts of
`Painted`); every pixel whose leaf byte was zero keeps its colour; and `set_face` is
called at most once for each leaf.  `set_face` is called only by `paint`, and a call
`if (f.map[i]) paint(f, i, ...)` either does nothing or is made on a byte that is nonzero
immediately before and zero immediately after. -/
theorem paint_writes_once :
    (∀ (I : SubFaceRenderer) (root : Nat → octree) (fuel : Nat) (f : quadtree)
      (r index color : Nat) (b : Box) (ret : Bool) (f1 : quadtree) (log : List Nat),
      I.traverse root fuel f r index color b = some (ret, f1, log) →
      Painted f f1 log ∧
      (∀ x y, x < SIZE → y < SIZE → f.map (quadtree.set_index x y) = 0 →
        f1.face (y * SIZE + x) = f.face (y * SIZE + x)) ∧
      (∀ v, log.count v ≤ 1)) ∧
    (∀ (F : FaceRenderer) (root : Nat → octree) (fuel : Nat) (f : quadtree) (x y Q : Int)
      (f1 : quadtree) (log : List Nat),
      F.render root fuel f x y Q = some (f1, log) →
      Painted f f1 log ∧
      (∀ x y, x < SIZE → y < SIZE → f.map (quadtree.set_index x y) = 0 →
        f1.face (y * SIZE + x) = f.face (y * SIZE + x)) ∧
      (∀ v, log.count v ≤ 1)) ∧
    (∀ (I : SubFaceRenderer) (i color : Nat) (b : Box) (f f1 : quadtree) (log : List Nat),
      I.paint_child i color b f = some (f1, log) →
      (log = [] ∧ f1 = f) ∨ (log = [i] ∧ f.map i ≠ 0 ∧ f1.map i = 0)) := by
  refine ⟨fun I root fuel f r index color b ret f1 log h => ?_,
    fun F root fuel f x y Q f1 log h => ?_, paint_child_cases⟩
  · have p := traverse_paints I root fuel f r index color b (ret, f1, log) h
    exact ⟨p, painted_keeps f f1 log p⟩
  · have p := render_painted F root fuel f x y Q (f1, log) h
    exact ⟨p, painted_keeps f f1 log p⟩

theorem paint_writes_once_witness :
    ∃ f1, exampleRenderer.traverse examplePool 2 exampleFace L ALL_ONES 7 exampleBox =
        some (false, f1, [M, M + 2]) ∧
      Painted exampleFace f1 [M, M + 2] := by
  obtain ⟨f1, h⟩ := example_run
  exact ⟨f1, h,
    (paint_writes_once.1 exampleRenderer examplePool 2 exampleFace L ALL_ONES 7 exampleBox
      false f1 _ h).1⟩

/-- C18 (as stated): a call in the leaf case (`index == ~0u`, octree regime, on the
face) that paints the leaves `M` and `M + 2` through children of the near layer: the four
children of the far layer are all off the face, and visiting only them, as the sentence
has it, paints nothing. -/
theorem leaf_near_children_counterexample :
    exampleRenderer.off_face exampleBox = false ∧
    (exampleBox.x2 - exampleBox.x1 ≤ 2 * exampleRenderer.ONE ∧
      exampleBox.y2 - exampleBox.y1 ≤ 2 * exampleRenderer.ONE) ∧
    (∃ f1, exampleRenderer.traverse examplePool 2 exampleFace L ALL_ONES 7 exampleBox =
      some (false, f1, [M, M + 2])) ∧
    first_true (exampleRenderer.traverse examplePool 1) L
      (leaf_visits_claimed exampleRenderer 7 exampleBox) exampleFace =
      some (false, exampleFace, []) :=
  ⟨by decide, by decide, ⟨_, rfl⟩, rfl⟩

/-- C18 (amended): the leaf case of `traverse`.  When the octree regime is entered with
`index == ~0u`, the call is the sequence of guarded calls `leaf_visits_amended`: if the
shrunk interval is non-empty (`x3<x4 && y3<y4`), the three children of the near layer
other than the nearest one, then the four children of the far layer.  The intervals are
those of the node case with the first (nearest) one left out, and every call has the
colour of the caller and the index `~0u`. -/
theorem leaf_case_visits (I : SubFaceRenderer) (root : Nat → octree) (n : Nat)
    (f : quadtree) (r color : Nat) (b : Box) (hon : I.off_face b = false)
    (hreg : b.x2 - b.x1 ≤ 2 * I.ONE ∧ b.y2 - b.y1 ≤ 2 * I.ONE) :
    I.traverse root (n + 1) f r ALL_ONES color b =
      first_true (I.traverse root n) r (leaf_visits_amended I color b) f ∧
    (∀ s : octree, (leaf_visits_amended I color b).map Visit.box =
      if near_open b then ((I.node_visits s b).map Visit.box).tail
      else (I.node_visits s b).map Visit.box) ∧
    (∀ v ∈ leaf_visits_amended I color b,
      v.guard = true ∧ v.index = ALL_ONES ∧ v.color = color) := by
  refine ⟨?_, fun s => ?_, fun v hv => ?_⟩
  · show I.traverse_body root (I.traverse root n) f r ALL_ONES color b = _
    unfold traverse_body
    rw [if_neg (by rw [hon]; simp), if_pos hreg, if_neg (by simp)]
    have e : I.leaf_visits color b = leaf_visits_amended I color b := by
      unfold leaf_visits leaf_visits_amended
      by_cases c : near_open b = true
      · simp [c, octant_signs]
      · simp [c, octant_signs]
    rw [e]
  · unfold leaf_visits_amended node_visits
    by_cases c : near_open b = true
    · simp [c, octant_signs, visit]
    · simp [c, octant_signs, visit]
  · unfold leaf_visits_amended at hv
    simp only [List.mem_append, List.mem_map] at hv
    rcases hv with ⟨s, _, rfl⟩ | ⟨s, _, rfl⟩ <;> exact ⟨rfl, rfl, rfl⟩

theorem leaf_case_visits_witness :
    (exampleRenderer.off_face exampleBox = false ∧
      (exampleBox.x2 - exampleBox.x1 ≤ 2 * exampleRenderer.ONE ∧
        exampleBox.y2 - exampleBox.y1 ≤ 2 * exampleRenderer.ONE)) ∧
    exampleRenderer.traverse examplePool (1 + 1) exampleFace L ALL_ONES 7 exampleBox =
      first_true (exampleRenderer.traverse examplePool 1) L
        (leaf_visits_amended exampleRenderer 7 exampleBox) exampleFace :=
  ⟨⟨by decide, by decide⟩,
    (leaf_case_visits exampleRenderer examplePool 1 exampleFace L 7 exampleBox
      (by decide) (by decide)).1⟩

theorem set_face_decode (v : Nat) (h1 : M ≤ v) (h2 : v < N) :
    quadtree.set_face_compact ((v + 2 ^ 32 - M) % 2 ^ 32) &&& 0xffff < SIZE ∧
    quadtree.set_face_compact (((v + 2 ^ 32 - M) % 2 ^ 32) >>> 1) &&& 0xffff < SIZE ∧
    ∀ (f : quadtree) (color : Nat), ∃ f1, quadtree.set_face f v color = some f1 := by
  have hM := quadtree.M_eq
  have hS := quadtree.SIZE_eq
  obtain ⟨x, y, hx, hy, rfl⟩ := leaf_is_pixel v h1 h2
  have hm := quadtree.morton2d_lt x y hx hy
  obtain ⟨cx, cy⟩ := quadtree.compact_morton2d x y hx hy
  have hv : (quadtree.set_index x y + 2 ^ 32 - M) % 2 ^ 32 = quadtree.morton2d x y := by
    rw [quadtree.set_index_eq x y hx hy]
    have : M + quadtree.morton2d x y + 2 ^ 32 - M = quadtree.morton2d x y + 2 ^ 32 := by
      omega
    rw [this, Nat.add_mod_right, Nat.mod_eq_of_lt (by omega)]
  rw [hv, cx, cy, hS]
  exact ⟨hx, hy, fun f color => ⟨_, quadtree.set_face_leaf f x y color hx hy⟩⟩

theorem load_some (f : quadtree) (i : Nat) (h : i < N) : load f i = some (f.map i) := by
  unfold load
  rw [if_pos h]

theorem paint_child_some (I : SubFaceRenderer) (i color : Nat) (b : Box) (f : quadtree)
    (h1 : M ≤ i) (h2 : i < N) : ∃ e, I.paint_child i color b f = some e := by
  unfold paint_child
  rw [load_some f i h2, Option.some_bind]
  split_ifs with hm
  · unfold paint
    split_ifs with ho
    · exact ⟨_, rfl⟩
    · obtain ⟨f1, e⟩ := (set_face_decode i h1 h2).2.2 f color
      rw [e, Option.some_bind, quadtree.store_eq _ _ _ h2]
      exact ⟨_, rfl⟩
  · exact ⟨_, rfl⟩

theorem compute_some (f : quadtree) (r : Nat) (hr : r < M) :
    ∃ f1, quadtree.compute f r = some f1 := by
  rcases quadtree.compute_cases f r hr with c | c
  · exact ⟨_, c⟩
  · exact ⟨_, c⟩

theorem andThen_eq_none (a : Option Effect) (k : quadtree → Option Effect)
    (h : andThen a k = none) : a = none ∨ ∃ p, a = some p ∧ k p.1 = none := by
  unfold andThen at h
  rcases a with _ | p
  · exact Or.inl rfl
  · right
    rw [Option.some_bind] at h
    rcases hk : k p.1 with _ | p2
    · exact ⟨p, rfl, hk⟩
    · rw [hk] at h; simp at h

theorem quad_child_none (rec : Traverse) (i index color : Nat) (b : Box) (f : quadtree)
    (hi : i < N) (h : quad_child rec i index color b f = none) :
    f.map i ≠ 0 ∧ rec f i index color b = none := by
  unfold quad_child at h
  rw [load_some f i hi, Option.some_bind] at h
  split_ifs at h with hm
  · refine ⟨hm, ?_⟩
    rcases hr : rec f i index color b with _ | res
    · rfl
    · rw [hr] at h; simp at h

theorem first_true_none (rec : Traverse) (r : Nat) (vs : List Visit) :
    ∀ f, first_true rec r vs f = none →
      ∃ g index color b, rec g r index color b = none := by
  induction vs with
  | nil => intro f h; simp [first_true] at h
  | cons v vs ih =>
    intro f h
    rw [first_true] at h
    split_ifs at h with hg
    · rcases hc : rec f r v.index v.color v.box with _ | res1
      · exact ⟨f, _, _, _, hc⟩
      · rw [hc, Option.some_bind] at h
        split_ifs at h with ht
        rcases hn : first_true rec r vs res1.2.1 with _ | res2
        · exact ih _ hn
        · rw [hn] at h; simp at h
    · exact ih f h

theorem quad_visits_none (I : SubFaceRenderer) (rec : Traverse) (r index color : Nat)
    (b : Box) (f : quadtree) (hr : r < M) (h : I.quad_visits rec r index color b f = none) :
    ∃ g r1 index1 color1 b1, r1 < M ∧ rec g r1 index1 color1 b1 = none := by
  have hM := quadtree.M_eq
  have hL := quadtree.L_eq
  have hN := quadtree.N_eq
  have hi : ∀ c, c < 4 → (r * 4 + 4 + c) % 2 ^ 32 = r * 4 + 4 + c :=
    fun c hc => Nat.mod_eq_of_lt (by omega)
  unfold quad_visits at h
  simp only [hi 0 (by norm_num), hi 1 (by norm_num), hi 2 (by norm_num),
    hi 3 (by norm_num)] at h
  split_ifs at h with hl
  · have key : ∀ i g bx, i < M → quad_child rec i index color bx g = none →
        ∃ g r1 index1 color1 b1, r1 < M ∧ rec g r1 index1 color1 b1 = none :=
      fun i g bx him hq => ⟨g, i, index, color, bx, him,
        (quad_child_none rec i index color bx g (by omega) hq).2⟩
    rcases andThen_eq_none _ _ h with h | ⟨p, _, h⟩
    · rcases andThen_eq_none _ _ h with h | ⟨p, _, h⟩
      · rcases andThen_eq_none _ _ h with h | ⟨p, _, h⟩
        · exact key _ _ _ (by omega) h
        · exact key _ _ _ (by omega) h
      · exact key _ _ _ (by omega) h
    · exact key _ _ _ (by omega) h
  · have key : ∀ i g bx, M ≤ i → i < N → I.paint_child i color bx g ≠ none :=
      fun i g bx h1 h2 hq => by
        obtain ⟨e, he⟩ := paint_child_some I i color bx g h1 h2
        rw [he] at hq
        simp at hq
    rcases andThen_eq_none _ _ h with h | ⟨p, _, h⟩
    · rcases andThen_eq_none _ _ h with h | ⟨p, _, h⟩
      · rcases andThen_eq_none _ _ h with h | ⟨p, _, h⟩
        · exact absurd h (key _ _ _ (by omega) (by omega))
        · exact absurd h (key _ _ _ (by omega) (by omega))
      · exact absurd h (key _ _ _ (by omega) (by omega))
    · exact absurd h (key _ _ _ (by omega) (by omega))

theorem traverse_body_none (I : SubFaceRenderer) (root : Nat → octree) (rec : Traverse)
    (f : quadtree) (r index color : Nat) (b : Box) (hr : r < M)
    (h : I.traverse_body root rec f r index color b = none) :
    ∃ g r1 index1 color1 b1, r1 < M ∧ rec g r1 index1 color1 b1 = none := by
  have hM := quadtree.M_eq
  have hN := quadtree.N_eq
  unfold traverse_body at h
  split_ifs at h with ho hreg hidx
  · obtain ⟨g, i1, c1, b1, e⟩ := first_true_none rec r _ f h
    exact ⟨g, r, i1, c1, b1, hr, e⟩
  · obtain ⟨g, i1, c1, b1, e⟩ := first_true_none rec r _ f h
    exact ⟨g, r, i1, c1, b1, hr, e⟩
  · rcases hq : I.quad_visits rec r index color b f with _ | p
    · exact quad_visits_none I rec r index color b f hr hq
    · rw [hq, Option.some_bind] at h
      obtain ⟨f2, hc⟩ := compute_some p.1 r hr
      rw [hc, Option.some_bind, load_some f2 r (by omega)] at h
      simp at h

theorem first_true_congr (rec1 rec2 : Traverse) (r : Nat)
    (h : ∀ f index color b, rec1 f r index color b = rec2 f r index color b)
    (vs : List Visit) : ∀ f, first_true rec1 r vs f = first_true rec2 r vs f := by
  induction vs with
  | nil => intro f; rfl
  | cons v vs ih =>
    intro f
    rw [first_true, first_true, h]
    simp only [ih]

theorem quad_child_interior (rec : Traverse) (i index color : Nat) (b : Box) (f : quadtree)
    (hi : i < M) : quad_child (on_interior rec) i index color b f =
      quad_child rec i index color b f := by
  unfold quad_child on_interior
  rw [if_pos hi]

theorem traverse_body_interior (I : SubFaceRenderer) (root : Nat → octree) (rec : Traverse)
    (f : quadtree) (r index color : Nat) (b : Box) (hr : r < M) :
    I.traverse_body root (on_interior rec) f r index color b =
      I.traverse_body root rec f r index color b := by
  have hM := quadtree.M_eq
  have hL := quadtree.L_eq
  have hi : ∀ c, c < 4 → (r * 4 + 4 + c) % 2 ^ 32 = r * 4 + 4 + c :=
    fun c hc => Nat.mod_eq_of_lt (by omega)
  have hq : I.quad_visits (on_interior rec) r index color b f =
      I.quad_visits rec r index color b f := by
    unfold quad_visits
    by_cases hl : r < L
    · simp only [if_pos hl, hi 0 (by norm_num), hi 1 (by norm_num), hi 2 (by norm_num),
        hi 3 (by norm_num)]
      have e : ∀ c, c < 4 → ∀ bx, quad_child (on_interior rec) (r * 4 + 4 + c) index color bx =
          quad_child rec (r * 4 + 4 + c) index color bx :=
        fun c hc bx => funext fun g => quad_child_interior rec _ index color bx g (by omega)
      rw [e 0 (by norm_num), e 1 (by norm_num), e 2 (by norm_num), e 3 (by norm_num)]
    · simp only [if_neg hl]
  unfold traverse_body
  rw [hq, first_true_congr (on_interior rec) rec r (fun g index color b => by
    unfold on_interior; rw [if_pos hr])]

theorem render_none (F : FaceRenderer) (root : Nat → octree) (fuel : Nat) (f : quadtree)
    (x y Q : Int) (h : F.render root fuel f x y Q = none) :
    ∃ (I : SubFaceRenderer) (g : quadtree) (r : Nat) (b : Box), r < 4 ∧ g.map r ≠ 0 ∧
      I.traverse root fuel g r 0 0 b = none := by
  have hN := quadtree.N_eq
  have key : ∀ (I : SubFaceRenderer) r g bx, r < 4 →
      quad_child (I.traverse root fuel) r 0 0 bx g = none →
      ∃ (I : SubFaceRenderer) (g : quadtree) (r : Nat) (b : Box), r < 4 ∧ g.map r ≠ 0 ∧
        I.traverse root fuel g r 0 0 b = none :=
    fun I r g bx hr hq =>
      ⟨I, g, r, bx, hr, quad_child_none _ r 0 0 bx g (by omega) hq⟩
  unfold FaceRenderer.render at h
  rcases andThen_eq_none _ _ h with h | ⟨p, _, h⟩
  · rcases andThen_eq_none _ _ h with h | ⟨p, _, h⟩
    · rcases andThen_eq_none _ _ h with h | ⟨p, _, h⟩
      · exact key _ _ _ _ (by norm_num) h
      · exact key _ _ _ _ (by norm_num) h
    · exact key _ _ _ _ (by norm_num) h
  · exact key _ _ _ _ (by norm_num) h

/-- C21: index safety of a face render.  In the embedding every access to `map`,
`children` and the face outside its bounds makes the call fail, and so does reaching the
bound on the depth of the recursion.  (1) `render` fails only if one of its calls of
`traverse` on a root `r < 4` fails.  (2) A call of `traverse` on an interior node `r < M`
fails only if one of its recursive calls fails, and that call is on a node `r1 < M`: the
body makes no access out of bounds, so a failure can only come from the bound on the
depth.  (3) Every recursive call is on a node below `M`: making the calls on other nodes
fail changes nothing.  (4, 5) Every node given to `paint` / `set_face` by a call that
returns lies in `[M, N)`.  (6) For such a node the decoded pixel has `x < SIZE` and
`y < SIZE`, and `set_face` stays inside `map` and the face.  (7) For `r < M`, `compute(r)`
reads `children[r+1]` with `r + 1 < N/4` and stays inside `map`. -/
theorem render_index_safety :
    (∀ (F : FaceRenderer) (root : Nat → octree) (fuel : Nat) (f : quadtree) (x y Q : Int),
      F.render root fuel f x y Q = none →
      ∃ (I : SubFaceRenderer) (g : quadtree) (r : Nat) (b : Box), r < 4 ∧ g.map r ≠ 0 ∧
        I.traverse root fuel g r 0 0 b = none) ∧
    (∀ (I : SubFaceRenderer) (root : Nat → octree) (rec : Traverse) (f : quadtree)
      (r index color : Nat) (b : Box), r < M →
      I.traverse_body root rec f r index color b = none →
      ∃ g r1 index1 color1 b1, r1 < M ∧ rec g r1 index1 color1 b1 = none) ∧
    (∀ (I : SubFaceRenderer) (root : Nat → octree) (rec : Traverse) (f : quadtree)
      (r index color : Nat) (b : Box), r < M →
      I.traverse_body root (on_interior rec) f r index color b =
        I.traverse_body root rec f r index color b) ∧
    (∀ (I : SubFaceRenderer) (root : Nat → octree) (fuel : Nat) (f : quadtree)
      (r index color : Nat) (b : Box) (ret : Bool) (f1 : quadtree) (log : List Nat),
      I.traverse root fuel f r index color b = some (ret, f1, log) →
      ∀ v ∈ log, M ≤ v ∧ v < N) ∧
    (∀ (F : FaceRenderer) (root : Nat → octree) (fuel : Nat) (f : quadtree) (x y Q : Int)
      (f1 : quadtree) (log : List Nat),
      F.render root fuel f x y Q = some (f1, log) → ∀ v ∈ log, M ≤ v ∧ v < N) ∧
    (∀ v, M ≤ v → v < N →
      quadtree.set_face_compact ((v + 2 ^ 32 - M) % 2 ^ 32) &&& 0xffff < SIZE ∧
      quadtree.set_face_compact (((v + 2 ^ 32 - M) % 2 ^ 32) >>> 1) &&& 0xffff < SIZE ∧
      ∀ (f : quadtree) (color : Nat), ∃ f1, quadtree.set_face f v color = some f1) ∧
    (∀ r, r < M → (r + 1) % 2 ^ 32 < N / 4 ∧
      ∀ f : quadtree, ∃ f1, quadtree.compute f r = some f1) := by
  have hM := quadtree.M_eq
  have hN := quadtree.N_eq
  refine ⟨render_none, traverse_body_none, traverse_body_interior,
    fun I root fuel f r index color b ret f1 log h v hv => ?_,
    fun F root fuel f x y Q f1 log h v hv => ?_, set_face_decode,
    fun r hr => ⟨by rw [Nat.mod_eq_of_lt (by omega)]; omega, fun f => compute_some f r hr⟩⟩
  · obtain ⟨h1, h2, _⟩ :=
      (traverse_paints I root fuel f r index color b (ret, f1, log) h).2.2.1 v hv
    exact ⟨h1, h2⟩
  · obtain ⟨h1, h2, _⟩ := (render_painted F root fuel f x y Q (f1, log) h).2.2.1 v hv
    exact ⟨h1, h2⟩

theorem render_index_safety_witness :
    ∃ f1, exampleRenderer.traverse examplePool 2 exampleFace L ALL_ONES 7 exampleBox =
        some (false, f1, [M, M + 2]) ∧
      ∀ v ∈ [M, M + 2], M ≤ v ∧ v < N := by
  obtain ⟨f1, h⟩ := example_run
  exact ⟨f1, h, render_index_safety.2.2.2.1 exampleRenderer examplePool 2 exampleFace L
    ALL_ONES 7 exampleBox false f1 _ h⟩

end octree_draw
